import Mathlib

/-!
libsquish block orchestrator and image tiler (`squish.cpp`)

A shallow embedding of `xbmc/lib/libsquish/squish.cpp`.

* C `int` values are modelled by `Int`; `&`, `|` and `<<` are `Int.land`, `Int.lor` and `<<<`
  (two's complement on unbounded integers), `/` is the truncating `Int.tdiv`.  Signed overflow is
  undefined behaviour in C, so the embedding describes the code on the inputs where no `int`
  operation overflows.  The section on 32-bit `int` gives `GetStorageRequirements` and the three
  image functions a second time with the sums and products reduced modulo `2^32` (`wrapInt`),
  and `CopyRGBA` with both pointers into one memory; `NoOverflow` describes the inputs on which
  the two readings agree.
* The flag enumerators of `squish.h` and the sub-codecs of `colourset.h`, `rangefit.h`,
  `clusterfit.h`, `singlecolourfit.h`, `colourblock.h` and `alpha.h` are not part of the sources
  at hand, so they are parameters (`FlagConsts`, `SubCodecs`).
* Memory reached through a pointer is a function from byte addresses to bytes; a call to a
  sub-codec is recorded in a trace next to its effect on memory.
-/

namespace squish

/-! ## Flags -/

/-- The eight flag enumerators of `squish.h`, taken as parameters. -/
structure FlagConsts where
  kDxt1 : Int
  kDxt3 : Int
  kDxt5 : Int
  kColourIterativeClusterFit : Int
  kColourClusterFit : Int
  kColourRangeFit : Int
  kWeightColourByAlpha : Int
  kSourceBGRA : Int
deriving DecidableEq, Repr

/-- The eight enumerators in declaration order. -/
def FlagConsts.toList (c : FlagConsts) : List Int :=
  [c.kDxt1, c.kDxt3, c.kDxt5, c.kColourIterativeClusterFit, c.kColourClusterFit,
   c.kColourRangeFit, c.kWeightColourByAlpha, c.kSourceBGRA]

/-- The enumerators are eight distinct single-bit constants. -/
def FlagConsts.SingleBits (c : FlagConsts) : Prop :=
  (∀ v ∈ c.toList, ∃ k : Nat, v = 2 ^ k) ∧ c.toList.Nodup

/-- The values libsquish gives the enumerators (`1 << 0`, `1 << 1`, `1 << 2`, `1 << 8`,
`1 << 3`, `1 << 4`, `1 << 7`, `1 << 9`), used as a concrete instance. -/
def stdFlags : FlagConsts :=
  { kDxt1 := 1, kDxt3 := 2, kDxt5 := 4, kColourIterativeClusterFit := 256,
    kColourClusterFit := 8, kColourRangeFit := 16, kWeightColourByAlpha := 128,
    kSourceBGRA := 512 }

/-- Embedding of `static int FixFlags( int flags )`. -/
def FixFlags (c : FlagConsts) (flags : Int) : Int :=
  -- grab the flag bits
  let method := Int.land flags (Int.lor (Int.lor c.kDxt1 c.kDxt3) c.kDxt5)
  let fit := Int.land flags
    (Int.lor (Int.lor c.kColourIterativeClusterFit c.kColourClusterFit) c.kColourRangeFit)
  let extra := Int.land flags (Int.lor c.kWeightColourByAlpha c.kSourceBGRA)
  -- set defaults
  let method := if method ≠ c.kDxt3 ∧ method ≠ c.kDxt5 then c.kDxt1 else method
  let fit := if fit ≠ c.kColourRangeFit ∧ fit ≠ c.kColourIterativeClusterFit
    then c.kColourClusterFit else fit
  -- done
  Int.lor (Int.lor method fit) extra

/-- Embedding of `int GetStorageRequirements( int width, int height, int flags )` on exact
integers; `int32.GetStorageRequirements` is the function on 32-bit `int`. -/
def GetStorageRequirements (c : FlagConsts) (width height flags : Int) : Int :=
  let flags := FixFlags c flags
  let blockcount := Int.tdiv (width + 3) 4 * Int.tdiv (height + 3) 4
  let blocksize : Int := if Int.land flags c.kDxt1 ≠ 0 then 8 else 16
  blockcount * blocksize

/-! ### Vocabulary of the specification for flags -/

/-- The three block formats. -/
inductive Format where
  | dxt1
  | dxt3
  | dxt5
deriving DecidableEq, Repr

/-- The three colour fit methods. -/
inductive FitMethod where
  | range
  | cluster
  | iterativeCluster
deriving DecidableEq, Repr

/-- Mask of the format group, `kDxt1 | kDxt3 | kDxt5`. -/
def formatMask (c : FlagConsts) : Int := Int.lor (Int.lor c.kDxt1 c.kDxt3) c.kDxt5

/-- Mask of the fit group. -/
def fitMask (c : FlagConsts) : Int :=
  Int.lor (Int.lor c.kColourIterativeClusterFit c.kColourClusterFit) c.kColourRangeFit

/-- Mask of the modifier bits, `kWeightColourByAlpha | kSourceBGRA`. -/
def modifierMask (c : FlagConsts) : Int := Int.lor c.kWeightColourByAlpha c.kSourceBGRA

/-- Mask of the eight known flag bits. -/
def knownMask (c : FlagConsts) : Int :=
  Int.lor (Int.lor (formatMask c) (fitMask c)) (modifierMask c)

/-- Format selected by `flags` as the specification words it: DXT3 or DXT5 when the format bits
are exactly that enumerator, the default DXT1 in every other case. -/
def normalisedFormat (c : FlagConsts) (flags : Int) : Format :=
  if Int.land flags (formatMask c) = c.kDxt3 then Format.dxt3
  else if Int.land flags (formatMask c) = c.kDxt5 then Format.dxt5
  else Format.dxt1

/-- Fit method selected by `flags` as the specification words it: range or iterative cluster
when the fit bits are exactly that enumerator, the default cluster fit in every other case. -/
def normalisedFit (c : FlagConsts) (flags : Int) : FitMethod :=
  if Int.land flags (fitMask c) = c.kColourRangeFit then FitMethod.range
  else if Int.land flags (fitMask c) = c.kColourIterativeClusterFit
    then FitMethod.iterativeCluster
  else FitMethod.cluster

/-- Enumerator of a format. -/
def Format.const (c : FlagConsts) : Format → Int
  | Format.dxt1 => c.kDxt1
  | Format.dxt3 => c.kDxt3
  | Format.dxt5 => c.kDxt5

/-- Enumerator of a fit method. -/
def FitMethod.const (c : FlagConsts) : FitMethod → Int
  | FitMethod.range => c.kColourRangeFit
  | FitMethod.cluster => c.kColourClusterFit
  | FitMethod.iterativeCluster => c.kColourIterativeClusterFit

/-- Block size in bytes of a format: 8 for DXT1 and 16 otherwise. -/
def Format.blockSize : Format → Int
  | Format.dxt1 => 8
  | _ => 16

/-- Bit position selected by a three-way exclusive group after normalisation: `y` or `z` when
exactly that bit of the group is set in `flags`, the default `x` otherwise. -/
def groupPos (flags : Int) (x y z : Nat) : Nat :=
  if flags.testBit y && !flags.testBit x && !flags.testBit z then y
  else if flags.testBit z && !flags.testBit x && !flags.testBit y then z
  else x

/-- Positions of the eight flag bits of a set of single-bit constants. -/
structure BitPositions (c : FlagConsts) (pos : Fin 8 → Nat) : Prop where
  inj : Function.Injective pos
  dxt1 : c.kDxt1 = 2 ^ pos 0
  dxt3 : c.kDxt3 = 2 ^ pos 1
  dxt5 : c.kDxt5 = 2 ^ pos 2
  iter : c.kColourIterativeClusterFit = 2 ^ pos 3
  cluster : c.kColourClusterFit = 2 ^ pos 4
  range : c.kColourRangeFit = 2 ^ pos 5
  weight : c.kWeightColourByAlpha = 2 ^ pos 6
  bgra : c.kSourceBGRA = 2 ^ pos 7

/-! ## Memory -/

/-- A byte (`u8`). -/
abbrev u8 := Fin 256

/-- The bytes reachable through a pointer, indexed by byte address. -/
abbrev Mem := Int → u8

/-- Store of one byte, `p[0] = v`. -/
def store (mem : Mem) (p : Int) (v : u8) : Mem :=
  fun a => if a = p then v else mem a

/-- Store of an 8-byte sub-block at `p`; `bytes k` is byte `k` of the sub-block, `k < 8`. -/
def store8 (mem : Mem) (p : Int) (bytes : Nat → u8) : Mem :=
  fun a => if p ≤ a ∧ a < p + 8 then bytes (a - p).toNat else mem a

/-- The memory seen from pointer `p`: `view mem p i` is `p[i]`. -/
def view (mem : Mem) (p : Int) : Int → u8 :=
  fun i => mem (p + i)

/-! ## Block orchestrator -/

/-- The sub-codecs that `squish.cpp` calls (colour set, the three colour fits, the colour block
decoder and the alpha codecs), taken as parameters.  A fit or alpha encoder yields the 8 bytes
it stores at the sub-block pointer it is given; a decoder maps the 16-pixel buffer it is given
to the buffer it leaves. -/
structure SubCodecs (ColourSet Metric : Type) where
  /-- Result of `ColourSet colours( rgba, mask, flags )`. -/
  mkColourSet : (Int → u8) → Int → Int → ColourSet
  /-- Result of `colours.GetCount()`. -/
  GetCount : ColourSet → Int
  /-- Result of `SingleColourFit fit( &colours, flags ); fit.Compress( block )`. -/
  SingleColourFit : ColourSet → Int → Nat → u8
  /-- Result of `RangeFit fit( &colours, flags, metric ); fit.Compress( block )`. -/
  RangeFit : ColourSet → Int → Metric → Nat → u8
  /-- Result of `ClusterFit fit( &colours, flags, metric ); fit.Compress( block )`. -/
  ClusterFit : ColourSet → Int → Metric → Nat → u8
  /-- Result of `CompressAlphaDxt3( rgba, mask, block )`. -/
  CompressAlphaDxt3 : (Int → u8) → Int → Nat → u8
  /-- Result of `CompressAlphaDxt5( rgba, mask, block )`. -/
  CompressAlphaDxt5 : (Int → u8) → Int → Nat → u8
  /-- Result of `DecompressColour( rgba, block, isDxt1 )`. -/
  DecompressColour : (Int → u8) → (Int → u8) → Bool → Int → u8
  /-- Result of `DecompressAlphaDxt3( rgba, block )`. -/
  DecompressAlphaDxt3 : (Int → u8) → (Int → u8) → Int → u8
  /-- Result of `DecompressAlphaDxt5( rgba, block )`. -/
  DecompressAlphaDxt5 : (Int → u8) → (Int → u8) → Int → u8

/-- A call of a sub-codec, with the arguments that select what it works on. -/
inductive Call (ColourSet : Type) where
  | singleColourFit (colours : ColourSet) (flags : Int) (colourBlock : Int)
  | rangeFit (colours : ColourSet) (flags : Int) (colourBlock : Int)
  | clusterFit (colours : ColourSet) (flags : Int) (colourBlock : Int)
  | compressAlphaDxt3 (mask : Int) (alphaBock : Int)
  | compressAlphaDxt5 (mask : Int) (alphaBock : Int)
  | decompressColour (colourBlock : Int) (isDxt1 : Bool)
  | decompressAlphaDxt3 (alphaBock : Int)
  | decompressAlphaDxt5 (alphaBock : Int)
deriving DecidableEq

/-- Block memory and sub-codec calls after `CompressMasked`. -/
structure Encoded (ColourSet : Type) where
  mem : Mem
  trace : List (Call ColourSet)

/-- Pixel buffer and sub-codec calls after `Decompress`. -/
structure Decoded (ColourSet : Type) where
  rgba : Int → u8
  trace : List (Call ColourSet)

/-- Embedding of `void CompressMasked( u8 const* rgba, int mask, void* block, int flags, float* metric )`;
`mem` is the memory `block` points into. -/
def CompressMasked {CS M : Type} (c : FlagConsts) (H : SubCodecs CS M) (rgba : Int → u8)
    (mask : Int) (mem : Mem) (block : Int) (flags : Int) (metric : M) : Encoded CS :=
  -- fix any bad flags
  let flags := FixFlags c flags
  -- get the block locations
  let colourBlock := block
  let alphaBock := block
  let colourBlock :=
    if Int.land flags (Int.lor c.kDxt3 c.kDxt5) ≠ 0 then block + 8 else colourBlock
  -- create the minimal point set
  let colours := H.mkColourSet rgba mask flags
  -- check the compression type and compress colour
  let s : Encoded CS :=
    if H.GetCount colours = 1 then
      -- always do a single colour fit
      { mem := store8 mem colourBlock (H.SingleColourFit colours flags),
        trace := [Call.singleColourFit colours flags colourBlock] }
    else if Int.land flags c.kColourRangeFit ≠ 0 ∨ H.GetCount colours = 0 then
      -- do a range fit
      { mem := store8 mem colourBlock (H.RangeFit colours flags metric),
        trace := [Call.rangeFit colours flags colourBlock] }
    else
      -- default to a cluster fit (could be iterative or not)
      { mem := store8 mem colourBlock (H.ClusterFit colours flags metric),
        trace := [Call.clusterFit colours flags colourBlock] }
  -- compress alpha separately if necessary
  if Int.land flags c.kDxt3 ≠ 0 then
    { mem := store8 s.mem alphaBock (H.CompressAlphaDxt3 rgba mask),
      trace := s.trace ++ [Call.compressAlphaDxt3 mask alphaBock] }
  else if Int.land flags c.kDxt5 ≠ 0 then
    { mem := store8 s.mem alphaBock (H.CompressAlphaDxt5 rgba mask),
      trace := s.trace ++ [Call.compressAlphaDxt5 mask alphaBock] }
  else s

/-- Embedding of `void Decompress( u8* rgba, void const* block, int flags )`; `rgba` is the content of the
pixel buffer on entry and `mem` the memory `block` points into. -/
def Decompress {CS M : Type} (c : FlagConsts) (H : SubCodecs CS M) (rgba : Int → u8)
    (mem : Mem) (block : Int) (flags : Int) : Decoded CS :=
  -- fix any bad flags
  let flags := FixFlags c flags
  -- get the block locations
  let colourBlock := block
  let alphaBock := block
  let colourBlock :=
    if Int.land flags (Int.lor c.kDxt3 c.kDxt5) ≠ 0 then block + 8 else colourBlock
  -- decompress colour
  let s : Decoded CS :=
    { rgba := H.DecompressColour rgba (view mem colourBlock)
        (decide (Int.land flags c.kDxt1 ≠ 0)),
      trace := [Call.decompressColour colourBlock (decide (Int.land flags c.kDxt1 ≠ 0))] }
  -- decompress alpha separately if necessary
  if Int.land flags c.kDxt3 ≠ 0 then
    { rgba := H.DecompressAlphaDxt3 s.rgba (view mem alphaBock),
      trace := s.trace ++ [Call.decompressAlphaDxt3 alphaBock] }
  else if Int.land flags c.kDxt5 ≠ 0 then
    { rgba := H.DecompressAlphaDxt5 s.rgba (view mem alphaBock),
      trace := s.trace ++ [Call.decompressAlphaDxt5 alphaBock] }
  else s

/-! ### Vocabulary of the specification for the orchestrator -/

/-- The three colour fit strategies. -/
inductive Strategy where
  | singleColour
  | range
  | cluster
deriving DecidableEq, Repr

/-- The fit strategy a call runs and the colour set it runs on, if the call is a colour fit. -/
def Call.fit {CS : Type} : Call CS → Option (Strategy × CS)
  | Call.singleColourFit cs _ _ => some (Strategy.singleColour, cs)
  | Call.rangeFit cs _ _ => some (Strategy.range, cs)
  | Call.clusterFit cs _ _ => some (Strategy.cluster, cs)
  | _ => none

/-- The colour sub-block pointer of a call, if the call reads or writes a colour sub-block. -/
def Call.colourPtr {CS : Type} : Call CS → Option Int
  | Call.singleColourFit _ _ p => some p
  | Call.rangeFit _ _ p => some p
  | Call.clusterFit _ _ p => some p
  | Call.decompressColour p _ => some p
  | _ => none

/-- The alpha sub-block pointer of a call, if the call reads or writes an alpha sub-block. -/
def Call.alphaPtr {CS : Type} : Call CS → Option Int
  | Call.compressAlphaDxt3 _ p => some p
  | Call.compressAlphaDxt5 _ p => some p
  | Call.decompressAlphaDxt3 p => some p
  | Call.decompressAlphaDxt5 p => some p
  | _ => none

/-- The `isDxt1` argument of a call of `DecompressColour`. -/
def Call.isDxt1 {CS : Type} : Call CS → Option Bool
  | Call.decompressColour _ b => some b
  | _ => none

/-- Byte offset of the colour sub-block in a block of a format: 0 for DXT1, 8 otherwise. -/
def Format.colourOffset : Format → Int
  | Format.dxt1 => 0
  | _ => 8

/-- Modelled from the spec: `ColourSet` (`colourset.h` is not among the sources), reduced to
what the orchestrator uses of it: the distinct colours of the pixels whose mask bit is set, so
that the count of an empty or fully masked block is 0 and the count of a block of one colour
is 1. -/
def demoColourSet (rgba : Int → u8) (mask : Int) (_flags : Int) : List (u8 × u8 × u8) :=
  (((List.range 16).filter (fun i => mask.testBit i)).map
    (fun i => (rgba (4 * i), rgba (4 * i + 1), rgba (4 * i + 2)))).dedup

/-- A concrete set of sub-codecs for examples: `demoColourSet` as colour set, and fits and
alpha codecs that produce constant bytes. -/
def demoCodecs : SubCodecs (List (u8 × u8 × u8)) Unit :=
  { mkColourSet := demoColourSet
    GetCount := fun cs => (cs.length : Int)
    SingleColourFit := fun _ _ _ => 1
    RangeFit := fun _ _ _ _ => 2
    ClusterFit := fun _ _ _ _ => 3
    CompressAlphaDxt3 := fun _ _ _ => 4
    CompressAlphaDxt5 := fun _ _ _ => 5
    DecompressColour := fun _ block _ i => block (i % 8)
    DecompressAlphaDxt3 := fun rgba block i => if i % 4 = 3 then block (i / 8) else rgba i
    DecompressAlphaDxt5 := fun rgba block i => if i % 4 = 3 then block (i / 8) else rgba i }

/-- A 4x4 tile whose pixel `i` has red channel `i`, so that its 16 colours are distinct. -/
def rampTile : Int → u8 :=
  fun a => if a % 4 = 0 then Fin.ofNat (a / 4).toNat else 0

/-! ## Image tiler -/

/-- Embedding of `void CopyRGBA( u8 const* source, u8* dest, int flags )`; `src` is the memory
`source` points into, `dst` the memory `dest` points into, and the result is `dst` after the
copy.  This is the call between distinct buffers, as `squish.cpp` makes it (a local array and
the caller's image); `CopyRGBA.shared` is the call with both pointers into one memory. -/
def CopyRGBA (c : FlagConsts) (src : Mem) (source : Int) (dst : Mem) (dest : Int)
    (flags : Int) : Mem :=
  if Int.land flags c.kSourceBGRA ≠ 0 then
    -- convert from bgra to rgba
    let dst := store dst (dest + 0) (src (source + 2))
    let dst := store dst (dest + 1) (src (source + 1))
    let dst := store dst (dest + 2) (src (source + 0))
    store dst (dest + 3) (src (source + 3))
  else
    ((List.range 4).foldl
      (fun (st : Mem × Int × Int) _ => (store st.1 st.2.1 (src st.2.2), st.2.1 + 1, st.2.2 + 1))
      (dst, dest, source)).1

/-- Locals of the tile-building loops of `CompressImage`: the buffer `sourceRgba`, the write
pointer `targetPixel` into it, and `mask`. -/
structure TileState where
  sourceRgba : Int → u8
  targetPixel : Int
  mask : Int

/-- One call of `CompressMasked` made by `CompressImage`: its arguments, and the tile origin
`x`, `y` (the loop variables) at the call. -/
structure MaskedCall where
  x : Int
  y : Int
  rgba : Int → u8
  mask : Int
  block : Int
  flags : Int

/-- State of the block loops of `CompressImage`: the memory `blocks` points into, the write
pointer `targetBlock`, and the calls made so far. -/
structure ImageState (CS : Type) where
  mem : Mem
  targetBlock : Int
  invocations : List MaskedCall
  trace : List (Call CS)

/-- Body of the `px` loop of `CompressImage`: the pixel `(px, py)` of the tile at `(x, y)`. -/
def CompressImage.pixel (c : FlagConsts) (image : Mem) (rgba width height pitch flags : Int)
    (x y py px : Int) (t : TileState) : TileState :=
  -- get the source pixel in the image
  let sx := x + px
  let sy := y + py
  -- enable if we're in the image
  let t : TileState :=
    if sx < width ∧ sy < height then
      -- copy the rgba value
      let sourcePixel := rgba + pitch * sy + 4 * sx
      { sourceRgba := CopyRGBA c image sourcePixel t.sourceRgba t.targetPixel flags
        targetPixel := t.targetPixel
        -- enable this pixel
        mask := Int.lor t.mask (1 <<< (4 * py + px)) }
    else t
  { t with targetPixel := t.targetPixel + 4 }

/-- The `py` and `px` loops of `CompressImage` for the tile at `(x, y)`: build the 4x4 block of
pixels and its mask.  `junk` is the content of the uninitialised `sourceRgba` on entry. -/
def CompressImage.buildTile (c : FlagConsts) (image : Mem)
    (rgba width height pitch flags : Int) (x y : Int) (junk : Int → u8) : TileState :=
  (List.range 4).foldl
    (fun t py =>
      (List.range 4).foldl
        (fun t px => CompressImage.pixel c image rgba width height pitch flags x y py px t) t)
    { sourceRgba := junk, targetPixel := 0, mask := 0 }

/-- Body of the `x` loop of `CompressImage`: build the tile at `(x, y)`, compress it into the
output and advance. -/
def CompressImage.tile {CS M : Type} (c : FlagConsts) (H : SubCodecs CS M) (image : Mem)
    (rgba width height pitch flags : Int) (metric : M) (junk : Int → Int → Int → u8)
    (bytesPerBlock : Int) (x y : Int) (s : ImageState CS) : ImageState CS :=
  let t := CompressImage.buildTile c image rgba width height pitch flags x y (junk x y)
  -- compress it into the output
  let r := CompressMasked c H t.sourceRgba t.mask s.mem s.targetBlock flags metric
  -- advance
  { mem := r.mem
    targetBlock := s.targetBlock + bytesPerBlock
    invocations := s.invocations ++
      [{ x := x, y := y, rgba := t.sourceRgba, mask := t.mask, block := s.targetBlock,
         flags := flags }]
    trace := s.trace ++ r.trace }

/-- The loop `for( int x = ...; x < width; x += 4 )` of `CompressImage` in row `y`, entered
with `x`; `fuel` bounds the number of iterations. -/
def CompressImage.loopX {CS M : Type} (c : FlagConsts) (H : SubCodecs CS M) (image : Mem)
    (rgba width height pitch flags : Int) (metric : M) (junk : Int → Int → Int → u8)
    (bytesPerBlock : Int) (y : Int) : Nat → Int → ImageState CS → ImageState CS
  | 0, _, s => s
  | fuel + 1, x, s =>
    if x < width then
      CompressImage.loopX c H image rgba width height pitch flags metric junk bytesPerBlock y
        fuel (x + 4)
        (CompressImage.tile c H image rgba width height pitch flags metric junk bytesPerBlock
          x y s)
    else s

/-- The loop `for( int y = ...; y < height; y += 4 )` of `CompressImage`, entered with `y`;
`fuel` bounds the number of iterations. -/
def CompressImage.loopY {CS M : Type} (c : FlagConsts) (H : SubCodecs CS M) (image : Mem)
    (rgba width height pitch flags : Int) (metric : M) (junk : Int → Int → Int → u8)
    (bytesPerBlock : Int) : Nat → Int → ImageState CS → ImageState CS
  | 0, _, s => s
  | fuel + 1, y, s =>
    if y < height then
      CompressImage.loopY c H image rgba width height pitch flags metric junk bytesPerBlock
        fuel (y + 4)
        (CompressImage.loopX c H image rgba width height pitch flags metric junk bytesPerBlock
          y width.toNat 0 s)
    else s

/-- Embedding of `void CompressImage( u8 const* rgba, int width, int height, int pitch,
void* blocks, int flags, float* metric )`.  `image` is the memory `rgba` points into, `out` the
memory `blocks` points into, and `junk x y` the content of the uninitialised `sourceRgba` in the
iteration of the tile at `(x, y)`.  A loop over `n` columns or rows runs at most `n` times, so
the fuel `width.toNat`, `height.toNat` never runs out.  The `int` arithmetic is exact here;
`int32.CompressImage` is the function on 32-bit `int`. -/
def CompressImage {CS M : Type} (c : FlagConsts) (H : SubCodecs CS M) (image : Mem)
    (rgba width height pitch : Int) (out : Mem) (blocks : Int) (flags : Int) (metric : M)
    (junk : Int → Int → Int → u8) : ImageState CS :=
  -- fix any bad flags
  let flags := FixFlags c flags
  -- initialise the block output
  let targetBlock := blocks
  let bytesPerBlock : Int := if Int.land flags c.kDxt1 ≠ 0 then 8 else 16
  -- loop over blocks
  CompressImage.loopY c H image rgba width height pitch flags metric junk bytesPerBlock
    height.toNat 0
    { mem := out, targetBlock := targetBlock, invocations := [], trace := [] }

/-! ### Vocabulary of the specification for the tiler -/

/-- Number of bits set among bits 0..15 of `m`. -/
def popCount16 (m : Int) : Nat :=
  ((List.range 16).filter (fun i => m.testBit i)).length

/-- The tile origins along one axis of extent `n`: `0, 4, 8, ...` below `n`. -/
def tileOrigins (n : Int) : List Int :=
  (List.range ((n + 3) / 4).toNat).map (fun i : Nat => 4 * (i : Int))

/-- One call of `CopyRGBA` made by `DecompressImage`: the image position `(sx, sy)` written,
the read pointer `sourcePixel` into `targetRgba` and the write pointer `targetPixel`. -/
structure PixelWrite where
  sx : Int
  sy : Int
  sourcePixel : Int
  targetPixel : Int
deriving DecidableEq, Repr

/-- Locals of the pixel loops of `DecompressImage`: the memory `rgba` points into, the read
pointer `sourcePixel` into `targetRgba`, and the calls of `CopyRGBA` made so far. -/
structure DecodePixelState where
  mem : Mem
  sourcePixel : Int
  writes : List PixelWrite

/-- State of the block loops of `DecompressImage`: the memory `rgba` points into, the read
pointer `sourceBlock`, the calls of `CopyRGBA` and the block pointers of the calls of
`Decompress` made so far, and the sub-codec calls. -/
structure DecodeState (CS : Type) where
  mem : Mem
  sourceBlock : Int
  writes : List PixelWrite
  decodes : List Int
  trace : List (Call CS)

/-- Body of the `px` loop of `DecompressImage`: the pixel `(px, py)` of the tile at `(x, y)`,
whose decoded pixels are in `targetRgba`. -/
def DecompressImage.pixel (c : FlagConsts) (targetRgba : Int → u8)
    (rgba width height pitch flags : Int) (x y py px : Int) (t : DecodePixelState) :
    DecodePixelState :=
  -- get the target location
  let sx := x + px
  let sy := y + py
  let t : DecodePixelState :=
    if sx < width ∧ sy < height then
      let targetPixel := rgba + pitch * sy + 4 * sx
      -- copy the rgba value
      { mem := CopyRGBA c targetRgba t.sourcePixel t.mem targetPixel flags
        sourcePixel := t.sourcePixel
        writes := t.writes ++
          [{ sx := sx, sy := sy, sourcePixel := t.sourcePixel, targetPixel := targetPixel }] }
    else t
  { t with sourcePixel := t.sourcePixel + 4 }

/-- Body of the `x` loop of `DecompressImage`: decompress the block at `sourceBlock`, write
its pixels to the image locations of the tile at `(x, y)` and advance.  `bmem` is the memory
`blocks` points into and `junk x y` the content of the uninitialised `targetRgba`. -/
def DecompressImage.tile {CS M : Type} (c : FlagConsts) (H : SubCodecs CS M) (bmem : Mem)
    (rgba width height pitch flags : Int) (junk : Int → Int → Int → u8) (bytesPerBlock : Int)
    (x y : Int) (s : DecodeState CS) : DecodeState CS :=
  -- decompress the block
  let d := Decompress c H (junk x y) bmem s.sourceBlock flags
  -- write the decompressed pixels to the correct image locations
  let t : DecodePixelState := (List.range 4).foldl
    (fun (t : DecodePixelState) (py : Nat) =>
      (List.range 4).foldl
        (fun (t : DecodePixelState) (px : Nat) =>
          DecompressImage.pixel c d.rgba rgba width height pitch flags x y py px t)
        t)
    { mem := s.mem, sourcePixel := 0, writes := s.writes }
  -- advance
  { mem := t.mem
    sourceBlock := s.sourceBlock + bytesPerBlock
    writes := t.writes
    decodes := s.decodes ++ [s.sourceBlock]
    trace := s.trace ++ d.trace }

/-- The loop `for( int x = ...; x < width; x += 4 )` of `DecompressImage` in row `y`, entered
with `x`; `fuel` bounds the number of iterations. -/
def DecompressImage.loopX {CS M : Type} (c : FlagConsts) (H : SubCodecs CS M) (bmem : Mem)
    (rgba width height pitch flags : Int) (junk : Int → Int → Int → u8) (bytesPerBlock : Int)
    (y : Int) : Nat → Int → DecodeState CS → DecodeState CS
  | 0, _, s => s
  | fuel + 1, x, s =>
    if x < width then
      DecompressImage.loopX c H bmem rgba width height pitch flags junk bytesPerBlock y fuel
        (x + 4)
        (DecompressImage.tile c H bmem rgba width height pitch flags junk bytesPerBlock x y s)
    else s

/-- The loop `for( int y = ...; y < height; y += 4 )` of `DecompressImage`, entered with `y`;
`fuel` bounds the number of iterations. -/
def DecompressImage.loopY {CS M : Type} (c : FlagConsts) (H : SubCodecs CS M) (bmem : Mem)
    (rgba width height pitch flags : Int) (junk : Int → Int → Int → u8) (bytesPerBlock : Int) :
    Nat → Int → DecodeState CS → DecodeState CS
  | 0, _, s => s
  | fuel + 1, y, s =>
    if y < height then
      DecompressImage.loopY c H bmem rgba width height pitch flags junk bytesPerBlock fuel
        (y + 4)
        (DecompressImage.loopX c H bmem rgba width height pitch flags junk bytesPerBlock y
          width.toNat 0 s)
    else s

/-- Embedding of `void DecompressImage( u8* rgba, int width, int height, int pitch,
void const* blocks, int flags )`.  `image` is the memory `rgba` points into on entry, `bmem` the
memory `blocks` points into, and `junk x y` the content of the uninitialised `targetRgba` in the
iteration of the tile at `(x, y)`.  A loop over `n` columns or rows runs at most `n` times, so
the fuel `width.toNat`, `height.toNat` never runs out.  The `int` arithmetic is exact here;
`int32.DecompressImage` is the function on 32-bit `int`. -/
def DecompressImage {CS M : Type} (c : FlagConsts) (H : SubCodecs CS M) (image : Mem)
    (rgba width height pitch : Int) (bmem : Mem) (blocks : Int) (flags : Int)
    (junk : Int → Int → Int → u8) : DecodeState CS :=
  -- fix any bad flags
  let flags := FixFlags c flags
  -- initialise the block input
  let sourceBlock := blocks
  let bytesPerBlock : Int := if Int.land flags c.kDxt1 ≠ 0 then 8 else 16
  -- loop over blocks
  DecompressImage.loopY c H bmem rgba width height pitch flags junk bytesPerBlock
    height.toNat 0
    { mem := image, sourceBlock := sourceBlock, writes := [], decodes := [], trace := [] }

/-! ### Vocabulary of the specification for tiles and pixels -/

/-- Number of tiles along an axis of extent `n`: `ceil(n / 4)` for `n ≥ 0`, none for
`n ≤ 0`. -/
def tilesAcross (n : Int) : Nat := ((n + 3) / 4).toNat

/-- Row-major number of the tile that holds the image pixel `(sx, sy)`. -/
def tileIndex (width sx sy : Int) : Int := (sy / 4) * ((width + 3) / 4) + sx / 4

/-- Row-major number, inside its 4x4 tile, of the image pixel `(sx, sy)`. -/
def pixelNumber (sx sy : Int) : Int := 4 * (sy % 4) + sx % 4

/-- Source channel that `CopyRGBA` puts in destination channel `ch`: channels 0 and 2 are
exchanged when `bgra` holds, and every channel stays in place otherwise. -/
def channelOf (bgra : Bool) (ch : Int) : Int :=
  if bgra then (if ch = 0 then 2 else if ch = 2 then 0 else ch) else ch

/-- Byte address of channel 0 of the image pixel `(sx, sy)`. -/
def pixelAddr (rgba pitch sx sy : Int) : Int := rgba + pitch * sy + 4 * sx

/-- The image pixel `(sx, sy)` lies inside the `width` x `height` image. -/
def InBounds (width height sx sy : Int) : Prop :=
  0 ≤ sx ∧ sx < width ∧ 0 ≤ sy ∧ sy < height

/-- Position of the image pixel `(sx, sy)` in the order in which the tilers visit pixels: tile
by tile in row-major tile order, and row-major inside a tile. -/
def stepIndex (width sx sy : Int) : Int := 16 * tileIndex width sx sy + pixelNumber sx sy

/-- What holds of the image memory `mem` and of the log `writes` of `DecompressImage` when the
pixels before position `g` of the visiting order have been handled: each of them holds the
bytes of its decoded pixel (`tileOf sx sy` is the decoded tile of the pixel, channels placed by
`channelOf bgra`), all other bytes are those of `image`, and the log has one entry for each of
them. -/
structure DecodeInv (image : Mem) (rgba width height pitch : Int) (bgra : Bool)
    (tileOf : Int → Int → Int → u8) (g : Int) (mem : Mem) (writes : List PixelWrite) :
    Prop where
  written : ∀ sx sy, InBounds width height sx sy → stepIndex width sx sy < g →
    ∀ ch, 0 ≤ ch → ch < 4 →
      mem (pixelAddr rgba pitch sx sy + ch) =
        tileOf sx sy (4 * pixelNumber sx sy + channelOf bgra ch)
  frame : ∀ a, (∀ sx sy, InBounds width height sx sy → stepIndex width sx sy < g →
    ∀ ch, 0 ≤ ch → ch < 4 → a ≠ pixelAddr rgba pitch sx sy + ch) → mem a = image a
  log : ∀ w ∈ writes, InBounds width height w.sx w.sy ∧ stepIndex width w.sx w.sy < g ∧
    w.targetPixel = pixelAddr rgba pitch w.sx w.sy ∧
    w.sourcePixel = 4 * pixelNumber w.sx w.sy
  nodup : (writes.map (fun w => (w.sx, w.sy))).Nodup
  covered : ∀ sx sy, InBounds width height sx sy → stepIndex width sx sy < g →
    (sx, sy) ∈ writes.map (fun w => (w.sx, w.sy))

/-- What holds of the state of `CompressImage` when `k` tiles have been compressed: the write
pointer is `k` blocks after `blocks`, call `i` got the block pointer `blocks + bpb * i` and the
flags `flags`, bytes outside the first `k` blocks are those of `out`, and block `i` holds what
`CompressMasked` stored for tile `i`. -/
structure EncodeInv {CS M : Type} (c : FlagConsts) (H : SubCodecs CS M) (image : Mem)
    (rgba width height pitch flags : Int) (metric : M) (junk : Int → Int → Int → u8)
    (bpb : Int) (out : Mem) (blocks : Int) (k : Nat) (s : ImageState CS) : Prop where
  targetBlock : s.targetBlock = blocks + bpb * (k : Int)
  calls : s.invocations.map (fun inv => (inv.block, inv.flags)) =
    (List.range k).map (fun i : Nat => (blocks + bpb * (i : Int), flags))
  frame : ∀ a, a < blocks ∨ blocks + bpb * (k : Int) ≤ a → s.mem a = out a
  encoded : ∀ i : Nat, i < k → ∃ m0 : Mem,
    ∀ a, blocks + bpb * (i : Int) ≤ a → a < blocks + bpb * (i : Int) + bpb →
      s.mem a =
        (CompressMasked c H
          (CompressImage.buildTile c image rgba width height pitch flags
            (4 * ((i % tilesAcross width : Nat) : Int))
            (4 * ((i / tilesAcross width : Nat) : Int))
            (junk (4 * ((i % tilesAcross width : Nat) : Int))
              (4 * ((i / tilesAcross width : Nat) : Int)))).sourceRgba
          (CompressImage.buildTile c image rgba width height pitch flags
            (4 * ((i % tilesAcross width : Nat) : Int))
            (4 * ((i / tilesAcross width : Nat) : Int))
            (junk (4 * ((i % tilesAcross width : Nat) : Int))
              (4 * ((i / tilesAcross width : Nat) : Int)))).mask
          m0 (blocks + bpb * (i : Int)) flags metric).mem a

/-! ## Mean squared error

A `double` is modelled by a rational number.  The bytes and their squared differences are
integers, and a sum of fewer than `2^31` pixel errors stays below `2^53`, so the sums of
`ComputeMSE` are exact in `double` as they are here; the two final quotients are the exact
quotients here, where the code rounds them to the nearest `double`.  A quotient by zero is not
a number and is `none`. -/

/-- Conversion of a byte to `double`. -/
def toDouble (b : u8) : ℚ := (b.val : ℚ)

/-- Embedding of `static double ErrorSq(double x, double y)`. -/
def ErrorSq (x y : ℚ) : ℚ := (x - y) * (x - y)

/-- Locals of the pixel loops of `ComputeMSE`: the read pointer `sourcePixel` into
`targetRgba` and the two sums. -/
structure MSEPixelState where
  sourcePixel : Int
  colourMSE : ℚ
  alphaMSE : ℚ

/-- State of the block loops of `ComputeMSE`: the read pointer `sourceBlock`, the two sums and
the sub-codec calls. -/
structure MSEState (CS : Type) where
  sourceBlock : Int
  colourMSE : ℚ
  alphaMSE : ℚ
  trace : List (Call CS)

/-- The two results of `ComputeMSE`; `none` stands for a quotient by zero. -/
structure MSEResult where
  colourMSE : Option ℚ
  alphaMSE : Option ℚ

/-- Body of the `px` loop of `ComputeMSE`: the pixel `(px, py)` of the tile at `(x, y)`, whose
decoded pixels are in `targetRgba`.  `image` is the memory `rgba` points into and `junk4` the
content of the uninitialised `colour`. -/
def ComputeMSE.pixel (c : FlagConsts) (image : Mem) (targetRgba : Int → u8)
    (rgba width height pitch flags : Int) (junk4 : Int → u8) (x y py px : Int)
    (t : MSEPixelState) : MSEPixelState :=
  -- get the target location
  let sx := x + px
  let sy := y + py
  let t : MSEPixelState :=
    if sx < width ∧ sy < height then
      let targetPixel := rgba + pitch * sy + 4 * sx
      let colour := CopyRGBA c image targetPixel junk4 0 flags
      -- compute the MSE of colour and alpha
      let cmse : ℚ := (List.range 3).foldl
        (fun (cmse : ℚ) (i : Nat) =>
          cmse + ErrorSq (toDouble (targetRgba (t.sourcePixel + (i : Int))))
            (toDouble (colour (i : Int))))
        0
      -- transparent in both, so colour is inconsequential
      let cmse : ℚ :=
        if colour 3 = 0 ∧ targetRgba (t.sourcePixel + 3) = 0 then 0 else cmse
      { sourcePixel := t.sourcePixel
        alphaMSE := t.alphaMSE +
          ErrorSq (toDouble (colour 3)) (toDouble (targetRgba (t.sourcePixel + 3)))
        colourMSE := t.colourMSE + cmse }
    else t
  { t with sourcePixel := t.sourcePixel + 4 }

/-- Body of the `x` loop of `ComputeMSE`: decompress the block at `sourceBlock`, add the errors
of the pixels of the tile at `(x, y)` and advance.  `dmem` is the memory `dxt` points into and
`junk x y` the content of the uninitialised `targetRgba`. -/
def ComputeMSE.tile {CS M : Type} (c : FlagConsts) (H : SubCodecs CS M) (image : Mem)
    (dmem : Mem) (rgba width height pitch flags : Int) (junk : Int → Int → Int → u8)
    (junk4 : Int → u8) (bytesPerBlock : Int) (x y : Int) (s : MSEState CS) : MSEState CS :=
  -- decompress the block
  let d := Decompress c H (junk x y) dmem s.sourceBlock flags
  let t : MSEPixelState := (List.range 4).foldl
    (fun (t : MSEPixelState) (py : Nat) =>
      (List.range 4).foldl
        (fun (t : MSEPixelState) (px : Nat) =>
          ComputeMSE.pixel c image d.rgba rgba width height pitch flags junk4 x y py px t)
        t)
    { sourcePixel := 0, colourMSE := s.colourMSE, alphaMSE := s.alphaMSE }
  -- advance
  { sourceBlock := s.sourceBlock + bytesPerBlock
    colourMSE := t.colourMSE
    alphaMSE := t.alphaMSE
    trace := s.trace ++ d.trace }

/-- The loop `for( int x = ...; x < width; x += 4 )` of `ComputeMSE` in row `y`, entered with
`x`; `fuel` bounds the number of iterations. -/
def ComputeMSE.loopX {CS M : Type} (c : FlagConsts) (H : SubCodecs CS M) (image : Mem)
    (dmem : Mem) (rgba width height pitch flags : Int) (junk : Int → Int → Int → u8)
    (junk4 : Int → u8) (bytesPerBlock : Int) (y : Int) :
    Nat → Int → MSEState CS → MSEState CS
  | 0, _, s => s
  | fuel + 1, x, s =>
    if x < width then
      ComputeMSE.loopX c H image dmem rgba width height pitch flags junk junk4 bytesPerBlock y
        fuel (x + 4)
        (ComputeMSE.tile c H image dmem rgba width height pitch flags junk junk4 bytesPerBlock
          x y s)
    else s

/-- The loop `for( int y = ...; y < height; y += 4 )` of `ComputeMSE`, entered with `y`;
`fuel` bounds the number of iterations. -/
def ComputeMSE.loopY {CS M : Type} (c : FlagConsts) (H : SubCodecs CS M) (image : Mem)
    (dmem : Mem) (rgba width height pitch flags : Int) (junk : Int → Int → Int → u8)
    (junk4 : Int → u8) (bytesPerBlock : Int) : Nat → Int → MSEState CS → MSEState CS
  | 0, _, s => s
  | fuel + 1, y, s =>
    if y < height then
      ComputeMSE.loopY c H image dmem rgba width height pitch flags junk junk4 bytesPerBlock
        fuel (y + 4)
        (ComputeMSE.loopX c H image dmem rgba width height pitch flags junk junk4 bytesPerBlock
          y width.toNat 0 s)
    else s

/-- The division `sum /= n` of `ComputeMSE` by the `int` value `n`. -/
def ComputeMSE.divide (sum : ℚ) (n : Int) : Option ℚ :=
  if n = 0 then none else some (sum / (n : ℚ))

/-- Embedding of `void ComputeMSE( u8 const *rgba, int width, int height, int pitch,
u8 const *dxt, int flags, double &colourMSE, double &alphaMSE )`.  `image` is the memory `rgba`
points into, `dmem` the memory `dxt` points into, `junk x y` the content of the uninitialised
`targetRgba` in the iteration of the tile at `(x, y)` and `junk4` that of the uninitialised
`colour`.  A loop over `n` columns or rows runs at most `n` times, so the fuel `width.toNat`,
`height.toNat` never runs out.  The `int` arithmetic is exact here; `int32.ComputeMSE` is the
function on 32-bit `int`. -/
def ComputeMSE {CS M : Type} (c : FlagConsts) (H : SubCodecs CS M) (image : Mem)
    (rgba width height pitch : Int) (dmem : Mem) (dxt : Int) (flags : Int)
    (junk : Int → Int → Int → u8) (junk4 : Int → u8) : MSEResult :=
  -- fix any bad flags
  let flags := FixFlags c flags
  -- initialise the block input
  let sourceBlock := dxt
  let bytesPerBlock : Int := if Int.land flags c.kDxt1 ≠ 0 then 8 else 16
  -- loop over blocks
  let s : MSEState CS :=
    ComputeMSE.loopY c H image dmem rgba width height pitch flags junk junk4 bytesPerBlock
      height.toNat 0
      { sourceBlock := sourceBlock, colourMSE := 0, alphaMSE := 0, trace := [] }
  { colourMSE := ComputeMSE.divide s.colourMSE (width * height * 3)
    alphaMSE := ComputeMSE.divide s.alphaMSE (width * height) }

/-! ### Vocabulary of the specification for the error sums -/

/-- Channel `ch` of the source pixel `(sx, sy)` after the channel reorder that `flags`
asks for. -/
def srcByte (c : FlagConsts) (image : Mem) (rgba pitch flags : Int) (sx sy ch : Int) : u8 :=
  image (rgba + pitch * sy + 4 * sx + channelOf (decide (Int.land flags c.kSourceBGRA ≠ 0)) ch)

/-- Channel `ch` of the pixel `(sx, sy)` as decoded from the block of its tile: pixel number
`4*(sy mod 4) + (sx mod 4)` of `Decompress` applied to the block at byte offset
`tileIndex * blockSize`. -/
def decByte {CS M : Type} (c : FlagConsts) (H : SubCodecs CS M) (dmem : Mem)
    (dxt width flags : Int) (junk : Int → Int → Int → u8) (sx sy ch : Int) : u8 :=
  (Decompress c H (junk (4 * (sx / 4)) (4 * (sy / 4))) dmem
    (dxt + tileIndex width sx sy * (normalisedFormat c flags).blockSize) flags).rgba
    (4 * pixelNumber sx sy + ch)

/-- Colour error of one pixel: the sum of the squared differences of the three colour
channels, and 0 when both alphas are 0. -/
def colourError (src dec : Int → u8) : ℚ :=
  if src 3 = 0 ∧ dec 3 = 0 then 0
  else (toDouble (src 0) - toDouble (dec 0)) ^ 2 + (toDouble (src 1) - toDouble (dec 1)) ^ 2 +
    (toDouble (src 2) - toDouble (dec 2)) ^ 2

/-- Alpha error of one pixel: the squared difference of the alphas. -/
def alphaError (src dec : Int → u8) : ℚ := (toDouble (src 3) - toDouble (dec 3)) ^ 2

/-! ## 32-bit `int` and shared memory

The definitions above compute on exact integers and keep the source and the destination of
`CopyRGBA` in separate memories, which is what the code does as long as no `int` operation
overflows and the two pixels do not overlap.  The definitions of this section drop both
assumptions: `int32.GetStorageRequirements`, `int32.CompressImage`, `int32.DecompressImage` and
`int32.ComputeMSE` are the same functions with every `int` sum and product that can leave the
range of `int` reduced modulo `2^32`, as a machine with 32-bit two's complement `int` leaves it,
and `CopyRGBA.shared` is `CopyRGBA` with both pointers into one memory.  Pointers stay exact
byte addresses: a pointer is wider than an `int`, and `p + n` with an `int` `n` is computed on
addresses. -/

/-- The value of an `int` operation with exact result `n` on a machine with 32-bit two's
complement `int`: `n` reduced modulo `2^32` into `[-2^31, 2^31)`. -/
def wrapInt (n : Int) : Int := (n + 2147483648) % 4294967296 - 2147483648

/-- No `int` operation of the tilers overflows on an image of `width` x `height` pixels with
row pitch `pitch`: the column offsets `4*sx` for `sx < width` and the counter `x` after
`x += 4` (`cols`), the counter `y` after `y += 4` (`rows`) and the row offsets `pitch*sy` for
`sy < height` (`offsets`) are in `[-2^31, 2^31)`. -/
structure NoOverflow (width height pitch : Int) : Prop where
  cols : 4 * width ≤ 2147483648
  rows : height + 3 < 2147483648
  offsets : ∀ sy : Int, 0 ≤ sy → sy < height →
    -2147483648 ≤ pitch * sy ∧ pitch * sy < 2147483648

/-- Embedding of `int GetStorageRequirements( int width, int height, int flags )` with 32-bit
`int`. -/
def int32.GetStorageRequirements (c : FlagConsts) (width height flags : Int) : Int :=
  let flags := FixFlags c flags
  let blockcount :=
    wrapInt (Int.tdiv (wrapInt (width + 3)) 4 * Int.tdiv (wrapInt (height + 3)) 4)
  let blocksize : Int := if Int.land flags c.kDxt1 ≠ 0 then 8 else 16
  wrapInt (blockcount * blocksize)

/-- Embedding of `void CopyRGBA( u8 const* source, u8* dest, int flags )` with `source` and
`dest` pointing into the same memory `mem`: each read sees the stores made before it. -/
def CopyRGBA.shared (c : FlagConsts) (mem : Mem) (source dest : Int) (flags : Int) : Mem :=
  if Int.land flags c.kSourceBGRA ≠ 0 then
    -- convert from bgra to rgba
    let mem := store mem (dest + 0) (mem (source + 2))
    let mem := store mem (dest + 1) (mem (source + 1))
    let mem := store mem (dest + 2) (mem (source + 0))
    store mem (dest + 3) (mem (source + 3))
  else
    ((List.range 4).foldl
      (fun (st : Mem × Int × Int) _ =>
        (store st.1 st.2.1 (st.1 st.2.2), st.2.1 + 1, st.2.2 + 1))
      (mem, dest, source)).1

/-- Body of the `px` loop of `CompressImage` with 32-bit `int`. -/
def int32.CompressImage.pixel (c : FlagConsts) (image : Mem)
    (rgba width height pitch flags : Int) (x y py px : Int) (t : TileState) : TileState :=
  -- get the source pixel in the image
  let sx := wrapInt (x + px)
  let sy := wrapInt (y + py)
  -- enable if we're in the image
  let t : TileState :=
    if sx < width ∧ sy < height then
      -- copy the rgba value
      let sourcePixel := rgba + wrapInt (pitch * sy) + wrapInt (4 * sx)
      { sourceRgba := CopyRGBA c image sourcePixel t.sourceRgba t.targetPixel flags
        targetPixel := t.targetPixel
        -- enable this pixel
        mask := Int.lor t.mask (1 <<< (4 * py + px)) }
    else t
  { t with targetPixel := t.targetPixel + 4 }

/-- The `py` and `px` loops of `CompressImage` with 32-bit `int`, for the tile at `(x, y)`;
`junk` is the content of the uninitialised `sourceRgba` on entry. -/
def int32.CompressImage.buildTile (c : FlagConsts) (image : Mem)
    (rgba width height pitch flags : Int) (x y : Int) (junk : Int → u8) : TileState :=
  (List.range 4).foldl
    (fun (t : TileState) (py : Nat) =>
      (List.range 4).foldl
        (fun (t : TileState) (px : Nat) =>
          int32.CompressImage.pixel c image rgba width height pitch flags x y (py : Int)
            (px : Int) t)
        t)
    { sourceRgba := junk, targetPixel := 0, mask := 0 }

/-- Body of the `x` loop of `CompressImage` with 32-bit `int`. -/
def int32.CompressImage.tile {CS M : Type} (c : FlagConsts) (H : SubCodecs CS M) (image : Mem)
    (rgba width height pitch flags : Int) (metric : M) (junk : Int → Int → Int → u8)
    (bytesPerBlock : Int) (x y : Int) (s : ImageState CS) : ImageState CS :=
  let t := int32.CompressImage.buildTile c image rgba width height pitch flags x y (junk x y)
  -- compress it into the output
  let r := CompressMasked c H t.sourceRgba t.mask s.mem s.targetBlock flags metric
  -- advance
  { mem := r.mem
    targetBlock := s.targetBlock + bytesPerBlock
    invocations := s.invocations ++
      [{ x := x, y := y, rgba := t.sourceRgba, mask := t.mask, block := s.targetBlock,
         flags := flags }]
    trace := s.trace ++ r.trace }

/-- The loop `for( int x = ...; x < width; x += 4 )` of `CompressImage` with 32-bit `int`, in
row `y`, entered with `x`; `fuel` bounds the number of iterations. -/
def int32.CompressImage.loopX {CS M : Type} (c : FlagConsts) (H : SubCodecs CS M)
    (image : Mem) (rgba width height pitch flags : Int) (metric : M)
    (junk : Int → Int → Int → u8) (bytesPerBlock : Int) (y : Int) :
    Nat → Int → ImageState CS → ImageState CS
  | 0, _, s => s
  | fuel + 1, x, s =>
    if x < width then
      int32.CompressImage.loopX c H image rgba width height pitch flags metric junk
        bytesPerBlock y fuel (wrapInt (x + 4))
        (int32.CompressImage.tile c H image rgba width height pitch flags metric junk
          bytesPerBlock x y s)
    else s

/-- The loop `for( int y = ...; y < height; y += 4 )` of `CompressImage` with 32-bit `int`,
entered with `y`; `fuel` bounds the number of iterations. -/
def int32.CompressImage.loopY {CS M : Type} (c : FlagConsts) (H : SubCodecs CS M)
    (image : Mem) (rgba width height pitch flags : Int) (metric : M)
    (junk : Int → Int → Int → u8) (bytesPerBlock : Int) :
    Nat → Int → ImageState CS → ImageState CS
  | 0, _, s => s
  | fuel + 1, y, s =>
    if y < height then
      int32.CompressImage.loopY c H image rgba width height pitch flags metric junk
        bytesPerBlock fuel (wrapInt (y + 4))
        (int32.CompressImage.loopX c H image rgba width height pitch flags metric junk
          bytesPerBlock y width.toNat 0 s)
    else s

/-- Embedding of `void CompressImage( u8 const* rgba, int width, int height, int pitch,
void* blocks, int flags, float* metric )` with 32-bit `int`; the arguments are those of
`CompressImage`.  The fuel `width.toNat`, `height.toNat` is enough as long as `x += 4` and
`y += 4` do not overflow; a counter that overflows never reaches its bound. -/
def int32.CompressImage {CS M : Type} (c : FlagConsts) (H : SubCodecs CS M) (image : Mem)
    (rgba width height pitch : Int) (out : Mem) (blocks : Int) (flags : Int) (metric : M)
    (junk : Int → Int → Int → u8) : ImageState CS :=
  -- fix any bad flags
  let flags := FixFlags c flags
  -- initialise the block output
  let targetBlock := blocks
  let bytesPerBlock : Int := if Int.land flags c.kDxt1 ≠ 0 then 8 else 16
  -- loop over blocks
  int32.CompressImage.loopY c H image rgba width height pitch flags metric junk bytesPerBlock
    height.toNat 0
    { mem := out, targetBlock := targetBlock, invocations := [], trace := [] }

/-- Body of the `px` loop of `DecompressImage` with 32-bit `int`. -/
def int32.DecompressImage.pixel (c : FlagConsts) (targetRgba : Int → u8)
    (rgba width height pitch flags : Int) (x y py px : Int) (t : DecodePixelState) :
    DecodePixelState :=
  -- get the target location
  let sx := wrapInt (x + px)
  let sy := wrapInt (y + py)
  let t : DecodePixelState :=
    if sx < width ∧ sy < height then
      let targetPixel := rgba + wrapInt (pitch * sy) + wrapInt (4 * sx)
      -- copy the rgba value
      { mem := CopyRGBA c targetRgba t.sourcePixel t.mem targetPixel flags
        sourcePixel := t.sourcePixel
        writes := t.writes ++
          [{ sx := sx, sy := sy, sourcePixel := t.sourcePixel, targetPixel := targetPixel }] }
    else t
  { t with sourcePixel := t.sourcePixel + 4 }

/-- Body of the `x` loop of `DecompressImage` with 32-bit `int`. -/
def int32.DecompressImage.tile {CS M : Type} (c : FlagConsts) (H : SubCodecs CS M)
    (bmem : Mem) (rgba width height pitch flags : Int) (junk : Int → Int → Int → u8)
    (bytesPerBlock : Int) (x y : Int) (s : DecodeState CS) : DecodeState CS :=
  -- decompress the block
  let d := Decompress c H (junk x y) bmem s.sourceBlock flags
  -- write the decompressed pixels to the correct image locations
  let t : DecodePixelState := (List.range 4).foldl
    (fun (t : DecodePixelState) (py : Nat) =>
      (List.range 4).foldl
        (fun (t : DecodePixelState) (px : Nat) =>
          int32.DecompressImage.pixel c d.rgba rgba width height pitch flags x y py px t)
        t)
    { mem := s.mem, sourcePixel := 0, writes := s.writes }
  -- advance
  { mem := t.mem
    sourceBlock := s.sourceBlock + bytesPerBlock
    writes := t.writes
    decodes := s.decodes ++ [s.sourceBlock]
    trace := s.trace ++ d.trace }

/-- The loop `for( int x = ...; x < width; x += 4 )` of `DecompressImage` with 32-bit `int`,
in row `y`, entered with `x`; `fuel` bounds the number of iterations. -/
def int32.DecompressImage.loopX {CS M : Type} (c : FlagConsts) (H : SubCodecs CS M)
    (bmem : Mem) (rgba width height pitch flags : Int) (junk : Int → Int → Int → u8)
    (bytesPerBlock : Int) (y : Int) : Nat → Int → DecodeState CS → DecodeState CS
  | 0, _, s => s
  | fuel + 1, x, s =>
    if x < width then
      int32.DecompressImage.loopX c H bmem rgba width height pitch flags junk bytesPerBlock y
        fuel (wrapInt (x + 4))
        (int32.DecompressImage.tile c H bmem rgba width height pitch flags junk bytesPerBlock
          x y s)
    else s

/-- The loop `for( int y = ...; y < height; y += 4 )` of `DecompressImage` with 32-bit `int`,
entered with `y`; `fuel` bounds the number of iterations. -/
def int32.DecompressImage.loopY {CS M : Type} (c : FlagConsts) (H : SubCodecs CS M)
    (bmem : Mem) (rgba width height pitch flags : Int) (junk : Int → Int → Int → u8)
    (bytesPerBlock : Int) : Nat → Int → DecodeState CS → DecodeState CS
  | 0, _, s => s
  | fuel + 1, y, s =>
    if y < height then
      int32.DecompressImage.loopY c H bmem rgba width height pitch flags junk bytesPerBlock
        fuel (wrapInt (y + 4))
        (int32.DecompressImage.loopX c H bmem rgba width height pitch flags junk bytesPerBlock
          y width.toNat 0 s)
    else s

/-- Embedding of `void DecompressImage( u8* rgba, int width, int height, int pitch,
void const* blocks, int flags )` with 32-bit `int`; the arguments are those of
`DecompressImage`.  The fuel `width.toNat`, `height.toNat` is enough as long as `x += 4` and
`y += 4` do not overflow; a counter that overflows never reaches its bound. -/
def int32.DecompressImage {CS M : Type} (c : FlagConsts) (H : SubCodecs CS M) (image : Mem)
    (rgba width height pitch : Int) (bmem : Mem) (blocks : Int) (flags : Int)
    (junk : Int → Int → Int → u8) : DecodeState CS :=
  -- fix any bad flags
  let flags := FixFlags c flags
  -- initialise the block input
  let sourceBlock := blocks
  let bytesPerBlock : Int := if Int.land flags c.kDxt1 ≠ 0 then 8 else 16
  -- loop over blocks
  int32.DecompressImage.loopY c H bmem rgba width height pitch flags junk bytesPerBlock
    height.toNat 0
    { mem := image, sourceBlock := sourceBlock, writes := [], decodes := [], trace := [] }

/-- Body of the `px` loop of `ComputeMSE` with 32-bit `int`. -/
def int32.ComputeMSE.pixel (c : FlagConsts) (image : Mem) (targetRgba : Int → u8)
    (rgba width height pitch flags : Int) (junk4 : Int → u8) (x y py px : Int)
    (t : MSEPixelState) : MSEPixelState :=
  -- get the target location
  let sx := wrapInt (x + px)
  let sy := wrapInt (y + py)
  let t : MSEPixelState :=
    if sx < width ∧ sy < height then
      let targetPixel := rgba + wrapInt (pitch * sy) + wrapInt (4 * sx)
      let colour := CopyRGBA c image targetPixel junk4 0 flags
      -- compute the MSE of colour and alpha
      let cmse : ℚ := (List.range 3).foldl
        (fun (cmse : ℚ) (i : Nat) =>
          cmse + ErrorSq (toDouble (targetRgba (t.sourcePixel + (i : Int))))
            (toDouble (colour (i : Int))))
        0
      -- transparent in both, so colour is inconsequential
      let cmse : ℚ :=
        if colour 3 = 0 ∧ targetRgba (t.sourcePixel + 3) = 0 then 0 else cmse
      { sourcePixel := t.sourcePixel
        alphaMSE := t.alphaMSE +
          ErrorSq (toDouble (colour 3)) (toDouble (targetRgba (t.sourcePixel + 3)))
        colourMSE := t.colourMSE + cmse }
    else t
  { t with sourcePixel := t.sourcePixel + 4 }

/-- Body of the `x` loop of `ComputeMSE` with 32-bit `int`. -/
def int32.ComputeMSE.tile {CS M : Type} (c : FlagConsts) (H : SubCodecs CS M) (image : Mem)
    (dmem : Mem) (rgba width height pitch flags : Int) (junk : Int → Int → Int → u8)
    (junk4 : Int → u8) (bytesPerBlock : Int) (x y : Int) (s : MSEState CS) : MSEState CS :=
  -- decompress the block
  let d := Decompress c H (junk x y) dmem s.sourceBlock flags
  let t : MSEPixelState := (List.range 4).foldl
    (fun (t : MSEPixelState) (py : Nat) =>
      (List.range 4).foldl
        (fun (t : MSEPixelState) (px : Nat) =>
          int32.ComputeMSE.pixel c image d.rgba rgba width height pitch flags junk4 x y py px
            t)
        t)
    { sourcePixel := 0, colourMSE := s.colourMSE, alphaMSE := s.alphaMSE }
  -- advance
  { sourceBlock := s.sourceBlock + bytesPerBlock
    colourMSE := t.colourMSE
    alphaMSE := t.alphaMSE
    trace := s.trace ++ d.trace }

/-- The loop `for( int x = ...; x < width; x += 4 )` of `ComputeMSE` with 32-bit `int`, in row
`y`, entered with `x`; `fuel` bounds the number of iterations. -/
def int32.ComputeMSE.loopX {CS M : Type} (c : FlagConsts) (H : SubCodecs CS M) (image : Mem)
    (dmem : Mem) (rgba width height pitch flags : Int) (junk : Int → Int → Int → u8)
    (junk4 : Int → u8) (bytesPerBlock : Int) (y : Int) :
    Nat → Int → MSEState CS → MSEState CS
  | 0, _, s => s
  | fuel + 1, x, s =>
    if x < width then
      int32.ComputeMSE.loopX c H image dmem rgba width height pitch flags junk junk4
        bytesPerBlock y fuel (wrapInt (x + 4))
        (int32.ComputeMSE.tile c H image dmem rgba width height pitch flags junk junk4
          bytesPerBlock x y s)
    else s

/-- The loop `for( int y = ...; y < height; y += 4 )` of `ComputeMSE` with 32-bit `int`,
entered with `y`; `fuel` bounds the number of iterations. -/
def int32.ComputeMSE.loopY {CS M : Type} (c : FlagConsts) (H : SubCodecs CS M) (image : Mem)
    (dmem : Mem) (rgba width height pitch flags : Int) (junk : Int → Int → Int → u8)
    (junk4 : Int → u8) (bytesPerBlock : Int) : Nat → Int → MSEState CS → MSEState CS
  | 0, _, s => s
  | fuel + 1, y, s =>
    if y < height then
      int32.ComputeMSE.loopY c H image dmem rgba width height pitch flags junk junk4
        bytesPerBlock fuel (wrapInt (y + 4))
        (int32.ComputeMSE.loopX c H image dmem rgba width height pitch flags junk junk4
          bytesPerBlock y width.toNat 0 s)
    else s

/-- Embedding of `void ComputeMSE( u8 const *rgba, int width, int height, int pitch,
u8 const *dxt, int flags, double &colourMSE, double &alphaMSE )` with 32-bit `int`; the
arguments are those of `ComputeMSE`, and the two divisors `width * height * 3` and
`width * height` are `int` products.  The fuel `width.toNat`, `height.toNat` is enough as long
as `x += 4` and `y += 4` do not overflow; a counter that overflows never reaches its bound. -/
def int32.ComputeMSE {CS M : Type} (c : FlagConsts) (H : SubCodecs CS M) (image : Mem)
    (rgba width height pitch : Int) (dmem : Mem) (dxt : Int) (flags : Int)
    (junk : Int → Int → Int → u8) (junk4 : Int → u8) : MSEResult :=
  -- fix any bad flags
  let flags := FixFlags c flags
  -- initialise the block input
  let sourceBlock := dxt
  let bytesPerBlock : Int := if Int.land flags c.kDxt1 ≠ 0 then 8 else 16
  -- loop over blocks
  let s : MSEState CS :=
    int32.ComputeMSE.loopY c H image dmem rgba width height pitch flags junk junk4
      bytesPerBlock height.toNat 0
      { sourceBlock := sourceBlock, colourMSE := 0, alphaMSE := 0, trace := [] }
  { colourMSE := ComputeMSE.divide s.colourMSE (wrapInt (wrapInt (width * height) * 3))
    alphaMSE := ComputeMSE.divide s.alphaMSE (wrapInt (width * height)) }
/-! ## Bits of integers -/

theorem nat_testBit_high (m i : Nat) (h : m ≤ i) : Nat.testBit m i = false :=
  Nat.testBit_lt_two_pow
    (lt_of_lt_of_le (Nat.lt_two_pow m) (Nat.pow_le_pow_right (by norm_num) h))

theorem int_eq_of_testBit_eq {a b : Int} (h : ∀ i, a.testBit i = b.testBit i) : a = b := by
  cases a with
  | ofNat m =>
    cases b with
    | ofNat n =>
      congr 1
      exact Nat.eq_of_testBit_eq h
    | negSucc n =>
      exfalso
      have := h (m + n)
      simp [Int.testBit, nat_testBit_high m (m + n) (Nat.le_add_right m n),
        nat_testBit_high n (m + n) (Nat.le_add_left n m)] at this
  | negSucc m =>
    cases b with
    | ofNat n =>
      exfalso
      have := h (m + n)
      simp [Int.testBit, nat_testBit_high m (m + n) (Nat.le_add_right m n),
        nat_testBit_high n (m + n) (Nat.le_add_left n m)] at this
    | negSucc n =>
      congr 1
      apply Nat.eq_of_testBit_eq
      intro i
      have := h i
      simpa [Int.testBit] using this

theorem testBit_two_pow (k i : Nat) : Int.testBit ((2 : Int) ^ k) i = decide (k = i) := by
  have : ((2 : Int) ^ k) = ((2 ^ k : Nat) : Int) := by push_cast; rfl
  rw [this]
  show Nat.testBit (2 ^ k) i = _
  exact Nat.testBit_two_pow

theorem testBit_zero_int (i : Nat) : Int.testBit 0 i = false := by
  show Nat.testBit 0 i = false
  simp


theorem land_two_pow_ne_zero (a : Int) (k : Nat) :
    Int.land a (2 ^ k) ≠ 0 ↔ a.testBit k = true := by
  constructor
  · intro h
    by_contra hk
    apply h
    apply int_eq_of_testBit_eq
    intro i
    rw [Int.testBit_land, testBit_two_pow, testBit_zero_int]
    by_cases hi : k = i
    · subst hi; simp [hk]
    · simp [hi]
  · intro h h0
    have := congrArg (fun x => Int.testBit x k) h0
    simp [Int.testBit_land, testBit_two_pow, testBit_zero_int, h] at this

theorem land_mask3_eq (flags : Int) (p q r t : Nat) (ht : t = p ∨ t = q ∨ t = r) :
    Int.land flags (Int.lor (Int.lor (2 ^ p) (2 ^ q)) (2 ^ r)) = 2 ^ t ↔
      (flags.testBit t = true ∧
        ∀ i, (i = p ∨ i = q ∨ i = r) → i ≠ t → flags.testBit i = false) := by
  constructor
  · intro h
    have hb : ∀ i, (flags.testBit i && ((decide (p = i) || decide (q = i)) || decide (r = i)))
        = decide (t = i) := by
      intro i
      have := congrArg (fun x => Int.testBit x i) h
      simpa only [Int.testBit_land, Int.testBit_lor, testBit_two_pow] using this
    refine ⟨?_, ?_⟩
    · have := hb t
      rcases ht with rfl | rfl | rfl <;> simpa using this
    · intro i hi hne
      have := hb i
      have hne2 : ¬ t = i := fun e => hne e.symm
      rcases hi with rfl | rfl | rfl <;> simpa [hne2] using this
  · rintro ⟨h1, h2⟩
    apply int_eq_of_testBit_eq
    intro i
    simp only [Int.testBit_land, Int.testBit_lor, testBit_two_pow]
    by_cases hit : t = i
    · subst hit
      rcases ht with rfl | rfl | rfl <;> simp [h1]
    · by_cases hm : i = p ∨ i = q ∨ i = r
      · have := h2 i hm (fun e => hit e.symm)
        simp [this, hit]
      · have hp : ¬ p = i := fun e => hm (Or.inl e.symm)
        have hq : ¬ q = i := fun e => hm (Or.inr (Or.inl e.symm))
        have hr : ¬ r = i := fun e => hm (Or.inr (Or.inr e.symm))
        simp [hp, hq, hr, hit]

theorem normalise_group (flags : Int) (p q r x y z : Nat)
    (hx : x = p ∨ x = q ∨ x = r) (hy : y = p ∨ y = q ∨ y = r) (hz : z = p ∨ z = q ∨ z = r)
    (hxy : x ≠ y) (hxz : x ≠ z) (hyz : y ≠ z) :
    (if Int.land flags (Int.lor (Int.lor (2 ^ p) (2 ^ q)) (2 ^ r)) ≠ 2 ^ y ∧
        Int.land flags (Int.lor (Int.lor (2 ^ p) (2 ^ q)) (2 ^ r)) ≠ 2 ^ z
      then (2 : Int) ^ x else Int.land flags (Int.lor (Int.lor (2 ^ p) (2 ^ q)) (2 ^ r)))
      = 2 ^ groupPos flags x y z := by
  have hall : ∀ i, (i = p ∨ i = q ∨ i = r) → (i = x ∨ i = y ∨ i = z) := by
    intro i hi; omega
  by_cases h1 : Int.land flags (Int.lor (Int.lor (2 ^ p) (2 ^ q)) (2 ^ r)) = 2 ^ y
  · rw [if_neg (fun h => h.1 h1), h1]
    obtain ⟨t1, t2⟩ := (land_mask3_eq flags p q r y hy).1 h1
    have tx := t2 x hx hxy
    have tz := t2 z hz (fun e => hyz e.symm)
    simp [groupPos, t1, tx, tz]
  · by_cases h2 : Int.land flags (Int.lor (Int.lor (2 ^ p) (2 ^ q)) (2 ^ r)) = 2 ^ z
    · rw [if_neg (fun h => h.2 h2), h2]
      obtain ⟨t1, t2⟩ := (land_mask3_eq flags p q r z hz).1 h2
      have tx := t2 x hx hxz
      have ty := t2 y hy hyz
      simp [groupPos, t1, tx, ty]
    · rw [if_pos ⟨h1, h2⟩]
      have n1 : ¬ (flags.testBit y = true ∧ flags.testBit x = false ∧ flags.testBit z = false) := by
        rintro ⟨c1, c2, c3⟩
        apply h1
        refine (land_mask3_eq flags p q r y hy).2 ⟨c1, ?_⟩
        intro i hi hne
        rcases hall i hi with rfl | rfl | rfl
        · exact c2
        · exact absurd rfl hne
        · exact c3
      have n2 : ¬ (flags.testBit z = true ∧ flags.testBit x = false ∧ flags.testBit y = false) := by
        rintro ⟨c1, c2, c3⟩
        apply h2
        refine (land_mask3_eq flags p q r z hz).2 ⟨c1, ?_⟩
        intro i hi hne
        rcases hall i hi with rfl | rfl | rfl
        · exact c2
        · exact c3
        · exact absurd rfl hne
      unfold groupPos
      rw [if_neg (by simpa [and_assoc] using n1), if_neg (by simpa [and_assoc] using n2)]

theorem testBit_FixFlags {c : FlagConsts} {pos : Fin 8 → Nat}
    (hp : BitPositions c pos) (flags : Int) (i : Nat) :
    (FixFlags c flags).testBit i =
      (decide (groupPos flags (pos 0) (pos 1) (pos 2) = i) ||
        decide (groupPos flags (pos 4) (pos 5) (pos 3) = i) ||
        (flags.testBit i && (decide (pos 6 = i) || decide (pos 7 = i)))) := by
  unfold FixFlags
  simp only [hp.dxt1, hp.dxt3, hp.dxt5, hp.iter, hp.cluster, hp.range, hp.weight, hp.bgra]
  have e1 := normalise_group flags (pos 0) (pos 1) (pos 2) (pos 0) (pos 1) (pos 2)
    (Or.inl rfl) (Or.inr (Or.inl rfl)) (Or.inr (Or.inr rfl))
    (hp.inj.ne (by decide)) (hp.inj.ne (by decide)) (hp.inj.ne (by decide))
  have e2 := normalise_group flags (pos 3) (pos 4) (pos 5) (pos 4) (pos 5) (pos 3)
    (Or.inr (Or.inl rfl)) (Or.inr (Or.inr rfl)) (Or.inl rfl)
    (hp.inj.ne (by decide)) (hp.inj.ne (by decide)) (hp.inj.ne (by decide))
  rw [e1, e2]
  simp only [Int.testBit_lor, Int.testBit_land, testBit_two_pow]

theorem groupPos_cases (flags : Int) (pos : Fin 8 → Nat) (x y z : Fin 8) :
    ∃ k, (k = x ∨ k = y ∨ k = z) ∧ groupPos flags (pos x) (pos y) (pos z) = pos k := by
  unfold groupPos
  split_ifs
  · exact ⟨y, by simp, rfl⟩
  · exact ⟨z, by simp, rfl⟩
  · exact ⟨x, by simp, rfl⟩

theorem testBit_FixFlags_format {c : FlagConsts} {pos : Fin 8 → Nat}
    (hp : BitPositions c pos) (flags : Int) (k : Fin 8) (hk : k = 0 ∨ k = 1 ∨ k = 2) :
    (FixFlags c flags).testBit (pos k) =
      decide (groupPos flags (pos 0) (pos 1) (pos 2) = pos k) := by
  rw [testBit_FixFlags hp]
  obtain ⟨j, hj, ej⟩ := groupPos_cases flags pos 4 5 3
  rw [ej]
  rcases hj with rfl | rfl | rfl <;> rcases hk with rfl | rfl | rfl <;>
    simp [hp.inj.eq_iff]

theorem testBit_FixFlags_fit {c : FlagConsts} {pos : Fin 8 → Nat}
    (hp : BitPositions c pos) (flags : Int) (k : Fin 8) (hk : k = 3 ∨ k = 4 ∨ k = 5) :
    (FixFlags c flags).testBit (pos k) =
      decide (groupPos flags (pos 4) (pos 5) (pos 3) = pos k) := by
  rw [testBit_FixFlags hp]
  obtain ⟨j, hj, ej⟩ := groupPos_cases flags pos 0 1 2
  rw [ej]
  rcases hj with rfl | rfl | rfl <;> rcases hk with rfl | rfl | rfl <;>
    simp [hp.inj.eq_iff]

theorem testBit_FixFlags_modifier {c : FlagConsts} {pos : Fin 8 → Nat}
    (hp : BitPositions c pos) (flags : Int) (k : Fin 8) (hk : k = 6 ∨ k = 7) :
    (FixFlags c flags).testBit (pos k) = flags.testBit (pos k) := by
  rw [testBit_FixFlags hp]
  obtain ⟨j, hj, ej⟩ := groupPos_cases flags pos 0 1 2
  obtain ⟨j2, hj2, ej2⟩ := groupPos_cases flags pos 4 5 3
  rw [ej, ej2]
  rcases hj with rfl | rfl | rfl <;> rcases hj2 with rfl | rfl | rfl <;>
    rcases hk with rfl | rfl <;> simp [hp.inj.eq_iff]

theorem testBit_FixFlags_other {c : FlagConsts} {pos : Fin 8 → Nat}
    (hp : BitPositions c pos) (flags : Int) (i : Nat) (hi : ∀ k, pos k ≠ i) :
    (FixFlags c flags).testBit i = false := by
  rw [testBit_FixFlags hp]
  obtain ⟨j, _, ej⟩ := groupPos_cases flags pos 0 1 2
  obtain ⟨j2, _, ej2⟩ := groupPos_cases flags pos 4 5 3
  rw [ej, ej2]
  simp [hi]


theorem singleBits_positions {c : FlagConsts} (h : c.SingleBits) :
    ∃ pos : Fin 8 → Nat, BitPositions c pos := by
  obtain ⟨hb, hn⟩ := h
  obtain ⟨k1, k3, k5, ki, kc, kr, kw, ks⟩ := c
  simp only [FlagConsts.toList, List.mem_cons, List.mem_singleton, forall_eq_or_imp, forall_eq,
    List.not_mem_nil, false_imp_iff, implies_true, and_true, or_false, List.mem_nil_iff] at hb
  obtain ⟨⟨a, rfl⟩, ⟨b, rfl⟩, ⟨d, rfl⟩, ⟨e, rfl⟩, ⟨f, rfl⟩, ⟨g, rfl⟩, ⟨w, rfl⟩, ⟨s, rfl⟩⟩ := hb
  have hl : [a, b, d, e, f, g, w, s].Nodup := by
    apply List.Nodup.of_map (fun k : Nat => (2 : Int) ^ k)
    exact hn
  refine ⟨![a, b, d, e, f, g, w, s], ?_, rfl, rfl, rfl, rfl, rfl, rfl, rfl, rfl⟩
  apply List.nodup_ofFn.1
  exact hl

/-! ## Normalised flags -/

theorem two_pow_inj {a b : Nat} (h : (2 : Int) ^ a = 2 ^ b) : a = b := by
  have := congrArg (fun x => Int.testBit x b) h
  simpa [testBit_two_pow] using this

theorem select_group {α : Type} (flags : Int) (p q r x y z : Nat)
    (hx : x = p ∨ x = q ∨ x = r) (hy : y = p ∨ y = q ∨ y = r) (hz : z = p ∨ z = q ∨ z = r)
    (hxy : x ≠ y) (hxz : x ≠ z) (hyz : y ≠ z) (X Y Z : α) :
    (if Int.land flags (Int.lor (Int.lor (2 ^ p) (2 ^ q)) (2 ^ r)) = 2 ^ y then Y
      else if Int.land flags (Int.lor (Int.lor (2 ^ p) (2 ^ q)) (2 ^ r)) = 2 ^ z then Z
      else X) =
    (if groupPos flags x y z = y then Y else if groupPos flags x y z = z then Z else X) := by
  have hg := normalise_group flags p q r x y z hx hy hz hxy hxz hyz
  by_cases h1 : Int.land flags (Int.lor (Int.lor (2 ^ p) (2 ^ q)) (2 ^ r)) = 2 ^ y
  · rw [if_neg (fun h => h.1 h1), h1] at hg
    rw [if_pos h1, if_pos (two_pow_inj hg).symm]
  · by_cases h2 : Int.land flags (Int.lor (Int.lor (2 ^ p) (2 ^ q)) (2 ^ r)) = 2 ^ z
    · rw [if_neg (fun h => h.2 h2), h2] at hg
      have e := (two_pow_inj hg).symm
      rw [if_neg h1, if_pos h2, if_neg (by rw [e]; exact fun h => hyz h.symm), if_pos e]
    · rw [if_pos ⟨h1, h2⟩] at hg
      have e := (two_pow_inj hg).symm
      rw [if_neg h1, if_neg h2, if_neg (by rw [e]; exact hxy), if_neg (by rw [e]; exact hxz)]

theorem normalisedFormat_eq {c : FlagConsts} {pos : Fin 8 → Nat}
    (hp : BitPositions c pos) (flags : Int) :
    normalisedFormat c flags =
      if groupPos flags (pos 0) (pos 1) (pos 2) = pos 1 then Format.dxt3
      else if groupPos flags (pos 0) (pos 1) (pos 2) = pos 2 then Format.dxt5
      else Format.dxt1 := by
  unfold normalisedFormat formatMask
  simp only [hp.dxt1, hp.dxt3, hp.dxt5]
  exact select_group flags (pos 0) (pos 1) (pos 2) (pos 0) (pos 1) (pos 2)
    (Or.inl rfl) (Or.inr (Or.inl rfl)) (Or.inr (Or.inr rfl))
    (hp.inj.ne (by decide)) (hp.inj.ne (by decide)) (hp.inj.ne (by decide)) _ _ _

theorem normalisedFit_eq {c : FlagConsts} {pos : Fin 8 → Nat}
    (hp : BitPositions c pos) (flags : Int) :
    normalisedFit c flags =
      if groupPos flags (pos 4) (pos 5) (pos 3) = pos 5 then FitMethod.range
      else if groupPos flags (pos 4) (pos 5) (pos 3) = pos 3 then FitMethod.iterativeCluster
      else FitMethod.cluster := by
  unfold normalisedFit fitMask
  simp only [hp.iter, hp.cluster, hp.range]
  exact select_group flags (pos 3) (pos 4) (pos 5) (pos 4) (pos 5) (pos 3)
    (Or.inr (Or.inl rfl)) (Or.inr (Or.inr rfl)) (Or.inl rfl)
    (hp.inj.ne (by decide)) (hp.inj.ne (by decide)) (hp.inj.ne (by decide)) _ _ _

/-- Position of the enumerator of a format. -/
theorem format_const_eq {c : FlagConsts} {pos : Fin 8 → Nat}
    (hp : BitPositions c pos) (flags : Int) :
    (normalisedFormat c flags).const c = 2 ^ groupPos flags (pos 0) (pos 1) (pos 2) := by
  rw [normalisedFormat_eq hp]
  obtain ⟨k, hk, ek⟩ := groupPos_cases flags pos 0 1 2
  rw [ek]
  rcases hk with rfl | rfl | rfl <;>
    simp [hp.inj.eq_iff, Format.const, hp.dxt1, hp.dxt3, hp.dxt5]

theorem fit_const_eq {c : FlagConsts} {pos : Fin 8 → Nat}
    (hp : BitPositions c pos) (flags : Int) :
    (normalisedFit c flags).const c = 2 ^ groupPos flags (pos 4) (pos 5) (pos 3) := by
  rw [normalisedFit_eq hp]
  obtain ⟨k, hk, ek⟩ := groupPos_cases flags pos 4 5 3
  rw [ek]
  rcases hk with rfl | rfl | rfl <;>
    simp [hp.inj.eq_iff, FitMethod.const, hp.iter, hp.cluster, hp.range]

/-- The code's test `( FixFlags(flags) & k ) != 0` on a format enumerator `k` holds exactly
when `k` is the enumerator of the normalised format. -/
theorem land_FixFlags_format_ne_zero {c : FlagConsts} (hc : c.SingleBits) (flags : Int)
    (fm : Format) :
    Int.land (FixFlags c flags) (fm.const c) ≠ 0 ↔ normalisedFormat c flags = fm := by
  obtain ⟨pos, hp⟩ := singleBits_positions hc
  rw [normalisedFormat_eq hp]
  obtain ⟨k, hk, ek⟩ := groupPos_cases flags pos 0 1 2
  cases fm
  · simp only [Format.const, hp.dxt1]
    rw [land_two_pow_ne_zero, testBit_FixFlags_format hp flags 0 (Or.inl rfl), ek]
    rcases hk with rfl | rfl | rfl <;> simp [hp.inj.eq_iff]
  · simp only [Format.const, hp.dxt3]
    rw [land_two_pow_ne_zero, testBit_FixFlags_format hp flags 1 (Or.inr (Or.inl rfl)), ek]
    rcases hk with rfl | rfl | rfl <;> simp [hp.inj.eq_iff]
  · simp only [Format.const, hp.dxt5]
    rw [land_two_pow_ne_zero, testBit_FixFlags_format hp flags 2 (Or.inr (Or.inr rfl)), ek]
    rcases hk with rfl | rfl | rfl <;> simp [hp.inj.eq_iff]

/-- The code's test `( FixFlags(flags) & k ) != 0` on a fit enumerator `k` holds exactly when
`k` is the enumerator of the normalised fit method. -/
theorem land_FixFlags_fit_ne_zero {c : FlagConsts} (hc : c.SingleBits) (flags : Int)
    (ft : FitMethod) :
    Int.land (FixFlags c flags) (ft.const c) ≠ 0 ↔ normalisedFit c flags = ft := by
  obtain ⟨pos, hp⟩ := singleBits_positions hc
  rw [normalisedFit_eq hp]
  obtain ⟨k, hk, ek⟩ := groupPos_cases flags pos 4 5 3
  cases ft
  · simp only [FitMethod.const, hp.range]
    rw [land_two_pow_ne_zero, testBit_FixFlags_fit hp flags 5 (Or.inr (Or.inr rfl)), ek]
    rcases hk with rfl | rfl | rfl <;> simp [hp.inj.eq_iff]
  · simp only [FitMethod.const, hp.cluster]
    rw [land_two_pow_ne_zero, testBit_FixFlags_fit hp flags 4 (Or.inr (Or.inl rfl)), ek]
    rcases hk with rfl | rfl | rfl <;> simp [hp.inj.eq_iff]
  · simp only [FitMethod.const, hp.iter]
    rw [land_two_pow_ne_zero, testBit_FixFlags_fit hp flags 3 (Or.inl rfl), ek]
    rcases hk with rfl | rfl | rfl <;> simp [hp.inj.eq_iff]

/-- The enumerators of `stdFlags` are eight distinct single bits. -/
theorem stdFlags_singleBits : stdFlags.SingleBits := by
  refine ⟨?_, by decide⟩
  intro v hv
  simp only [FlagConsts.toList, stdFlags, List.mem_cons, List.mem_singleton, List.not_mem_nil,
    or_false] at hv
  rcases hv with rfl | rfl | rfl | rfl | rfl | rfl | rfl | rfl
  · exact ⟨0, rfl⟩
  · exact ⟨1, rfl⟩
  · exact ⟨2, rfl⟩
  · exact ⟨8, rfl⟩
  · exact ⟨3, rfl⟩
  · exact ⟨4, rfl⟩
  · exact ⟨7, rfl⟩
  · exact ⟨9, rfl⟩

theorem pos_cases (pos : Fin 8 → Nat) (i : Nat) : (∃ t, pos t = i) ∨ ∀ t, pos t ≠ i := by
  by_cases h : ∃ t, pos t = i
  · exact Or.inl h
  · exact Or.inr (fun t ht => h ⟨t, ht⟩)

theorem land_FixFlags_formatMask {c : FlagConsts} {pos : Fin 8 → Nat}
    (hp : BitPositions c pos) (flags : Int) :
    Int.land (FixFlags c flags) (formatMask c) = 2 ^ groupPos flags (pos 0) (pos 1) (pos 2) := by
  apply int_eq_of_testBit_eq
  intro i
  obtain ⟨k, hk, ek⟩ := groupPos_cases flags pos 0 1 2
  obtain ⟨j, hj, ej⟩ := groupPos_cases flags pos 4 5 3
  simp only [Int.testBit_land, testBit_FixFlags hp, formatMask, hp.dxt1, hp.dxt3, hp.dxt5,
    Int.testBit_lor, testBit_two_pow, ek, ej]
  rcases pos_cases pos i with ⟨t, rfl⟩ | hi
  · simp only [hp.inj.eq_iff]
    rcases hk with rfl | rfl | rfl <;> rcases hj with rfl | rfl | rfl <;>
      fin_cases t <;> simp
  · simp [hi]

theorem land_FixFlags_fitMask {c : FlagConsts} {pos : Fin 8 → Nat}
    (hp : BitPositions c pos) (flags : Int) :
    Int.land (FixFlags c flags) (fitMask c) = 2 ^ groupPos flags (pos 4) (pos 5) (pos 3) := by
  apply int_eq_of_testBit_eq
  intro i
  obtain ⟨k, hk, ek⟩ := groupPos_cases flags pos 0 1 2
  obtain ⟨j, hj, ej⟩ := groupPos_cases flags pos 4 5 3
  simp only [Int.testBit_land, testBit_FixFlags hp, fitMask, hp.iter, hp.cluster, hp.range,
    Int.testBit_lor, testBit_two_pow, ek, ej]
  rcases pos_cases pos i with ⟨t, rfl⟩ | hi
  · simp only [hp.inj.eq_iff]
    rcases hk with rfl | rfl | rfl <;> rcases hj with rfl | rfl | rfl <;>
      fin_cases t <;> simp
  · simp [hi]

theorem format_const_ite (c : FlagConsts) (flags : Int) :
    (normalisedFormat c flags).const c =
      if Int.land flags (formatMask c) = c.kDxt3 then c.kDxt3
      else if Int.land flags (formatMask c) = c.kDxt5 then c.kDxt5
      else c.kDxt1 := by
  unfold normalisedFormat
  split_ifs <;> rfl

theorem fit_const_ite (c : FlagConsts) (flags : Int) :
    (normalisedFit c flags).const c =
      if Int.land flags (fitMask c) = c.kColourRangeFit then c.kColourRangeFit
      else if Int.land flags (fitMask c) = c.kColourIterativeClusterFit
        then c.kColourIterativeClusterFit
      else c.kColourClusterFit := by
  unfold normalisedFit
  split_ifs <;> rfl

theorem FixFlags_zero {c : FlagConsts} {pos : Fin 8 → Nat} (hp : BitPositions c pos) :
    FixFlags c 0 = Int.lor c.kDxt1 c.kColourClusterFit := by
  apply int_eq_of_testBit_eq
  intro i
  simp [testBit_FixFlags hp, hp.dxt1, hp.cluster, Int.testBit_lor, testBit_two_pow, groupPos,
    testBit_zero_int]

theorem tdiv_add_three (w : Int) (hw : 0 ≤ w) : Int.tdiv (w + 3) 4 = ⌈(w : ℚ) / 4⌉ := by
  rw [Int.tdiv_eq_ediv (by omega) (by norm_num)]
  symm
  rw [Int.ceil_eq_iff]
  have h1 : 4 * ((w + 3) / 4) ≤ w + 3 := by omega
  have h2 : w + 3 < 4 * ((w + 3) / 4) + 4 := by omega
  constructor
  · rw [lt_div_iff₀ (by norm_num)]
    have : (((w + 3) / 4 : Int) - 1) * 4 < w := by omega
    exact_mod_cast this
  · rw [div_le_iff₀ (by norm_num)]
    have : w ≤ ((w + 3) / 4 : Int) * 4 := by omega
    exact_mod_cast this

/-! ## The claims -/

/-- C1: for non-negative `width` and `height` and any `flags`, `GetStorageRequirements` is
`ceil(width/4) * ceil(height/4) * blockSize`, with `blockSize` 8 when the normalised format is
DXT1 and 16 otherwise; a 6x6 image needs 32 bytes in DXT1 and 64 bytes in DXT5. -/
theorem GetStorageRequirements_spec (c : FlagConsts) (hc : c.SingleBits)
    (width height flags : Int) (hw : 0 ≤ width) (hh : 0 ≤ height) :
    GetStorageRequirements c width height flags =
        ⌈(width : ℚ) / 4⌉ * ⌈(height : ℚ) / 4⌉ * (normalisedFormat c flags).blockSize ∧
      (normalisedFormat c flags = Format.dxt1 → GetStorageRequirements c 6 6 flags = 32) ∧
      (normalisedFormat c flags = Format.dxt5 → GetStorageRequirements c 6 6 flags = 64) := by
  have hb : ∀ w h : Int, GetStorageRequirements c w h flags =
      Int.tdiv (w + 3) 4 * Int.tdiv (h + 3) 4 * (normalisedFormat c flags).blockSize := by
    intro w h
    unfold GetStorageRequirements
    have := land_FixFlags_format_ne_zero hc flags Format.dxt1
    simp only [Format.const] at this
    by_cases hf : normalisedFormat c flags = Format.dxt1
    · simp only [if_pos (this.2 hf), hf, Format.blockSize]
    · simp only [if_neg (fun h => hf (this.1 h))]
      cases hfm : normalisedFormat c flags
      · exact absurd hfm hf
      · rfl
      · rfl
  refine ⟨?_, ?_, ?_⟩
  · rw [hb, tdiv_add_three width hw, tdiv_add_three height hh]
  · intro hf
    rw [hb, hf]
    decide
  · intro hf
    rw [hb, hf]
    decide

/-- Instance of C1 with the libsquish enumerators: 7x5 pixels in DXT3 need 2x2 blocks of 16
bytes, and 6x6 pixels need 64 bytes in DXT5. -/
theorem GetStorageRequirements_spec_witness :
    GetStorageRequirements stdFlags 7 5 2 =
        ⌈((7 : Int) : ℚ) / 4⌉ * ⌈((5 : Int) : ℚ) / 4⌉ * (normalisedFormat stdFlags 2).blockSize ∧
      GetStorageRequirements stdFlags 6 6 4 = 64 :=
  ⟨(GetStorageRequirements_spec stdFlags stdFlags_singleBits 7 5 2 (by decide) (by decide)).1,
   (GetStorageRequirements_spec stdFlags stdFlags_singleBits 6 6 4 (by decide) (by decide)).2.2
     (by decide)⟩

/-- C3: the format part of `FixFlags(flags)` is `kDxt3` or `kDxt5` when the format bits of
`flags` are exactly that enumerator and the default `kDxt1` in every other case; the fit part is
`kColourRangeFit` or `kColourIterativeClusterFit` when the fit bits are exactly that enumerator
and the default `kColourClusterFit` in every other case; `FixFlags(0)` is
`kDxt1 | kColourClusterFit`. -/
theorem FixFlags_groups (c : FlagConsts) (hc : c.SingleBits) (flags : Int) :
    Int.land (FixFlags c flags) (formatMask c) =
        (if Int.land flags (formatMask c) = c.kDxt3 then c.kDxt3
         else if Int.land flags (formatMask c) = c.kDxt5 then c.kDxt5
         else c.kDxt1) ∧
      Int.land (FixFlags c flags) (fitMask c) =
        (if Int.land flags (fitMask c) = c.kColourRangeFit then c.kColourRangeFit
         else if Int.land flags (fitMask c) = c.kColourIterativeClusterFit
           then c.kColourIterativeClusterFit
         else c.kColourClusterFit) ∧
      FixFlags c 0 = Int.lor c.kDxt1 c.kColourClusterFit := by
  obtain ⟨pos, hp⟩ := singleBits_positions hc
  refine ⟨?_, ?_, FixFlags_zero hp⟩
  · rw [← format_const_ite, format_const_eq hp, land_FixFlags_formatMask hp]
  · rw [← fit_const_ite, fit_const_eq hp, land_FixFlags_fitMask hp]

/-- Instance of C3 with the libsquish enumerators: `kDxt3 | kDxt5 | kColourRangeFit`
normalises to format `kDxt1` and fit `kColourRangeFit`. -/
theorem FixFlags_groups_witness :
    Int.land (FixFlags stdFlags 22) (formatMask stdFlags) = 1 ∧
      Int.land (FixFlags stdFlags 22) (fitMask stdFlags) = 16 ∧
      FixFlags stdFlags 0 = 9 :=
  FixFlags_groups stdFlags stdFlags_singleBits 22

/-- C4: for every integer `flags` the result of `FixFlags` (a total function) has exactly one
of the three format bits set and exactly one of the three fit bits set. -/
theorem FixFlags_exactly_one (c : FlagConsts) (hc : c.SingleBits) (flags : Int) :
    (∃! fm : Format, Int.land (FixFlags c flags) (fm.const c) ≠ 0) ∧
      (∃! ft : FitMethod, Int.land (FixFlags c flags) (ft.const c) ≠ 0) := by
  constructor
  · refine ⟨normalisedFormat c flags, (land_FixFlags_format_ne_zero hc flags _).2 rfl, ?_⟩
    intro fm hfm
    exact ((land_FixFlags_format_ne_zero hc flags fm).1 hfm).symm
  · refine ⟨normalisedFit c flags, (land_FixFlags_fit_ne_zero hc flags _).2 rfl, ?_⟩
    intro ft hft
    exact ((land_FixFlags_fit_ne_zero hc flags ft).1 hft).symm

/-- Instance of C4 with the libsquish enumerators, at a value with every known bit set. -/
theorem FixFlags_exactly_one_witness :
    (∃! fm : Format, Int.land (FixFlags stdFlags 1023) (fm.const stdFlags) ≠ 0) ∧
      (∃! ft : FitMethod, Int.land (FixFlags stdFlags 1023) (ft.const stdFlags) ≠ 0) :=
  FixFlags_exactly_one stdFlags stdFlags_singleBits 1023

/-- C5: the modifier bits pass through `FixFlags` unchanged, and the result has no bit set
outside the eight known flag bits. -/
theorem FixFlags_modifiers (c : FlagConsts) (hc : c.SingleBits) (flags : Int) :
    Int.land (FixFlags c flags) (modifierMask c) = Int.land flags (modifierMask c) ∧
      Int.land (FixFlags c flags) (Int.lnot (knownMask c)) = 0 := by
  obtain ⟨pos, hp⟩ := singleBits_positions hc
  obtain ⟨k, hk, ek⟩ := groupPos_cases flags pos 0 1 2
  obtain ⟨j, hj, ej⟩ := groupPos_cases flags pos 4 5 3
  constructor
  · apply int_eq_of_testBit_eq
    intro i
    simp only [Int.testBit_land, testBit_FixFlags hp, modifierMask, hp.weight, hp.bgra,
      Int.testBit_lor, testBit_two_pow, ek, ej]
    rcases pos_cases pos i with ⟨t, rfl⟩ | hi
    · simp only [hp.inj.eq_iff]
      rcases hk with rfl | rfl | rfl <;> rcases hj with rfl | rfl | rfl <;>
        fin_cases t <;> simp
    · simp [hi]
  · apply int_eq_of_testBit_eq
    intro i
    simp only [Int.testBit_land, testBit_FixFlags hp, knownMask, formatMask, fitMask,
      modifierMask, hp.dxt1, hp.dxt3, hp.dxt5, hp.iter, hp.cluster, hp.range, hp.weight,
      hp.bgra, Int.testBit_lor, Int.testBit_lnot, testBit_two_pow, testBit_zero_int, ek, ej]
    rcases pos_cases pos i with ⟨t, rfl⟩ | hi
    · simp only [hp.inj.eq_iff]
      rcases hk with rfl | rfl | rfl <;> rcases hj with rfl | rfl | rfl <;>
        fin_cases t <;> simp
    · simp [hi]

/-- Instance of C5 with the libsquish enumerators: `kSourceBGRA` survives next to unknown
bits, which are dropped. -/
theorem FixFlags_modifiers_witness :
    Int.land (FixFlags stdFlags 3648) (modifierMask stdFlags) =
        Int.land 3648 (modifierMask stdFlags) ∧
      Int.land (FixFlags stdFlags 3648) (Int.lnot (knownMask stdFlags)) = 0 :=
  FixFlags_modifiers stdFlags stdFlags_singleBits 3648

/-! ## Block orchestrator -/

theorem land_lor_ne_zero (a m n : Int) :
    Int.land a (Int.lor m n) ≠ 0 ↔ Int.land a m ≠ 0 ∨ Int.land a n ≠ 0 := by
  have hd : Int.land a (Int.lor m n) = Int.lor (Int.land a m) (Int.land a n) := by
    apply int_eq_of_testBit_eq
    intro i
    simp only [Int.testBit_land, Int.testBit_lor]
    cases a.testBit i <;> simp
  rw [hd]
  constructor
  · intro h
    by_contra hn
    rw [not_or, not_not, not_not] at hn
    apply h
    rw [hn.1, hn.2]
    rfl
  · intro h h0
    have hb : ∀ i, ((Int.land a m).testBit i || (Int.land a n).testBit i) = false := by
      intro i
      have := congrArg (fun x => Int.testBit x i) h0
      simpa only [Int.testBit_lor, testBit_zero_int] using this
    rcases h with h | h
    · apply h
      apply int_eq_of_testBit_eq
      intro i
      have := hb i
      rw [testBit_zero_int]
      cases h1 : (Int.land a m).testBit i
      · rfl
      · rw [h1] at this
        simp at this
    · apply h
      apply int_eq_of_testBit_eq
      intro i
      have := hb i
      rw [testBit_zero_int]
      cases h1 : (Int.land a n).testBit i
      · rfl
      · rw [h1] at this
        simp at this

/-- The code's test for "the block has an alpha sub-block" holds exactly when the normalised
format is not DXT1. -/
theorem land_FixFlags_dxt35_ne_zero {c : FlagConsts} (hc : c.SingleBits) (flags : Int) :
    Int.land (FixFlags c flags) (Int.lor c.kDxt3 c.kDxt5) ≠ 0 ↔
      normalisedFormat c flags ≠ Format.dxt1 := by
  rw [land_lor_ne_zero]
  have h3 := land_FixFlags_format_ne_zero hc flags Format.dxt3
  have h5 := land_FixFlags_format_ne_zero hc flags Format.dxt5
  simp only [Format.const] at h3 h5
  rw [h3, h5]
  cases normalisedFormat c flags <;> simp

/-- The calls `CompressMasked` makes, in order, in terms of the normalised flags. -/
theorem CompressMasked_trace {CS M : Type} {c : FlagConsts} (hc : c.SingleBits)
    (H : SubCodecs CS M) (rgba : Int → u8) (mask : Int) (mem : Mem) (block : Int) (flags : Int)
    (metric : M) :
    (CompressMasked c H rgba mask mem block flags metric).trace =
      (if H.GetCount (H.mkColourSet rgba mask (FixFlags c flags)) = 1 then
          Call.singleColourFit (H.mkColourSet rgba mask (FixFlags c flags)) (FixFlags c flags)
            (block + (normalisedFormat c flags).colourOffset)
        else if normalisedFit c flags = FitMethod.range ∨
            H.GetCount (H.mkColourSet rgba mask (FixFlags c flags)) = 0 then
          Call.rangeFit (H.mkColourSet rgba mask (FixFlags c flags)) (FixFlags c flags)
            (block + (normalisedFormat c flags).colourOffset)
        else
          Call.clusterFit (H.mkColourSet rgba mask (FixFlags c flags)) (FixFlags c flags)
            (block + (normalisedFormat c flags).colourOffset)) ::
      (match normalisedFormat c flags with
        | Format.dxt1 => []
        | Format.dxt3 => [Call.compressAlphaDxt3 mask block]
        | Format.dxt5 => [Call.compressAlphaDxt5 mask block]) := by
  have h3 := land_FixFlags_format_ne_zero hc flags Format.dxt3
  have h5 := land_FixFlags_format_ne_zero hc flags Format.dxt5
  have h35 := land_FixFlags_dxt35_ne_zero hc flags
  have hr := land_FixFlags_fit_ne_zero hc flags FitMethod.range
  simp only [Format.const, FitMethod.const] at h3 h5 hr
  unfold CompressMasked
  simp only [h3, h5, h35, hr]
  cases hfm : normalisedFormat c flags <;>
    simp only [Format.colourOffset, ne_eq, not_true_eq_false, not_false_eq_true, if_true,
      if_false, reduceCtorEq, add_zero] <;>
    split_ifs <;> rfl

/-- C8 as stated fails: a fully masked block (`mask = 0`) has a colour set of count 0, and
`CompressMasked` passes that colour set to Range Fit, here with flags that do not select Range
Fit. -/
theorem CompressMasked_range_on_empty :
    ¬ (∀ call ∈ (CompressMasked stdFlags demoCodecs rampTile 0 (fun _ => 0) 0 0 ()).trace,
        ∀ cs, (call.fit = some (Strategy.range, cs) ∨ call.fit = some (Strategy.cluster, cs)) →
          1 < demoCodecs.GetCount cs) := by
  intro h
  have h0 := h (Call.rangeFit [] 9 0) (by decide) [] (Or.inl rfl)
  revert h0
  decide

/-- C8, amended: a colour set of count 0 is routed to Range Fit whatever the flags, never to
Cluster Fit or Single-Colour Fit; whenever `CompressMasked` invokes Cluster Fit the count is
neither 0 nor 1 (so greater than 1 when non-negative), and whenever it invokes Range Fit the
count is not 1. -/
theorem CompressMasked_fit_counts {CS M : Type} (c : FlagConsts) (hc : c.SingleBits)
    (H : SubCodecs CS M) (rgba : Int → u8) (mask : Int) (mem : Mem) (block : Int) (flags : Int)
    (metric : M) :
    (H.GetCount (H.mkColourSet rgba mask (FixFlags c flags)) = 0 →
        (CompressMasked c H rgba mask mem block flags metric).trace.filterMap Call.fit =
          [(Strategy.range, H.mkColourSet rgba mask (FixFlags c flags))]) ∧
      (∀ call ∈ (CompressMasked c H rgba mask mem block flags metric).trace,
        ∀ cs, call.fit = some (Strategy.cluster, cs) →
          H.GetCount cs ≠ 0 ∧ H.GetCount cs ≠ 1 ∧ (0 ≤ H.GetCount cs → 1 < H.GetCount cs)) ∧
      (∀ call ∈ (CompressMasked c H rgba mask mem block flags metric).trace,
        ∀ cs, call.fit = some (Strategy.range, cs) → H.GetCount cs ≠ 1) := by
  rw [CompressMasked_trace hc]
  refine ⟨?_, ?_, ?_⟩
  · intro h0
    have n1 : ¬ H.GetCount (H.mkColourSet rgba mask (FixFlags c flags)) = 1 := by omega
    simp only [if_neg n1, h0, or_true, if_true]
    cases normalisedFormat c flags <;> rfl
  · intro call hcall cs hfit
    rw [List.mem_cons] at hcall
    rcases hcall with rfl | hcall
    · split_ifs at hfit with a1 a2
      · simp [Call.fit] at hfit
      · simp [Call.fit] at hfit
      · simp only [Call.fit, Option.some.injEq, Prod.mk.injEq, true_and] at hfit
        subst hfit
        rw [not_or] at a2
        refine ⟨a2.2, a1, fun _ => ?_⟩
        have := a2.2
        omega
    · exfalso
      cases hfm : normalisedFormat c flags <;> rw [hfm] at hcall <;>
        simp only [List.mem_singleton, List.not_mem_nil] at hcall
      all_goals subst hcall; simp [Call.fit] at hfit
  · intro call hcall cs hfit
    rw [List.mem_cons] at hcall
    rcases hcall with rfl | hcall
    · split_ifs at hfit with a1 a2
      · simp [Call.fit] at hfit
      · simp only [Call.fit, Option.some.injEq, Prod.mk.injEq, true_and] at hfit
        subst hfit
        exact a1
      · simp [Call.fit] at hfit
    · exfalso
      cases hfm : normalisedFormat c flags <;> rw [hfm] at hcall <;>
        simp only [List.mem_singleton, List.not_mem_nil] at hcall
      all_goals subst hcall; simp [Call.fit] at hfit

/-- Instance of amended C8: the fully masked block is sent to Range Fit under flags that select
iterative Cluster Fit. -/
theorem CompressMasked_fit_counts_witness :
    (CompressMasked stdFlags demoCodecs rampTile 0 (fun _ => 0) 0 256 ()).trace.filterMap
        Call.fit =
      [(Strategy.range, demoCodecs.mkColourSet rampTile 0 (FixFlags stdFlags 256))] :=
  (CompressMasked_fit_counts stdFlags stdFlags_singleBits demoCodecs rampTile 0 (fun _ => 0) 0
    256 ()).1 (by decide)

theorem testBit_one_shiftLeft (n i : Nat) :
    Int.testBit ((1 : Int) <<< (n : Int)) i = decide (n = i) := by
  rw [Int.one_shiftLeft]
  show Nat.testBit (2 ^ n) i = _
  exact Nat.testBit_two_pow

theorem pixel_mask_testBit (c : FlagConsts) (image : Mem) (rgba width height pitch flags : Int)
    (x y : Int) (py px : Nat) (t : TileState) (i : Nat) :
    (CompressImage.pixel c image rgba width height pitch flags x y py px t).mask.testBit i =
      (t.mask.testBit i ||
        (decide (x + px < width ∧ y + py < height) && decide (4 * py + px = i))) := by
  unfold CompressImage.pixel
  by_cases h : x + (px : Int) < width ∧ y + (py : Int) < height
  · have e : (4 * (py : Int) + (px : Int)) = ((4 * py + px : Nat) : Int) := by push_cast; rfl
    simp only [if_pos h, Int.testBit_lor, e, testBit_one_shiftLeft, h, and_self, decide_True,
      Bool.true_and, if_true]
  · simp only [if_neg h, h, decide_False, Bool.false_and, Bool.or_false, if_false]

/-- Bit `i` of the mask of the tile at `(x, y)` is set exactly when `i < 16` and pixel
`(i mod 4, i div 4)` of the tile lies in the image. -/
theorem buildTile_mask_testBit (c : FlagConsts) (image : Mem)
    (rgba width height pitch flags : Int) (x y : Int) (junk : Int → u8) (i : Nat) :
    (CompressImage.buildTile c image rgba width height pitch flags x y junk).mask.testBit i =
      (decide (i < 16) &&
        decide (x + ((i % 4 : Nat) : Int) < width ∧ y + ((i / 4 : Nat) : Int) < height)) := by
  have hr : List.range 4 = [0, 1, 2, 3] := rfl
  unfold CompressImage.buildTile
  simp only [hr, List.foldl, pixel_mask_testBit, testBit_zero_int]
  by_cases hi : i < 16
  · interval_cases i <;> simp
  · have : ∀ k : Nat, k < 16 → decide (k = i) = false := by
      intro k hk
      simp only [decide_eq_false_iff_not]
      omega
    simp [hi, this]

theorem for_step4 {σ : Type} (bound : Int) (body : Int → σ → σ) (L : Nat → Int → σ → σ)
    (h0 : ∀ x s, L 0 x s = s)
    (hs : ∀ f x s, L (f + 1) x s = if x < bound then L f (x + 4) (body x s) else s) :
    ∀ (n fuel : Nat) (x : Int) (s : σ), n ≤ fuel → bound ≤ x + 4 * n →
      (∀ i : Nat, i < n → x + 4 * i < bound) →
      L fuel x s =
        ((List.range n).map (fun i : Nat => x + 4 * (i : Int))).foldl (fun s x' => body x' s) s := by
  intro n
  induction n with
  | zero =>
    intro fuel x s _ hb _
    cases fuel with
    | zero => simp [h0]
    | succ f =>
      rw [hs, if_neg (by simpa using hb)]
      simp
  | succ n ih =>
    intro fuel x s hf hb hlt
    cases fuel with
    | zero => omega
    | succ f =>
      have hx : x < bound := by simpa using hlt 0 (Nat.succ_pos n)
      rw [hs, if_pos hx, ih f (x + 4) (body x s) (by omega) (by push_cast at hb; omega)
        (fun i hi => by have := hlt (i + 1) (by omega); push_cast at this; omega)]
      rw [List.range_succ_eq_map, List.map_cons, List.foldl_cons, List.map_map]
      simp only [Nat.cast_zero, mul_zero, add_zero]
      congr 1
      apply List.map_congr_left
      intro i _
      simp only [Function.comp, Nat.cast_succ]
      ring

/-- Fuel `n.toNat` is enough for a loop over the tile origins below `n`. -/
theorem for_step4_origins {σ : Type} (bound : Int) (body : Int → σ → σ)
    (L : Nat → Int → σ → σ) (h0 : ∀ x s, L 0 x s = s)
    (hs : ∀ f x s, L (f + 1) x s = if x < bound then L f (x + 4) (body x s) else s) (s : σ) :
    L bound.toNat 0 s = (tileOrigins bound).foldl (fun s x' => body x' s) s := by
  have h := for_step4 bound body L h0 hs ((bound + 3) / 4).toNat bound.toNat 0 s (by omega)
    (by omega) (fun i hi => by omega)
  rw [h]
  unfold tileOrigins
  congr 1
  apply List.map_congr_left
  intro i _
  simp

theorem mem_tileOrigins (n x : Int) : x ∈ tileOrigins n ↔ 0 ≤ x ∧ x < n ∧ x % 4 = 0 := by
  unfold tileOrigins
  rw [List.mem_map]
  constructor
  · rintro ⟨i, hi, rfl⟩
    rw [List.mem_range] at hi
    omega
  · rintro ⟨h0, hn, h4⟩
    refine ⟨(x / 4).toNat, ?_, ?_⟩
    · rw [List.mem_range]
      omega
    · omega

/-- The block loops of `CompressImage` visit the tile origins row by row. -/
theorem CompressImage_eq_foldl {CS M : Type} (c : FlagConsts) (H : SubCodecs CS M)
    (image : Mem) (rgba width height pitch : Int) (out : Mem) (blocks : Int) (flags : Int)
    (metric : M) (junk : Int → Int → Int → u8) :
    CompressImage c H image rgba width height pitch out blocks flags metric junk =
      (tileOrigins height).foldl
        (fun s y =>
          (tileOrigins width).foldl
            (fun s x =>
              CompressImage.tile c H image rgba width height pitch (FixFlags c flags) metric
                junk (if Int.land (FixFlags c flags) c.kDxt1 ≠ 0 then 8 else 16) x y s) s)
        { mem := out, targetBlock := blocks, invocations := [], trace := [] } := by
  unfold CompressImage
  simp only []
  rw [for_step4_origins height
    (fun y s => CompressImage.loopX c H image rgba width height pitch (FixFlags c flags) metric
      junk (if Int.land (FixFlags c flags) c.kDxt1 ≠ 0 then 8 else 16) y width.toNat 0 s)
    (CompressImage.loopY c H image rgba width height pitch (FixFlags c flags) metric junk
      (if Int.land (FixFlags c flags) c.kDxt1 ≠ 0 then 8 else 16))
    (fun _ _ => rfl) (fun _ _ _ => rfl)]
  congr 1
  funext s y
  exact for_step4_origins width
    (fun x s => CompressImage.tile c H image rgba width height pitch (FixFlags c flags) metric
      junk (if Int.land (FixFlags c flags) c.kDxt1 ≠ 0 then 8 else 16) x y s)
    (CompressImage.loopX c H image rgba width height pitch (FixFlags c flags) metric junk
      (if Int.land (FixFlags c flags) c.kDxt1 ≠ 0 then 8 else 16) y)
    (fun _ _ => rfl) (fun _ _ _ => rfl) s

theorem foldl_tile_invocations {CS M : Type} (c : FlagConsts) (H : SubCodecs CS M)
    (image : Mem) (rgba width height pitch flags : Int) (metric : M)
    (junk : Int → Int → Int → u8) (bpb : Int) (y : Int) (xs : List Int) (s : ImageState CS) :
    ((xs.foldl
        (fun s x => CompressImage.tile c H image rgba width height pitch flags metric junk bpb
          x y s) s).invocations.map (fun inv => (inv.x, inv.y, inv.mask))) =
      s.invocations.map (fun inv => (inv.x, inv.y, inv.mask)) ++
        xs.map (fun x => (x, y,
          (CompressImage.buildTile c image rgba width height pitch flags x y (junk x y)).mask)) := by
  induction xs generalizing s with
  | nil => simp
  | cons x xs ih =>
    rw [List.foldl_cons, ih]
    simp [CompressImage.tile]

theorem foldl_rows_invocations {CS M : Type} (c : FlagConsts) (H : SubCodecs CS M)
    (image : Mem) (rgba width height pitch flags : Int) (metric : M)
    (junk : Int → Int → Int → u8) (bpb : Int) (xs ys : List Int) (s : ImageState CS)
    (k : Int × Int × Int) :
    k ∈ ((ys.foldl
        (fun s y => xs.foldl
          (fun s x => CompressImage.tile c H image rgba width height pitch flags metric junk
            bpb x y s) s) s).invocations.map (fun inv => (inv.x, inv.y, inv.mask))) ↔
      k ∈ s.invocations.map (fun inv => (inv.x, inv.y, inv.mask)) ∨
        ∃ y ∈ ys, ∃ x ∈ xs, k = (x, y,
          (CompressImage.buildTile c image rgba width height pitch flags x y (junk x y)).mask) := by
  induction ys generalizing s with
  | nil => simp
  | cons y ys ih =>
    rw [List.foldl_cons, ih, foldl_tile_invocations, List.mem_append]
    constructor
    · rintro ((h | h) | ⟨y', hy', x, hx, rfl⟩)
      · exact Or.inl h
      · obtain ⟨x, hx, rfl⟩ := List.mem_map.1 h
        exact Or.inr ⟨y, List.mem_cons_self _ _, x, hx, rfl⟩
      · exact Or.inr ⟨y', List.mem_cons_of_mem _ hy', x, hx, rfl⟩
    · rintro (h | ⟨y', hy', x, hx, rfl⟩)
      · exact Or.inl (Or.inl h)
      · rw [List.mem_cons] at hy'
        rcases hy' with rfl | hy'
        · exact Or.inl (Or.inr (List.mem_map.2 ⟨x, hx, rfl⟩))
        · exact Or.inr ⟨y', hy', x, hx, rfl⟩

/-- The calls of `CompressMasked` made by `CompressImage` are those of the tile origins, each
with the mask built for its tile. -/
theorem CompressImage_invocations {CS M : Type} (c : FlagConsts) (H : SubCodecs CS M)
    (image : Mem) (rgba width height pitch : Int) (out : Mem) (blocks : Int) (flags : Int)
    (metric : M) (junk : Int → Int → Int → u8) (k : Int × Int × Int) :
    k ∈ (CompressImage c H image rgba width height pitch out blocks flags metric
        junk).invocations.map (fun inv => (inv.x, inv.y, inv.mask)) ↔
      ∃ y ∈ tileOrigins height, ∃ x ∈ tileOrigins width, k = (x, y,
        (CompressImage.buildTile c image rgba width height pitch (FixFlags c flags) x y
          (junk x y)).mask) := by
  rw [CompressImage_eq_foldl, foldl_rows_invocations]
  simp

theorem popCount16_grid (m : Int) (a b : Nat) (ha : a ≤ 4) (hb : b ≤ 4)
    (hm : ∀ i, i < 16 → m.testBit i = (decide (i % 4 < a) && decide (i / 4 < b))) :
    popCount16 m = a * b := by
  unfold popCount16
  have : (List.range 16).filter (fun i => m.testBit i) =
      (List.range 16).filter (fun i => decide (i % 4 < a) && decide (i / 4 < b)) := by
    apply List.filter_congr
    intro i hi
    exact hm i (List.mem_range.1 hi)
  rw [this]
  interval_cases a <;> interval_cases b <;> rfl

theorem testBit_65535 (i : Nat) : Int.testBit 65535 i = decide (i < 16) := by
  show Nat.testBit (2 ^ 16 - 1) i = _
  exact Nat.testBit_two_pow_sub_one 16 i

/-- C10: every call of `CompressMasked` made by `CompressImage` is for a tile origin `(x, y)`
with `x`, `y` multiples of 4 inside the image, and every such origin is visited; bit
`4*py + px` of the mask passed is set exactly when `x + px < width` and `y + py < height`, so
the mask has `min(4, width - x) * min(4, height - y)` bits set, is `0xFFFF` for a tile fully
inside the image, and has no bit above bit 15 set. -/
theorem CompressImage_masks {CS M : Type} (c : FlagConsts) (H : SubCodecs CS M)
    (image : Mem) (rgba width height pitch : Int) (out : Mem) (blocks : Int) (flags : Int)
    (metric : M) (junk : Int → Int → Int → u8) :
    (∀ inv ∈ (CompressImage c H image rgba width height pitch out blocks flags metric
        junk).invocations,
      (0 ≤ inv.x ∧ inv.x < width ∧ inv.x % 4 = 0 ∧
        0 ≤ inv.y ∧ inv.y < height ∧ inv.y % 4 = 0) ∧
      (∀ px py : Nat, px < 4 → py < 4 →
        (inv.mask.testBit (4 * py + px) = true ↔
          inv.x + px < width ∧ inv.y + py < height)) ∧
      (popCount16 inv.mask : Int) = min 4 (width - inv.x) * min 4 (height - inv.y) ∧
      (inv.x + 4 ≤ width → inv.y + 4 ≤ height → inv.mask = 65535) ∧
      (∀ i, 16 ≤ i → inv.mask.testBit i = false)) ∧
    (∀ x y : Int, 0 ≤ x → x < width → x % 4 = 0 → 0 ≤ y → y < height → y % 4 = 0 →
      ∃ inv ∈ (CompressImage c H image rgba width height pitch out blocks flags metric
        junk).invocations, inv.x = x ∧ inv.y = y) := by
  constructor
  · intro inv hinv
    have hk : (inv.x, inv.y, inv.mask) ∈
        (CompressImage c H image rgba width height pitch out blocks flags metric
          junk).invocations.map (fun inv => (inv.x, inv.y, inv.mask)) :=
      List.mem_map.2 ⟨inv, hinv, rfl⟩
    rw [CompressImage_invocations] at hk
    obtain ⟨y, hy, x, hx, e⟩ := hk
    simp only [Prod.mk.injEq] at e
    obtain ⟨ex, ey, em⟩ := e
    rw [mem_tileOrigins] at hx hy
    rw [ex, ey, em]
    have hbit := buildTile_mask_testBit c image rgba width height pitch (FixFlags c flags) x y
      (junk x y)
    refine ⟨⟨hx.1, hx.2.1, hx.2.2, hy.1, hy.2.1, hy.2.2⟩, ?_, ?_, ?_, ?_⟩
    · intro px py hpx hpy
      have h1 : (4 * py + px) % 4 = px := by omega
      have h2 : (4 * py + px) / 4 = py := by omega
      have h3 : 4 * py + px < 16 := by omega
      rw [hbit, h1, h2]
      simp [h3]
    · have hgrid := popCount16_grid
        (CompressImage.buildTile c image rgba width height pitch (FixFlags c flags) x y
          (junk x y)).mask
        (min 4 (width - x)).toNat (min 4 (height - y)).toNat (by omega) (by omega)
        (by
          intro i hi
          rw [hbit]
          have e1 : (x + ((i % 4 : Nat) : Int) < width) ↔ i % 4 < (min 4 (width - x)).toNat := by
            omega
          have e2 : (y + ((i / 4 : Nat) : Int) < height) ↔
              i / 4 < (min 4 (height - y)).toNat := by omega
          simp only [hi, decide_True, Bool.true_and, e1, e2, Bool.decide_and])
      rw [hgrid]
      push_cast
      rw [Int.toNat_of_nonneg (by omega), Int.toNat_of_nonneg (by omega)]
    · intro hfx hfy
      apply int_eq_of_testBit_eq
      intro i
      rw [hbit, testBit_65535]
      by_cases hi : i < 16
      · have e1 : x + ((i % 4 : Nat) : Int) < width := by omega
        have e2 : y + ((i / 4 : Nat) : Int) < height := by omega
        simp only [hi, e1, e2, and_self, decide_True, Bool.and_self]
      · simp only [hi, decide_False, Bool.false_and]
    · intro i hi
      rw [hbit]
      have : ¬ i < 16 := by omega
      simp [this]
  · intro x y hx0 hxw hx4 hy0 hyh hy4
    have hk : (x, y, (CompressImage.buildTile c image rgba width height pitch (FixFlags c flags)
        x y (junk x y)).mask) ∈
        (CompressImage c H image rgba width height pitch out blocks flags metric
          junk).invocations.map (fun inv => (inv.x, inv.y, inv.mask)) := by
      rw [CompressImage_invocations]
      exact ⟨y, (mem_tileOrigins height y).2 ⟨hy0, hyh, hy4⟩, x,
        (mem_tileOrigins width x).2 ⟨hx0, hxw, hx4⟩, rfl⟩
    obtain ⟨inv, hinv, e⟩ := List.mem_map.1 hk
    simp only [Prod.mk.injEq] at e
    exact ⟨inv, hinv, e.1, e.2.1⟩

/-- Instance of C10: in a 5x6 image the tile at `(4, 4)` holds one column and two rows of
pixels, so its mask has the two bits 0 and 4 set. -/
theorem CompressImage_masks_witness :
    (popCount16 17 : Int) = min 4 (5 - 4) * min 4 (6 - 4) ∧
      (∃ inv ∈ (CompressImage stdFlags demoCodecs (fun _ => 0) 0 5 6 20 (fun _ => 0) 0 4 ()
          (fun _ _ _ => 0)).invocations, inv.x = 4 ∧ inv.y = 4) :=
  ⟨((CompressImage_masks stdFlags demoCodecs (fun _ => 0) 0 5 6 20 (fun _ => 0) 0 4 ()
      (fun _ _ _ => 0)).1
      ((CompressImage stdFlags demoCodecs (fun _ => 0) 0 5 6 20 (fun _ => 0) 0 4 ()
        (fun _ _ _ => 0)).invocations.get ⟨3, by decide⟩)
      (List.get_mem _ _ _)).2.2.1,
   (CompressImage_masks stdFlags demoCodecs (fun _ => 0) 0 5 6 20 (fun _ => 0) 0 4 ()
      (fun _ _ _ => 0)).2 4 4 (by decide) (by decide) (by decide) (by decide) (by decide)
      (by decide)⟩

/-! ## Channel copy, flag normalisation twice, decoder and flags -/

/-- Bytes outside the four destination bytes are left as they are by `CopyRGBA`. -/
theorem CopyRGBA_frame (c : FlagConsts) (src : Mem) (source : Int) (dst : Mem) (dest : Int)
    (flags : Int) (a : Int) (ha : a < dest ∨ dest + 4 ≤ a) :
    CopyRGBA c src source dst dest flags a = dst a := by
  have h0 : ¬ a = dest := by omega
  have h1 : ¬ a = dest + 1 := by omega
  have h2 : ¬ a = dest + 2 := by omega
  have h3 : ¬ a = dest + 3 := by omega
  have hr : List.range 4 = [0, 1, 2, 3] := rfl
  unfold CopyRGBA
  split_ifs <;> simp [store, hr, add_assoc, h0, h1, h2, h3]

theorem CopyRGBA_bgra (c : FlagConsts) (src : Mem) (source : Int) (dst : Mem) (dest : Int)
    (flags : Int) (hf : Int.land flags c.kSourceBGRA ≠ 0) :
    CopyRGBA c src source dst dest flags dest = src (source + 2) ∧
      CopyRGBA c src source dst dest flags (dest + 1) = src (source + 1) ∧
      CopyRGBA c src source dst dest flags (dest + 2) = src source ∧
      CopyRGBA c src source dst dest flags (dest + 3) = src (source + 3) := by
  unfold CopyRGBA
  rw [if_pos hf]
  simp [store]

theorem CopyRGBA_rgba (c : FlagConsts) (src : Mem) (source : Int) (dst : Mem) (dest : Int)
    (flags : Int) (hf : ¬ Int.land flags c.kSourceBGRA ≠ 0) :
    CopyRGBA c src source dst dest flags dest = src source ∧
      CopyRGBA c src source dst dest flags (dest + 1) = src (source + 1) ∧
      CopyRGBA c src source dst dest flags (dest + 2) = src (source + 2) ∧
      CopyRGBA c src source dst dest flags (dest + 3) = src (source + 3) := by
  have hr : List.range 4 = [0, 1, 2, 3] := rfl
  unfold CopyRGBA
  rw [if_neg hf]
  simp [store, hr, add_assoc]

/-- With the source and the destination in separate memories, `CopyRGBA` writes `(s[2], s[1],
s[0], s[3])` when the `kSourceBGRA` bit of `flags` is set and `(s[0], s[1], s[2], s[3])`
otherwise; channels 1 and 3 stay in place in both cases, no other destination byte changes, and no
other flag bit influences the result. -/
theorem CopyRGBA_separate (c : FlagConsts) (p : Nat) (hp : c.kSourceBGRA = 2 ^ p) (src : Mem)
    (source : Int) (dst : Mem) (dest : Int) (flags : Int) :
    (flags.testBit p = true →
        CopyRGBA c src source dst dest flags dest = src (source + 2) ∧
        CopyRGBA c src source dst dest flags (dest + 2) = src source) ∧
      (flags.testBit p = false →
        CopyRGBA c src source dst dest flags dest = src source ∧
        CopyRGBA c src source dst dest flags (dest + 2) = src (source + 2)) ∧
      CopyRGBA c src source dst dest flags (dest + 1) = src (source + 1) ∧
      CopyRGBA c src source dst dest flags (dest + 3) = src (source + 3) ∧
      (∀ a, a < dest ∨ dest + 4 ≤ a → CopyRGBA c src source dst dest flags a = dst a) ∧
      (∀ flags2 : Int, flags2.testBit p = flags.testBit p →
        CopyRGBA c src source dst dest flags2 = CopyRGBA c src source dst dest flags) := by
  have hbit : ∀ f : Int, Int.land f c.kSourceBGRA ≠ 0 ↔ f.testBit p = true := by
    intro f
    rw [hp]
    exact land_two_pow_ne_zero f p
  refine ⟨?_, ?_, ?_, ?_, ?_, ?_⟩
  · intro h
    have := CopyRGBA_bgra c src source dst dest flags ((hbit flags).2 h)
    exact ⟨this.1, this.2.2.1⟩
  · intro h
    have := CopyRGBA_rgba c src source dst dest flags
      (fun hn => by rw [(hbit flags).1 hn] at h; exact Bool.noConfusion h)
    exact ⟨this.1, this.2.2.1⟩
  · by_cases h : Int.land flags c.kSourceBGRA ≠ 0
    · exact (CopyRGBA_bgra c src source dst dest flags h).2.1
    · exact (CopyRGBA_rgba c src source dst dest flags h).2.1
  · by_cases h : Int.land flags c.kSourceBGRA ≠ 0
    · exact (CopyRGBA_bgra c src source dst dest flags h).2.2.2
    · exact (CopyRGBA_rgba c src source dst dest flags h).2.2.2
  · intro a ha
    exact CopyRGBA_frame c src source dst dest flags a ha
  · intro flags2 h2
    have e : (Int.land flags2 c.kSourceBGRA ≠ 0) ↔ (Int.land flags c.kSourceBGRA ≠ 0) := by
      rw [hbit, hbit, h2]
    unfold CopyRGBA
    by_cases h : Int.land flags c.kSourceBGRA ≠ 0
    · rw [if_pos h, if_pos (e.2 h)]
    · rw [if_neg h, if_neg (fun h' => h (e.1 h'))]

/-- The result of `Decompress` written with the normalised format in place of the bit tests. -/
theorem Decompress_eq {CS M : Type} {c : FlagConsts} (hc : c.SingleBits)
    (H : SubCodecs CS M) (rgba : Int → u8) (mem : Mem) (block : Int) (flags : Int) :
    Decompress c H rgba mem block flags =
      (match normalisedFormat c flags with
        | Format.dxt1 =>
          { rgba := H.DecompressColour rgba (view mem block) true,
            trace := [Call.decompressColour block true] }
        | Format.dxt3 =>
          { rgba := H.DecompressAlphaDxt3
              (H.DecompressColour rgba (view mem (block + 8)) false) (view mem block),
            trace := [Call.decompressColour (block + 8) false, Call.decompressAlphaDxt3 block] }
        | Format.dxt5 =>
          { rgba := H.DecompressAlphaDxt5
              (H.DecompressColour rgba (view mem (block + 8)) false) (view mem block),
            trace := [Call.decompressColour (block + 8) false,
              Call.decompressAlphaDxt5 block] }) := by
  have h1 := land_FixFlags_format_ne_zero hc flags Format.dxt1
  have h3 := land_FixFlags_format_ne_zero hc flags Format.dxt3
  have h5 := land_FixFlags_format_ne_zero hc flags Format.dxt5
  have h35 := land_FixFlags_dxt35_ne_zero hc flags
  simp only [Format.const] at h1 h3 h5
  unfold Decompress
  simp only [h1, h3, h5, h35]
  cases hfm : normalisedFormat c flags <;>
    simp only [ne_eq, not_true_eq_false, not_false_eq_true, if_true, if_false, reduceCtorEq,
      decide_True, decide_False] <;> rfl

/-- C19: `Decompress` depends on `flags` only through the normalised format: two flags values
with the same normalised format give the same 16 pixels and the same calls on the same block
bytes. -/
theorem Decompress_format_only {CS M : Type} (c : FlagConsts) (hc : c.SingleBits)
    (H : SubCodecs CS M) (rgba : Int → u8) (mem : Mem) (block : Int) (f1 f2 : Int)
    (h : normalisedFormat c f1 = normalisedFormat c f2) :
    (Decompress c H rgba mem block f1).rgba = (Decompress c H rgba mem block f2).rgba ∧
      (Decompress c H rgba mem block f1).trace = (Decompress c H rgba mem block f2).trace := by
  rw [Decompress_eq hc, Decompress_eq hc, h]
  exact ⟨rfl, rfl⟩

/-- Instance of C19 with the libsquish enumerators: `kDxt3 | kDxt5 | kColourRangeFit |
kSourceBGRA` plus an unknown bit collapses to DXT1 and decodes like `kDxt1`. -/
theorem Decompress_format_only_witness :
    (Decompress stdFlags demoCodecs (fun _ => 0) rampTile 0 1558).rgba =
        (Decompress stdFlags demoCodecs (fun _ => 0) rampTile 0 1).rgba ∧
      (Decompress stdFlags demoCodecs (fun _ => 0) rampTile 0 1558).trace =
        (Decompress stdFlags demoCodecs (fun _ => 0) rampTile 0 1).trace :=
  Decompress_format_only stdFlags stdFlags_singleBits demoCodecs (fun _ => 0) rampTile 0 1558 1
    (by decide)

theorem groupPos_FixFlags_format {c : FlagConsts} {pos : Fin 8 → Nat}
    (hp : BitPositions c pos) (flags : Int) :
    groupPos (FixFlags c flags) (pos 0) (pos 1) (pos 2) =
      groupPos flags (pos 0) (pos 1) (pos 2) := by
  obtain ⟨k, hk, ek⟩ := groupPos_cases flags pos 0 1 2
  have t0 := testBit_FixFlags_format hp flags 0 (Or.inl rfl)
  have t1 := testBit_FixFlags_format hp flags 1 (Or.inr (Or.inl rfl))
  have t2 := testBit_FixFlags_format hp flags 2 (Or.inr (Or.inr rfl))
  rw [ek] at t0 t1 t2 ⊢
  unfold groupPos
  rw [t0, t1, t2]
  rcases hk with rfl | rfl | rfl <;> simp [hp.inj.eq_iff]

theorem groupPos_FixFlags_fit {c : FlagConsts} {pos : Fin 8 → Nat}
    (hp : BitPositions c pos) (flags : Int) :
    groupPos (FixFlags c flags) (pos 4) (pos 5) (pos 3) =
      groupPos flags (pos 4) (pos 5) (pos 3) := by
  obtain ⟨k, hk, ek⟩ := groupPos_cases flags pos 4 5 3
  have t3 := testBit_FixFlags_fit hp flags 3 (Or.inl rfl)
  have t4 := testBit_FixFlags_fit hp flags 4 (Or.inr (Or.inl rfl))
  have t5 := testBit_FixFlags_fit hp flags 5 (Or.inr (Or.inr rfl))
  rw [ek] at t3 t4 t5 ⊢
  unfold groupPos
  rw [t3, t4, t5]
  rcases hk with rfl | rfl | rfl <;> simp [hp.inj.eq_iff]

theorem FixFlags_FixFlags {c : FlagConsts} (hc : c.SingleBits) (flags : Int) :
    FixFlags c (FixFlags c flags) = FixFlags c flags := by
  obtain ⟨pos, hp⟩ := singleBits_positions hc
  apply int_eq_of_testBit_eq
  intro i
  rw [testBit_FixFlags hp (FixFlags c flags), groupPos_FixFlags_format hp,
    groupPos_FixFlags_fit hp]
  conv_rhs => rw [testBit_FixFlags hp flags]
  by_cases h6 : pos 6 = i
  · subst h6
    rw [testBit_FixFlags_modifier hp flags 6 (Or.inl rfl)]
  · by_cases h7 : pos 7 = i
    · subst h7
      rw [testBit_FixFlags_modifier hp flags 7 (Or.inr rfl)]
    · simp [h6, h7]

/-- C20: `FixFlags` is idempotent, so normalising again keeps the format, the fit method and
the modifier bits of the first normalisation, and `CompressMasked`, `Decompress` and
`GetStorageRequirements` called with already normalised flags do what they do with the
original flags. -/
theorem FixFlags_idempotent (c : FlagConsts) (hc : c.SingleBits) (flags : Int) :
    FixFlags c (FixFlags c flags) = FixFlags c flags ∧
      normalisedFormat c (FixFlags c flags) = normalisedFormat c flags ∧
      normalisedFit c (FixFlags c flags) = normalisedFit c flags ∧
      Int.land (FixFlags c (FixFlags c flags)) (modifierMask c) =
        Int.land flags (modifierMask c) ∧
      (∀ (CS M : Type) (H : SubCodecs CS M) (rgba : Int → u8) (mask : Int) (mem : Mem)
          (block : Int) (metric : M),
        CompressMasked c H rgba mask mem block (FixFlags c flags) metric =
          CompressMasked c H rgba mask mem block flags metric) ∧
      (∀ (CS M : Type) (H : SubCodecs CS M) (rgba : Int → u8) (mem : Mem) (block : Int),
        Decompress c H rgba mem block (FixFlags c flags) =
          Decompress c H rgba mem block flags) ∧
      (∀ width height : Int,
        GetStorageRequirements c width height (FixFlags c flags) =
          GetStorageRequirements c width height flags) := by
  have hi := FixFlags_FixFlags hc flags
  obtain ⟨pos, hp⟩ := singleBits_positions hc
  refine ⟨hi, ?_, ?_, ?_, ?_, ?_, ?_⟩
  · rw [normalisedFormat_eq hp, normalisedFormat_eq hp, groupPos_FixFlags_format hp]
  · rw [normalisedFit_eq hp, normalisedFit_eq hp, groupPos_FixFlags_fit hp]
  · rw [hi]
    apply int_eq_of_testBit_eq
    intro i
    simp only [Int.testBit_land, modifierMask, hp.weight, hp.bgra, Int.testBit_lor,
      testBit_two_pow]
    by_cases h6 : pos 6 = i
    · subst h6
      rw [testBit_FixFlags_modifier hp flags 6 (Or.inl rfl)]
    · by_cases h7 : pos 7 = i
      · subst h7
        rw [testBit_FixFlags_modifier hp flags 7 (Or.inr rfl)]
      · simp [h6, h7]
  · intro CS M H rgba mask mem block metric
    unfold CompressMasked
    rw [hi]
  · intro CS M H rgba mem block
    unfold Decompress
    rw [hi]
  · intro width height
    unfold GetStorageRequirements
    rw [hi]

/-- Instance of C20 with the libsquish enumerators, at a value with conflicting format bits,
conflicting fit bits and an unknown bit. -/
theorem FixFlags_idempotent_witness :
    FixFlags stdFlags (FixFlags stdFlags 1310) = FixFlags stdFlags 1310 :=
  (FixFlags_idempotent stdFlags stdFlags_singleBits 1310).1

/-! ## Loops over tiles and pixels -/

theorem foldl_range_inv {σ : Type} (f : σ → Nat → σ) (P : Nat → σ → Prop) (s0 : σ) (n : Nat)
    (h0 : P 0 s0) (hstep : ∀ k, k < n → ∀ s, P k s → P (k + 1) (f s k)) :
    P n ((List.range n).foldl f s0) := by
  induction n with
  | zero => exact h0
  | succ n ih =>
    rw [List.range_succ, List.foldl_append]
    exact hstep n (Nat.lt_succ_self n) _
      (ih (fun k hk s hs => hstep k (Nat.lt_succ_of_lt hk) s hs))

theorem foldl_range_congr {σ : Type} (f g : σ → Nat → σ) (s0 : σ) (n : Nat)
    (h : ∀ k, k < n → ∀ s, f s k = g s k) :
    (List.range n).foldl f s0 = (List.range n).foldl g s0 := by
  apply List.foldl_ext
  intro s k hk
  exact h k (List.mem_range.1 hk) s

/-- A loop nest over rows `j < ny` and columns `i < nx` is one loop over `k < nx * ny` with
`i = k mod nx` and `j = k div nx`. -/
theorem foldl_range_mul {σ : Type} (f : Nat → Nat → σ → σ) (nx ny : Nat) (s0 : σ) :
    (List.range ny).foldl (fun s j => (List.range nx).foldl (fun s i => f i j s) s) s0 =
      (List.range (nx * ny)).foldl (fun s k => f (k % nx) (k / nx) s) s0 := by
  induction ny with
  | zero => simp
  | succ n ih =>
    rw [List.range_succ, List.foldl_append, ih, Nat.mul_succ, List.range_add,
      List.foldl_append, List.foldl_map]
    simp only [List.foldl_cons, List.foldl_nil]
    apply foldl_range_congr
    intro i hi s
    have hpos : 0 < nx := by omega
    have e1 : (nx * n + i) % nx = i := by
      rw [Nat.mul_add_mod, Nat.mod_eq_of_lt hi]
    have e2 : (nx * n + i) / nx = n := by
      rw [Nat.mul_add_div hpos, Nat.div_eq_of_lt hi, Nat.add_zero]
    rw [e1, e2]

/-- The block loops over the tile origins are one loop over the tile numbers. -/
theorem foldl_tiles {σ : Type} (f : Int → Int → σ → σ) (width height : Int) (s0 : σ) :
    (tileOrigins height).foldl (fun s y => (tileOrigins width).foldl (fun s x => f x y s) s)
        s0 =
      (List.range (tilesAcross width * tilesAcross height)).foldl
        (fun s k => f (4 * ((k % tilesAcross width : Nat) : Int))
          (4 * ((k / tilesAcross width : Nat) : Int)) s) s0 := by
  unfold tileOrigins
  rw [List.foldl_map]
  simp only [List.foldl_map]
  exact foldl_range_mul (fun i j s => f (4 * (i : Int)) (4 * (j : Int)) s) (tilesAcross width)
    (tilesAcross height) s0

/-! ## Tile and pixel numbering -/

theorem tilesAcross_cast (n : Int) (hn : 0 < n) : ((tilesAcross n : Nat) : Int) = (n + 3) / 4 := by
  unfold tilesAcross
  rw [Int.toNat_of_nonneg (by omega)]

/-- The pixel visited at pixel step `n` of tile `k`, when it lies in the image, has tile number
`k` and pixel number `n`. -/
theorem index_of_step (width : Int) (k n : Nat) (hn : n < 16)
    (hx : 4 * ((k % tilesAcross width : Nat) : Int) + ((n % 4 : Nat) : Int) < width) :
    tileIndex width (4 * ((k % tilesAcross width : Nat) : Int) + ((n % 4 : Nat) : Int))
        (4 * ((k / tilesAcross width : Nat) : Int) + ((n / 4 : Nat) : Int)) = k ∧
      pixelNumber (4 * ((k % tilesAcross width : Nat) : Int) + ((n % 4 : Nat) : Int))
        (4 * ((k / tilesAcross width : Nat) : Int) + ((n / 4 : Nat) : Int)) = n := by
  have hw : 0 < width := by omega
  have hnx := tilesAcross_cast width hw
  constructor
  · unfold tileIndex
    have e1 : (4 * ((k % tilesAcross width : Nat) : Int) + ((n % 4 : Nat) : Int)) / 4 =
        ((k % tilesAcross width : Nat) : Int) := by omega
    have e2 : (4 * ((k / tilesAcross width : Nat) : Int) + ((n / 4 : Nat) : Int)) / 4 =
        ((k / tilesAcross width : Nat) : Int) := by omega
    rw [e1, e2, ← hnx]
    have := Nat.div_add_mod k (tilesAcross width)
    have h2 : ((tilesAcross width * (k / tilesAcross width) + k % tilesAcross width : Nat) : Int)
        = (k : Int) := by rw [this]
    simp only [Nat.cast_add, Nat.cast_mul] at h2
    linarith
  · unfold pixelNumber
    omega

/-- A pixel of the image with position `16 * k + n` in the visiting order, `n < 16`, is the
pixel visited at pixel step `n` of tile `k`. -/
theorem step_of_index (width : Int) (k n : Nat) (hn : n < 16) (sx sy : Int)
    (hx0 : 0 ≤ sx) (hxw : sx < width) (hy0 : 0 ≤ sy)
    (h : stepIndex width sx sy = 16 * (k : Int) + n) :
    sx = 4 * ((k % tilesAcross width : Nat) : Int) + ((n % 4 : Nat) : Int) ∧
      sy = 4 * ((k / tilesAcross width : Nat) : Int) + ((n / 4 : Nat) : Int) := by
  have hw : 0 < width := by omega
  have hnx := tilesAcross_cast width hw
  unfold stepIndex pixelNumber at h
  have ht : tileIndex width sx sy = k := by omega
  have hp : 4 * (sy % 4) + sx % 4 = n := by omega
  unfold tileIndex at ht
  rw [← hnx] at ht
  have hb : sx / 4 < (tilesAcross width : Int) := by rw [hnx]; omega
  have hb0 : 0 ≤ sx / 4 := by omega
  have ha0 : 0 ≤ sy / 4 := by omega
  obtain ⟨a, ha⟩ := Int.eq_ofNat_of_zero_le ha0
  obtain ⟨b, hb'⟩ := Int.eq_ofNat_of_zero_le hb0
  rw [ha, hb'] at ht
  rw [hb'] at hb
  have hbn : b < tilesAcross width := by exact_mod_cast hb
  have hk : a * tilesAcross width + b = k := by exact_mod_cast ht
  have hmod : k % tilesAcross width = b := by
    rw [← hk, Nat.mul_comm, Nat.mul_add_mod, Nat.mod_eq_of_lt hbn]
  have hdiv : k / tilesAcross width = a := by
    rw [← hk, Nat.mul_comm, Nat.mul_add_div (by omega), Nat.div_eq_of_lt hbn, Nat.add_zero]
  rw [hmod, hdiv, ← ha, ← hb']
  omega

/-- Every pixel of the image is visited before the tile loops end. -/
theorem stepIndex_lt (width height sx sy : Int) (h : InBounds width height sx sy) :
    0 ≤ stepIndex width sx sy ∧
      stepIndex width sx sy <
        16 * ((tilesAcross width * tilesAcross height : Nat) : Int) := by
  obtain ⟨hx0, hxw, hy0, hyh⟩ := h
  have hnx := tilesAcross_cast width (by omega)
  have hny := tilesAcross_cast height (by omega)
  unfold stepIndex pixelNumber tileIndex
  push_cast
  rw [hnx, hny]
  have h1 : sx / 4 + 1 ≤ (width + 3) / 4 := by omega
  have h2 : sy / 4 + 1 ≤ (height + 3) / 4 := by omega
  have h3 : 0 ≤ sx / 4 := by omega
  have h4 : 0 ≤ sy / 4 := by omega
  have h5 : 0 ≤ (width + 3) / 4 := by omega
  have h6 : (sy / 4 + 1) * ((width + 3) / 4) ≤ ((height + 3) / 4) * ((width + 3) / 4) :=
    mul_le_mul_of_nonneg_right h2 h5
  have h7 : 0 ≤ sy / 4 * ((width + 3) / 4) := mul_nonneg h4 h5
  have h8 : 4 * (sy % 4) + sx % 4 < 16 := by omega
  have h9 : 0 ≤ 4 * (sy % 4) + sx % 4 := by omega
  constructor
  · linarith
  · nlinarith

/-- Distinct bytes of distinct pixels of the image have distinct addresses when
`pitch ≥ 4 * width`. -/
theorem pixelAddr_inj (rgba width height pitch : Int) (hp : 4 * width ≤ pitch)
    (sx sy sx2 sy2 : Int) (h1 : InBounds width height sx sy)
    (h2 : InBounds width height sx2 sy2) (ch ch2 : Int) (hc0 : 0 ≤ ch) (hc4 : ch < 4)
    (hd0 : 0 ≤ ch2) (hd4 : ch2 < 4)
    (he : pixelAddr rgba pitch sx sy + ch = pixelAddr rgba pitch sx2 sy2 + ch2) :
    sx = sx2 ∧ sy = sy2 ∧ ch = ch2 := by
  obtain ⟨ax0, axw, ay0, ayh⟩ := h1
  obtain ⟨bx0, bxw, by0, byh⟩ := h2
  unfold pixelAddr at he
  have hpitch : 0 ≤ pitch := by omega
  rcases lt_trichotomy sy sy2 with hlt | heq | hgt
  · exfalso
    have : pitch * (sy + 1) ≤ pitch * sy2 := mul_le_mul_of_nonneg_left (by omega) hpitch
    rw [mul_add, mul_one] at this
    omega
  · subst heq
    omega
  · exfalso
    have : pitch * (sy2 + 1) ≤ pitch * sy := mul_le_mul_of_nonneg_left (by omega) hpitch
    rw [mul_add, mul_one] at this
    omega

/-! ## Decoding an image -/

theorem CopyRGBA_channel (c : FlagConsts) (src : Mem) (source : Int) (dst : Mem) (dest : Int)
    (flags : Int) (ch : Int) (h0 : 0 ≤ ch) (h4 : ch < 4) :
    CopyRGBA c src source dst dest flags (dest + ch) =
      src (source + channelOf (decide (Int.land flags c.kSourceBGRA ≠ 0)) ch) := by
  have hch : ch = 0 ∨ ch = 1 ∨ ch = 2 ∨ ch = 3 := by omega
  by_cases hf : Int.land flags c.kSourceBGRA ≠ 0
  · have := CopyRGBA_bgra c src source dst dest flags hf
    rcases hch with rfl | rfl | rfl | rfl <;> simp [channelOf, hf, this]
  · have := CopyRGBA_rgba c src source dst dest flags hf
    rcases hch with rfl | rfl | rfl | rfl <;> simp [channelOf, hf, this]

theorem DecompressImage_pixel_inv (c : FlagConsts) (image : Mem)
    (rgba width height pitch flags : Int) (hp : 4 * width ≤ pitch)
    (tileOf : Int → Int → Int → u8) (d : Int → u8) (k n : Nat) (hn : n < 16)
    (hd : ∀ sx sy, InBounds width height sx sy → tileIndex width sx sy = k → tileOf sx sy = d)
    (t : DecodePixelState) (hsp : t.sourcePixel = 4 * (n : Int))
    (hinv : DecodeInv image rgba width height pitch
      (decide (Int.land flags c.kSourceBGRA ≠ 0)) tileOf (16 * (k : Int) + n) t.mem t.writes) :
    DecodeInv image rgba width height pitch (decide (Int.land flags c.kSourceBGRA ≠ 0)) tileOf
        (16 * (k : Int) + ((n + 1 : Nat) : Int))
        (DecompressImage.pixel c d rgba width height pitch flags
          (4 * ((k % tilesAcross width : Nat) : Int)) (4 * ((k / tilesAcross width : Nat) : Int))
          ((n / 4 : Nat) : Int) ((n % 4 : Nat) : Int) t).mem
        (DecompressImage.pixel c d rgba width height pitch flags
          (4 * ((k % tilesAcross width : Nat) : Int)) (4 * ((k / tilesAcross width : Nat) : Int))
          ((n / 4 : Nat) : Int) ((n % 4 : Nat) : Int) t).writes ∧
      (DecompressImage.pixel c d rgba width height pitch flags
          (4 * ((k % tilesAcross width : Nat) : Int)) (4 * ((k / tilesAcross width : Nat) : Int))
          ((n / 4 : Nat) : Int) ((n % 4 : Nat) : Int) t).sourcePixel =
        4 * ((n + 1 : Nat) : Int) := by
  have hg : (16 * (k : Int) + ((n + 1 : Nat) : Int)) = 16 * (k : Int) + n + 1 := by
    push_cast; ring
  rw [hg]
  have hY0 : (0 : Int) ≤ ((k / tilesAcross width : Nat) : Int) := Int.ofNat_nonneg _
  have hX0 : (0 : Int) ≤ ((k % tilesAcross width : Nat) : Int) := Int.ofNat_nonneg _
  -- a pixel before position `g + 1` is before `g` or is the pixel of this step
  have hcase : ∀ sx sy, InBounds width height sx sy →
      stepIndex width sx sy < 16 * (k : Int) + n + 1 →
      stepIndex width sx sy < 16 * (k : Int) + n ∨
        (sx = 4 * ((k % tilesAcross width : Nat) : Int) + ((n % 4 : Nat) : Int) ∧
          sy = 4 * ((k / tilesAcross width : Nat) : Int) + ((n / 4 : Nat) : Int)) := by
    intro sx sy hb hlt
    by_cases e : stepIndex width sx sy = 16 * (k : Int) + n
    · exact Or.inr (step_of_index width k n hn sx sy hb.1 hb.2.1 hb.2.2.1 e)
    · exact Or.inl (by omega)
  unfold DecompressImage.pixel
  by_cases hin : 4 * ((k % tilesAcross width : Nat) : Int) + ((n % 4 : Nat) : Int) < width ∧
      4 * ((k / tilesAcross width : Nat) : Int) + ((n / 4 : Nat) : Int) < height
  · simp only [if_pos hin]
    have hidx := index_of_step width k n hn hin.1
    have hb0 : InBounds width height
        (4 * ((k % tilesAcross width : Nat) : Int) + ((n % 4 : Nat) : Int))
        (4 * ((k / tilesAcross width : Nat) : Int) + ((n / 4 : Nat) : Int)) :=
      ⟨by omega, hin.1, by omega, hin.2⟩
    have hs0 : stepIndex width
        (4 * ((k % tilesAcross width : Nat) : Int) + ((n % 4 : Nat) : Int))
        (4 * ((k / tilesAcross width : Nat) : Int) + ((n / 4 : Nat) : Int)) =
        16 * (k : Int) + n := by
      unfold stepIndex
      rw [hidx.1, hidx.2]
    -- the four bytes written are not bytes of a pixel handled before
    have hfresh : ∀ sx sy, InBounds width height sx sy →
        stepIndex width sx sy < 16 * (k : Int) + n → ∀ ch, 0 ≤ ch → ch < 4 →
        pixelAddr rgba pitch sx sy + ch <
            rgba + pitch * (4 * ((k / tilesAcross width : Nat) : Int) + ((n / 4 : Nat) : Int))
              + 4 * (4 * ((k % tilesAcross width : Nat) : Int) + ((n % 4 : Nat) : Int)) ∨
          rgba + pitch * (4 * ((k / tilesAcross width : Nat) : Int) + ((n / 4 : Nat) : Int))
              + 4 * (4 * ((k % tilesAcross width : Nat) : Int) + ((n % 4 : Nat) : Int)) + 4 ≤
            pixelAddr rgba pitch sx sy + ch := by
      intro sx sy hb hlt ch h0 h4
      by_contra hcon
      rw [not_or, not_lt, not_le] at hcon
      obtain ⟨c1, c2⟩ := hcon
      have hinj := pixelAddr_inj rgba width height pitch hp sx sy _ _ hb hb0 ch
        (pixelAddr rgba pitch sx sy + ch -
          pixelAddr rgba pitch
            (4 * ((k % tilesAcross width : Nat) : Int) + ((n % 4 : Nat) : Int))
            (4 * ((k / tilesAcross width : Nat) : Int) + ((n / 4 : Nat) : Int)))
        h0 h4 (by unfold pixelAddr at *; linarith) (by unfold pixelAddr at *; linarith)
        (by ring)
      rw [hinj.1, hinj.2.1, hs0] at hlt
      omega
    refine ⟨⟨?_, ?_, ?_, ?_, ?_⟩, by rw [hsp]; push_cast; ring⟩
    · intro sx sy hb hlt ch h0 h4
      rcases hcase sx sy hb hlt with h | ⟨rfl, rfl⟩
      · rw [CopyRGBA_frame _ _ _ _ _ _ _ (hfresh sx sy hb h ch h0 h4)]
        exact hinv.written sx sy hb h ch h0 h4
      · show CopyRGBA c d t.sourcePixel t.mem (pixelAddr rgba pitch _ _) flags
          (pixelAddr rgba pitch _ _ + ch) = _
        rw [CopyRGBA_channel c d _ _ _ _ ch h0 h4, hd _ _ hb hidx.1, hsp, hidx.2]
    · intro a ha
      have hout : a < rgba + pitch *
            (4 * ((k / tilesAcross width : Nat) : Int) + ((n / 4 : Nat) : Int))
            + 4 * (4 * ((k % tilesAcross width : Nat) : Int) + ((n % 4 : Nat) : Int)) ∨
          rgba + pitch * (4 * ((k / tilesAcross width : Nat) : Int) + ((n / 4 : Nat) : Int))
            + 4 * (4 * ((k % tilesAcross width : Nat) : Int) + ((n % 4 : Nat) : Int)) + 4
            ≤ a := by
        by_contra hcon
        rw [not_or, not_lt, not_le] at hcon
        obtain ⟨c1, c2⟩ := hcon
        apply ha _ _ hb0 (by rw [hs0]; omega)
          (a - pixelAddr rgba pitch
            (4 * ((k % tilesAcross width : Nat) : Int) + ((n % 4 : Nat) : Int))
            (4 * ((k / tilesAcross width : Nat) : Int) + ((n / 4 : Nat) : Int)))
          (by unfold pixelAddr; linarith) (by unfold pixelAddr; linarith)
        ring
      rw [CopyRGBA_frame _ _ _ _ _ _ _ hout]
      exact hinv.frame a (fun sx sy hb hlt => ha sx sy hb (by omega))
    · intro w hw
      rw [List.mem_append, List.mem_singleton] at hw
      rcases hw with hw | rfl
      · obtain ⟨l1, l2, l3, l4⟩ := hinv.log w hw
        exact ⟨l1, by omega, l3, l4⟩
      · refine ⟨hb0, by rw [hs0]; omega, rfl, ?_⟩
        show t.sourcePixel = _
        rw [hsp, hidx.2]
    · rw [List.map_append, List.nodup_append]
      refine ⟨hinv.nodup, List.nodup_singleton _, ?_⟩
      intro p hp1 hp2
      rw [List.map_singleton, List.mem_singleton] at hp2
      subst hp2
      obtain ⟨w, hw, hwe⟩ := List.mem_map.1 hp1
      simp only [Prod.mk.injEq] at hwe
      have := (hinv.log w hw).2.1
      rw [hwe.1, hwe.2, hs0] at this
      omega
    · intro sx sy hb hlt
      rw [List.map_append, List.mem_append]
      rcases hcase sx sy hb hlt with h | ⟨rfl, rfl⟩
      · exact Or.inl (hinv.covered sx sy hb h)
      · exact Or.inr (by simp)
  · simp only [if_neg hin]
    have hnone : ∀ sx sy, InBounds width height sx sy →
        stepIndex width sx sy < 16 * (k : Int) + n + 1 →
        stepIndex width sx sy < 16 * (k : Int) + n := by
      intro sx sy hb hlt
      rcases hcase sx sy hb hlt with h | ⟨rfl, rfl⟩
      · exact h
      · exact absurd ⟨hb.2.1, hb.2.2.2⟩ hin
    refine ⟨⟨?_, ?_, ?_, hinv.nodup, ?_⟩, by rw [hsp]; push_cast; ring⟩
    · intro sx sy hb hlt ch h0 h4
      exact hinv.written sx sy hb (hnone sx sy hb hlt) ch h0 h4
    · intro a ha
      exact hinv.frame a (fun sx sy hb hlt => ha sx sy hb (by omega))
    · intro w hw
      obtain ⟨l1, l2, l3, l4⟩ := hinv.log w hw
      exact ⟨l1, by omega, l3, l4⟩
    · intro sx sy hb hlt
      exact hinv.covered sx sy hb (hnone sx sy hb hlt)

/-- The block loops of `DecompressImage` are one loop over the tile numbers. -/
theorem DecompressImage_eq_foldl {CS M : Type} (c : FlagConsts) (H : SubCodecs CS M)
    (image : Mem) (rgba width height pitch : Int) (bmem : Mem) (blocks : Int) (flags : Int)
    (junk : Int → Int → Int → u8) :
    DecompressImage c H image rgba width height pitch bmem blocks flags junk =
      (List.range (tilesAcross width * tilesAcross height)).foldl
        (fun s k =>
          DecompressImage.tile c H bmem rgba width height pitch (FixFlags c flags) junk
            (if Int.land (FixFlags c flags) c.kDxt1 ≠ 0 then 8 else 16)
            (4 * ((k % tilesAcross width : Nat) : Int))
            (4 * ((k / tilesAcross width : Nat) : Int)) s)
        { mem := image, sourceBlock := blocks, writes := [], decodes := [], trace := [] } := by
  unfold DecompressImage
  simp only []
  rw [for_step4_origins height
    (fun y s => DecompressImage.loopX c H bmem rgba width height pitch (FixFlags c flags) junk
      (if Int.land (FixFlags c flags) c.kDxt1 ≠ 0 then 8 else 16) y width.toNat 0 s)
    (DecompressImage.loopY c H bmem rgba width height pitch (FixFlags c flags) junk
      (if Int.land (FixFlags c flags) c.kDxt1 ≠ 0 then 8 else 16))
    (fun _ _ => rfl) (fun _ _ _ => rfl)]
  rw [← foldl_tiles
    (fun x y s => DecompressImage.tile c H bmem rgba width height pitch (FixFlags c flags) junk
      (if Int.land (FixFlags c flags) c.kDxt1 ≠ 0 then 8 else 16) x y s)]
  congr 1
  funext s y
  exact for_step4_origins width
    (fun x s => DecompressImage.tile c H bmem rgba width height pitch (FixFlags c flags) junk
      (if Int.land (FixFlags c flags) c.kDxt1 ≠ 0 then 8 else 16) x y s)
    (DecompressImage.loopX c H bmem rgba width height pitch (FixFlags c flags) junk
      (if Int.land (FixFlags c flags) c.kDxt1 ≠ 0 then 8 else 16) y)
    (fun _ _ => rfl) (fun _ _ _ => rfl) s

/-- A pixel of the image in tile `k` has tile column `k mod nx` and tile row `k div nx`. -/
theorem tile_of_index (width : Int) (k : Nat) (sx sy : Int) (hx0 : 0 ≤ sx) (hxw : sx < width)
    (hy0 : 0 ≤ sy) (h : tileIndex width sx sy = k) :
    sx / 4 = ((k % tilesAcross width : Nat) : Int) ∧
      sy / 4 = ((k / tilesAcross width : Nat) : Int) := by
  have hn : (pixelNumber sx sy).toNat < 16 := by unfold pixelNumber; omega
  have hs : stepIndex width sx sy = 16 * (k : Int) + ((pixelNumber sx sy).toNat : Nat) := by
    unfold stepIndex
    rw [h, Int.toNat_of_nonneg (by unfold pixelNumber; omega)]
  have := step_of_index width k _ hn sx sy hx0 hxw hy0 hs
  constructor
  · omega
  · omega

/-- The decoded tile of the image pixel `(sx, sy)` as `DecompressImage` computes it. -/
theorem DecompressImage_tile_inv {CS M : Type} (c : FlagConsts) (H : SubCodecs CS M)
    (image : Mem) (rgba width height pitch : Int) (bmem : Mem) (blocks flags bpb : Int)
    (junk : Int → Int → Int → u8) (hp : 4 * width ≤ pitch) (k : Nat) (s : DecodeState CS)
    (hsb : s.sourceBlock = blocks + bpb * k)
    (hdec : s.decodes = (List.range k).map (fun i : Nat => blocks + bpb * (i : Int)))
    (hinv : DecodeInv image rgba width height pitch
      (decide (Int.land flags c.kSourceBGRA ≠ 0))
      (fun sx sy => (Decompress c H (junk (4 * (sx / 4)) (4 * (sy / 4))) bmem
        (blocks + bpb * tileIndex width sx sy) flags).rgba)
      (16 * (k : Int)) s.mem s.writes) :
    (DecompressImage.tile c H bmem rgba width height pitch flags junk bpb
          (4 * ((k % tilesAcross width : Nat) : Int))
          (4 * ((k / tilesAcross width : Nat) : Int)) s).sourceBlock =
        blocks + bpb * ((k + 1 : Nat) : Int) ∧
      (DecompressImage.tile c H bmem rgba width height pitch flags junk bpb
          (4 * ((k % tilesAcross width : Nat) : Int))
          (4 * ((k / tilesAcross width : Nat) : Int)) s).decodes =
        (List.range (k + 1)).map (fun i : Nat => blocks + bpb * (i : Int)) ∧
      DecodeInv image rgba width height pitch (decide (Int.land flags c.kSourceBGRA ≠ 0))
        (fun sx sy => (Decompress c H (junk (4 * (sx / 4)) (4 * (sy / 4))) bmem
          (blocks + bpb * tileIndex width sx sy) flags).rgba)
        (16 * ((k + 1 : Nat) : Int))
        (DecompressImage.tile c H bmem rgba width height pitch flags junk bpb
          (4 * ((k % tilesAcross width : Nat) : Int))
          (4 * ((k / tilesAcross width : Nat) : Int)) s).mem
        (DecompressImage.tile c H bmem rgba width height pitch flags junk bpb
          (4 * ((k % tilesAcross width : Nat) : Int))
          (4 * ((k / tilesAcross width : Nat) : Int)) s).writes := by
  unfold DecompressImage.tile
  simp only []
  refine ⟨by rw [hsb]; push_cast; ring, ?_, ?_⟩
  · rw [hdec, hsb, List.range_succ, List.map_append]
    rfl
  · rw [foldl_range_mul
      (fun i j t => DecompressImage.pixel c
        (Decompress c H (junk (4 * ((k % tilesAcross width : Nat) : Int))
          (4 * ((k / tilesAcross width : Nat) : Int))) bmem s.sourceBlock flags).rgba
        rgba width height pitch flags (4 * ((k % tilesAcross width : Nat) : Int))
        (4 * ((k / tilesAcross width : Nat) : Int)) (j : Int) (i : Int) t) 4 4]
    have key := foldl_range_inv
      (fun t n => DecompressImage.pixel c
        (Decompress c H (junk (4 * ((k % tilesAcross width : Nat) : Int))
          (4 * ((k / tilesAcross width : Nat) : Int))) bmem s.sourceBlock flags).rgba
        rgba width height pitch flags (4 * ((k % tilesAcross width : Nat) : Int))
        (4 * ((k / tilesAcross width : Nat) : Int)) ((n / 4 : Nat) : Int) ((n % 4 : Nat) : Int)
        t)
      (fun n t => DecodeInv image rgba width height pitch
          (decide (Int.land flags c.kSourceBGRA ≠ 0))
          (fun sx sy => (Decompress c H (junk (4 * (sx / 4)) (4 * (sy / 4))) bmem
            (blocks + bpb * tileIndex width sx sy) flags).rgba)
          (16 * (k : Int) + (n : Int)) t.mem t.writes ∧
        t.sourcePixel = 4 * (n : Int))
      { mem := s.mem, sourcePixel := 0, writes := s.writes } 16
      ⟨by simpa using hinv, by simp⟩
      (by
        intro n hn t ht
        refine DecompressImage_pixel_inv c image rgba width height pitch flags hp _ _ k n hn
          ?_ t ht.2 ht.1
        intro sx sy hb hk
        obtain ⟨e1, e2⟩ := tile_of_index width k sx sy hb.1 hb.2.1 hb.2.2.1 hk
        show (Decompress c H (junk (4 * (sx / 4)) (4 * (sy / 4))) bmem
          (blocks + bpb * tileIndex width sx sy) flags).rgba = _
        rw [e1, e2, hk, hsb])
    have e : (16 * ((k + 1 : Nat) : Int)) = 16 * (k : Int) + ((16 : Nat) : Int) := by
      push_cast; ring
    rw [e]
    exact key.1

/-- After `DecompressImage` with `pitch ≥ 4 * width`, every pixel of the image holds its
decoded bytes, every other byte is as before, the log has one entry for each pixel of the
image, and the blocks were read one after the other. -/
theorem DecompressImage_inv {CS M : Type} (c : FlagConsts) (H : SubCodecs CS M)
    (image : Mem) (rgba width height pitch : Int) (bmem : Mem) (blocks : Int) (flags : Int)
    (junk : Int → Int → Int → u8) (hp : 4 * width ≤ pitch) :
    (DecompressImage c H image rgba width height pitch bmem blocks flags junk).sourceBlock =
        blocks + (if Int.land (FixFlags c flags) c.kDxt1 ≠ 0 then 8 else 16) *
          ((tilesAcross width * tilesAcross height : Nat) : Int) ∧
      (DecompressImage c H image rgba width height pitch bmem blocks flags junk).decodes =
        (List.range (tilesAcross width * tilesAcross height)).map
          (fun i : Nat => blocks +
            (if Int.land (FixFlags c flags) c.kDxt1 ≠ 0 then 8 else 16) * (i : Int)) ∧
      DecodeInv image rgba width height pitch
        (decide (Int.land (FixFlags c flags) c.kSourceBGRA ≠ 0))
        (fun sx sy => (Decompress c H (junk (4 * (sx / 4)) (4 * (sy / 4))) bmem
          (blocks + (if Int.land (FixFlags c flags) c.kDxt1 ≠ 0 then 8 else 16) *
            tileIndex width sx sy) (FixFlags c flags)).rgba)
        (16 * ((tilesAcross width * tilesAcross height : Nat) : Int))
        (DecompressImage c H image rgba width height pitch bmem blocks flags junk).mem
        (DecompressImage c H image rgba width height pitch bmem blocks flags junk).writes := by
  rw [DecompressImage_eq_foldl]
  exact foldl_range_inv
    (fun s k =>
      DecompressImage.tile c H bmem rgba width height pitch (FixFlags c flags) junk
        (if Int.land (FixFlags c flags) c.kDxt1 ≠ 0 then 8 else 16)
        (4 * ((k % tilesAcross width : Nat) : Int))
        (4 * ((k / tilesAcross width : Nat) : Int)) s)
    (fun k s =>
      s.sourceBlock = blocks + (if Int.land (FixFlags c flags) c.kDxt1 ≠ 0 then 8 else 16) *
          (k : Int) ∧
      s.decodes = (List.range k).map
          (fun i : Nat => blocks +
            (if Int.land (FixFlags c flags) c.kDxt1 ≠ 0 then 8 else 16) * (i : Int)) ∧
      DecodeInv image rgba width height pitch
        (decide (Int.land (FixFlags c flags) c.kSourceBGRA ≠ 0))
        (fun sx sy => (Decompress c H (junk (4 * (sx / 4)) (4 * (sy / 4))) bmem
          (blocks + (if Int.land (FixFlags c flags) c.kDxt1 ≠ 0 then 8 else 16) *
            tileIndex width sx sy) (FixFlags c flags)).rgba)
        (16 * (k : Int)) s.mem s.writes)
    _ _
    ⟨by simp, by simp,
      { written := fun sx sy hb hlt => by
          have := (stepIndex_lt width height sx sy hb).1
          simp at hlt
          omega
        frame := fun a _ => rfl
        log := fun w hw => by simp at hw
        nodup := by simp
        covered := fun sx sy hb hlt => by
          have := (stepIndex_lt width height sx sy hb).1
          simp at hlt
          omega }⟩
    (fun k _ s hs =>
      DecompressImage_tile_inv c H image rgba width height pitch bmem blocks (FixFlags c flags)
        _ junk hp k s hs.1 hs.2.1 hs.2.2)

theorem ediv_add_three (w : Int) : (w + 3) / 4 = ⌈(w : ℚ) / 4⌉ := by
  symm
  rw [Int.ceil_eq_iff]
  constructor
  · rw [lt_div_iff₀ (by norm_num)]
    have : (((w + 3) / 4 : Int) - 1) * 4 < w := by omega
    exact_mod_cast this
  · rw [div_le_iff₀ (by norm_num)]
    have : w ≤ ((w + 3) / 4 : Int) * 4 := by omega
    exact_mod_cast this

/-- The code's `bytesPerBlock` is the block size of the normalised format. -/
theorem bytesPerBlock_eq {c : FlagConsts} (hc : c.SingleBits) (flags : Int) :
    (if Int.land (FixFlags c flags) c.kDxt1 ≠ 0 then (8 : Int) else 16) =
      (normalisedFormat c flags).blockSize := by
  have := land_FixFlags_format_ne_zero hc flags Format.dxt1
  simp only [Format.const] at this
  by_cases hf : normalisedFormat c flags = Format.dxt1
  · rw [if_pos (this.2 hf), hf]
    rfl
  · rw [if_neg (fun h => hf (this.1 h))]
    cases hfm : normalisedFormat c flags
    · exact absurd hfm hf
    · rfl
    · rfl

/-- The `kSourceBGRA` test gives the same answer on normalised and on original flags. -/
theorem land_FixFlags_bgra {c : FlagConsts} (hc : c.SingleBits) (flags : Int) :
    Int.land (FixFlags c flags) c.kSourceBGRA ≠ 0 ↔ Int.land flags c.kSourceBGRA ≠ 0 := by
  obtain ⟨pos, hp⟩ := singleBits_positions hc
  rw [hp.bgra, land_two_pow_ne_zero, land_two_pow_ne_zero,
    testBit_FixFlags_modifier hp flags 7 (Or.inr rfl)]

/-- The number of entries of a list without repetition that holds exactly the pairs `(sx, sy)`
with `0 ≤ sx < width` and `0 ≤ sy < height`. -/
theorem length_of_positions (width height : Int) (l : List (Int × Int)) (hn : l.Nodup)
    (hm : ∀ sx sy, (sx, sy) ∈ l ↔ InBounds width height sx sy) :
    l.length = width.toNat * height.toNat := by
  rw [← List.toFinset_card_of_nodup hn]
  have e : l.toFinset =
      (Finset.range width.toNat ×ˢ Finset.range height.toNat).image
        (fun p : Nat × Nat => ((p.1 : Int), (p.2 : Int))) := by
    ext ⟨sx, sy⟩
    rw [List.mem_toFinset, hm, Finset.mem_image]
    unfold InBounds
    constructor
    · rintro ⟨h1, h2, h3, h4⟩
      refine ⟨(sx.toNat, sy.toNat), ?_, ?_⟩
      · rw [Finset.mem_product, Finset.mem_range, Finset.mem_range]
        constructor <;> omega
      · simp only [Prod.mk.injEq]
        constructor <;> omega
    · rintro ⟨⟨a, b⟩, hab, he⟩
      rw [Finset.mem_product, Finset.mem_range, Finset.mem_range] at hab
      simp only [Prod.mk.injEq] at he
      obtain ⟨rfl, rfl⟩ := he
      refine ⟨by omega, by omega, by omega, by omega⟩
  rw [e, Finset.card_image_of_injective, Finset.card_product, Finset.card_range,
    Finset.card_range]
  intro p q hpq
  simp only [Prod.mk.injEq] at hpq
  ext
  · exact_mod_cast hpq.1
  · exact_mod_cast hpq.2

/-- On exact integers and with `pitch ≥ 4 * width`, `DecompressImage` calls `CopyRGBA` once for
each position `(sx, sy)` of the image and for no other, with destination `rgba + pitch*sy + 4*sx`,
so `width * height` times; the byte ranges written are pairwise disjoint and every byte outside
them is left unchanged; a 5x5 image has 25 positions written while 4 tiles are decoded. -/
theorem DecompressImage_log_exact {CS M : Type} (c : FlagConsts) (H : SubCodecs CS M)
    (image : Mem) (rgba width height pitch : Int) (bmem : Mem) (blocks : Int) (flags : Int)
    (junk : Int → Int → Int → u8) (hw : 0 ≤ width) (hh : 0 ≤ height)
    (hp : 4 * width ≤ pitch) :
    ((DecompressImage c H image rgba width height pitch bmem blocks flags junk).writes.map
        (fun w => (w.sx, w.sy))).Nodup ∧
      (∀ sx sy : Int,
        (sx, sy) ∈ (DecompressImage c H image rgba width height pitch bmem blocks flags
            junk).writes.map (fun w => (w.sx, w.sy)) ↔
          0 ≤ sx ∧ sx < width ∧ 0 ≤ sy ∧ sy < height) ∧
      (∀ w ∈ (DecompressImage c H image rgba width height pitch bmem blocks flags junk).writes,
        w.targetPixel = rgba + pitch * w.sy + 4 * w.sx) ∧
      (∀ w1 ∈ (DecompressImage c H image rgba width height pitch bmem blocks flags
          junk).writes,
        ∀ w2 ∈ (DecompressImage c H image rgba width height pitch bmem blocks flags
          junk).writes,
        ∀ ch1 ch2 : Int, 0 ≤ ch1 → ch1 < 4 → 0 ≤ ch2 → ch2 < 4 →
          w1.targetPixel + ch1 = w2.targetPixel + ch2 → w1.sx = w2.sx ∧ w1.sy = w2.sy) ∧
      (∀ a : Int,
        (∀ sx sy : Int, 0 ≤ sx → sx < width → 0 ≤ sy → sy < height →
          ∀ ch : Int, 0 ≤ ch → ch < 4 → a ≠ rgba + pitch * sy + 4 * sx + ch) →
        (DecompressImage c H image rgba width height pitch bmem blocks flags junk).mem a =
          image a) ∧
      (DecompressImage c H image rgba width height pitch bmem blocks flags junk).writes.length =
        width.toNat * height.toNat ∧
      (DecompressImage c H image rgba width height pitch bmem blocks flags junk).decodes.length =
        tilesAcross width * tilesAcross height ∧
      (width = 5 → height = 5 →
        (DecompressImage c H image rgba width height pitch bmem blocks flags
          junk).writes.length = 25 ∧
        (DecompressImage c H image rgba width height pitch bmem blocks flags
          junk).decodes.length = 4) := by
  obtain ⟨_, hdec, hinv⟩ :=
    DecompressImage_inv c H image rgba width height pitch bmem blocks flags junk hp
  have hmem : ∀ sx sy : Int,
      (sx, sy) ∈ (DecompressImage c H image rgba width height pitch bmem blocks flags
          junk).writes.map (fun w => (w.sx, w.sy)) ↔ InBounds width height sx sy := by
    intro sx sy
    constructor
    · intro h
      obtain ⟨w, hw1, hw2⟩ := List.mem_map.1 h
      simp only [Prod.mk.injEq] at hw2
      rw [← hw2.1, ← hw2.2]
      exact (hinv.log w hw1).1
    · intro h
      exact hinv.covered sx sy h (stepIndex_lt width height sx sy h).2
  have hlen := length_of_positions width height _ hinv.nodup hmem
  rw [List.length_map] at hlen
  have hdl : (DecompressImage c H image rgba width height pitch bmem blocks flags
      junk).decodes.length = tilesAcross width * tilesAcross height := by
    rw [hdec, List.length_map, List.length_range]
  refine ⟨hinv.nodup, hmem, ?_, ?_, ?_, hlen, hdl, ?_⟩
  · intro w hw1
    exact (hinv.log w hw1).2.2.1
  · intro w1 h1 w2 h2 ch1 ch2 a1 a2 b1 b2 he
    obtain ⟨i1, _, t1, _⟩ := hinv.log w1 h1
    obtain ⟨i2, _, t2, _⟩ := hinv.log w2 h2
    rw [t1, t2] at he
    have := pixelAddr_inj rgba width height pitch hp _ _ _ _ i1 i2 ch1 ch2 a1 a2 b1 b2 he
    exact ⟨this.1, this.2.1⟩
  · intro a ha
    exact hinv.frame a (fun sx sy hb _ ch h0 h4 => ha sx sy hb.1 hb.2.1 hb.2.2.1 hb.2.2.2 ch h0 h4)
  · rintro rfl rfl
    rw [hlen, hdl]
    exact ⟨by decide, by decide⟩

/-- On exact integers and with `pitch ≥ 4 * width`, after `DecompressImage` channel `ch` of the
image pixel `(sx, sy)`, `0 ≤ sx < width` and `0 ≤ sy < height`, is what `CopyRGBA` under `flags`
makes of pixel number `4*(sy mod 4) + (sx mod 4)` of `Decompress` applied to the block at byte
offset `((sy div 4) * ceil(width/4) + (sx div 4)) * blockSize`. -/
theorem DecompressImage_bytes_exact {CS M : Type} (c : FlagConsts) (hc : c.SingleBits)
    (H : SubCodecs CS M) (image : Mem) (rgba width height pitch : Int) (bmem : Mem)
    (blocks : Int) (flags : Int) (junk : Int → Int → Int → u8)
    (hp : 4 * width ≤ pitch) (sx sy : Int) (hx0 : 0 ≤ sx) (hxw : sx < width)
    (hy0 : 0 ≤ sy) (hyh : sy < height) (ch : Int) (h0 : 0 ≤ ch) (h4 : ch < 4) (dst : Mem)
    (dest : Int) :
    (DecompressImage c H image rgba width height pitch bmem blocks flags junk).mem
        (rgba + pitch * sy + 4 * sx + ch) =
      CopyRGBA c
        (Decompress c H (junk (4 * (sx / 4)) (4 * (sy / 4))) bmem
          (blocks + ((sy / 4) * ⌈(width : ℚ) / 4⌉ + sx / 4) *
            (normalisedFormat c flags).blockSize) flags).rgba
        (4 * (4 * (sy % 4) + sx % 4)) dst dest flags (dest + ch) := by
  obtain ⟨_, _, hinv⟩ :=
    DecompressImage_inv c H image rgba width height pitch bmem blocks flags junk hp
  have hb : InBounds width height sx sy := ⟨hx0, hxw, hy0, hyh⟩
  have := hinv.written sx sy hb (stepIndex_lt width height sx sy hb).2 ch h0 h4
  unfold pixelAddr at this
  rw [this, CopyRGBA_channel c _ _ _ _ _ ch h0 h4, bytesPerBlock_eq hc]
  have hD := (FixFlags_FixFlags hc flags)
  have e1 : Decompress c H (junk (4 * (sx / 4)) (4 * (sy / 4))) bmem
      (blocks + (normalisedFormat c flags).blockSize * tileIndex width sx sy)
      (FixFlags c flags) =
      Decompress c H (junk (4 * (sx / 4)) (4 * (sy / 4))) bmem
        (blocks + ((sy / 4) * ⌈(width : ℚ) / 4⌉ + sx / 4) *
          (normalisedFormat c flags).blockSize) flags := by
    unfold Decompress tileIndex
    rw [hD, ediv_add_three, mul_comm]
  rw [e1]
  have e2 : decide (Int.land (FixFlags c flags) c.kSourceBGRA ≠ 0) =
      decide (Int.land flags c.kSourceBGRA ≠ 0) := by
    rw [decide_eq_decide]
    exact land_FixFlags_bgra hc flags
  rw [e2]
  rfl

/-! ## Encoding an image -/

theorem store8_frame (mem : Mem) (p : Int) (bytes : Nat → u8) (a : Int)
    (ha : a < p ∨ p + 8 ≤ a) : store8 mem p bytes a = mem a := by
  unfold store8
  rw [if_neg (by omega)]

/-- Bytes outside the block are left as they are by `CompressMasked`. -/
theorem CompressMasked_frame {CS M : Type} {c : FlagConsts} (hc : c.SingleBits)
    (H : SubCodecs CS M) (rgba : Int → u8) (mask : Int) (mem : Mem) (block : Int) (flags : Int)
    (metric : M) (a : Int)
    (ha : a < block ∨ block + (normalisedFormat c flags).blockSize ≤ a) :
    (CompressMasked c H rgba mask mem block flags metric).mem a = mem a := by
  have h3 := land_FixFlags_format_ne_zero hc flags Format.dxt3
  have h5 := land_FixFlags_format_ne_zero hc flags Format.dxt5
  have h35 := land_FixFlags_dxt35_ne_zero hc flags
  simp only [Format.const] at h3 h5
  unfold CompressMasked
  simp only [h3, h5, h35]
  cases hfm : normalisedFormat c flags <;> rw [hfm] at ha <;>
    simp only [Format.blockSize] at ha <;>
    simp only [ne_eq, not_true_eq_false, not_false_eq_true, if_true, if_false, reduceCtorEq]
  · have e1 : a < block ∨ block + 8 ≤ a := by omega
    split_ifs <;> simp only [store8_frame _ _ _ a e1]
  · have e1 : a < block ∨ block + 8 ≤ a := by omega
    have e2 : a < block + 8 ∨ block + 8 + 8 ≤ a := by omega
    split_ifs <;> simp only [store8_frame _ _ _ a e1, store8_frame _ _ _ a e2]
  · have e1 : a < block ∨ block + 8 ≤ a := by omega
    have e2 : a < block + 8 ∨ block + 8 + 8 ≤ a := by omega
    split_ifs <;> simp only [store8_frame _ _ _ a e1, store8_frame _ _ _ a e2]

/-- The sub-block pointers that `CompressMasked` hands to the sub-codecs lie in the block. -/
theorem CompressMasked_ptrs {CS M : Type} {c : FlagConsts} (hc : c.SingleBits)
    (H : SubCodecs CS M) (rgba : Int → u8) (mask : Int) (mem : Mem) (block : Int) (flags : Int)
    (metric : M) (p : Int)
    (hp : p ∈ (CompressMasked c H rgba mask mem block flags metric).trace.filterMap
        Call.colourPtr ∨
      p ∈ (CompressMasked c H rgba mask mem block flags metric).trace.filterMap
        Call.alphaPtr) :
    block ≤ p ∧ p + 8 ≤ block + (normalisedFormat c flags).blockSize := by
  rw [CompressMasked_trace hc] at hp
  cases hfm : normalisedFormat c flags <;> rw [hfm] at hp <;>
    simp only [Format.blockSize, Format.colourOffset] at hp ⊢
  · rcases hp with hp | hp
    · split_ifs at hp <;> simp [Call.colourPtr] at hp <;> omega
    · split_ifs at hp <;> simp [Call.alphaPtr] at hp
  · rcases hp with hp | hp
    · split_ifs at hp <;> simp [Call.colourPtr] at hp <;> omega
    · split_ifs at hp <;> simp [Call.alphaPtr] at hp <;> omega
  · rcases hp with hp | hp
    · split_ifs at hp <;> simp [Call.colourPtr] at hp <;> omega
    · split_ifs at hp <;> simp [Call.alphaPtr] at hp <;> omega

/-- The block loops of `CompressImage` are one loop over the tile numbers. -/
theorem CompressImage_eq_range {CS M : Type} (c : FlagConsts) (H : SubCodecs CS M)
    (image : Mem) (rgba width height pitch : Int) (out : Mem) (blocks : Int) (flags : Int)
    (metric : M) (junk : Int → Int → Int → u8) :
    CompressImage c H image rgba width height pitch out blocks flags metric junk =
      (List.range (tilesAcross width * tilesAcross height)).foldl
        (fun s k =>
          CompressImage.tile c H image rgba width height pitch (FixFlags c flags) metric junk
            (if Int.land (FixFlags c flags) c.kDxt1 ≠ 0 then 8 else 16)
            (4 * ((k % tilesAcross width : Nat) : Int))
            (4 * ((k / tilesAcross width : Nat) : Int)) s)
        { mem := out, targetBlock := blocks, invocations := [], trace := [] } := by
  rw [CompressImage_eq_foldl]
  exact foldl_tiles
    (fun x y s => CompressImage.tile c H image rgba width height pitch (FixFlags c flags) metric
      junk (if Int.land (FixFlags c flags) c.kDxt1 ≠ 0 then 8 else 16) x y s) width height _

theorem blockSize_cases (fm : Format) : fm.blockSize = 8 ∨ fm.blockSize = 16 := by
  cases fm
  · exact Or.inl rfl
  · exact Or.inr rfl
  · exact Or.inr rfl

theorem CompressImage_tile_inv {CS M : Type} {c : FlagConsts} (hc : c.SingleBits)
    (H : SubCodecs CS M) (image : Mem) (rgba width height pitch flags : Int) (metric : M)
    (junk : Int → Int → Int → u8) (bpb : Int) (hbpb : bpb = (normalisedFormat c flags).blockSize)
    (out : Mem) (blocks : Int) (k : Nat) (s : ImageState CS)
    (hinv : EncodeInv c H image rgba width height pitch flags metric junk bpb out blocks k s) :
    EncodeInv c H image rgba width height pitch flags metric junk bpb out blocks (k + 1)
      (CompressImage.tile c H image rgba width height pitch flags metric junk bpb
        (4 * ((k % tilesAcross width : Nat) : Int))
        (4 * ((k / tilesAcross width : Nat) : Int)) s) := by
  have hk0 : (0 : Int) ≤ (k : Int) := Int.ofNat_nonneg k
  have hb := blockSize_cases (normalisedFormat c flags)
  unfold CompressImage.tile
  simp only []
  refine ⟨?_, ?_, ?_, ?_⟩
  · rw [hinv.targetBlock]
    push_cast
    ring
  · rw [List.map_append, hinv.calls, List.range_succ, List.map_append, hinv.targetBlock]
    rfl
  · intro a ha
    dsimp only
    rw [hinv.targetBlock, CompressMasked_frame hc]
    · apply hinv.frame
      rcases ha with ha | ha
      · exact Or.inl ha
      · right
        push_cast at ha
        rcases hb with hb | hb <;> rw [hbpb, hb] at ha ⊢ <;> omega
    · rw [← hbpb]
      rcases ha with ha | ha
      · left
        rcases hb with hb | hb <;> rw [hbpb, hb] <;> omega
      · right
        push_cast at ha
        rcases hb with hb | hb <;> rw [hbpb, hb] at ha ⊢ <;> omega
  · intro i hi
    by_cases hik : i < k
    · obtain ⟨m0, hm0⟩ := hinv.encoded i hik
      refine ⟨m0, ?_⟩
      intro a ha1 ha2
      have hi0 : (0 : Int) ≤ (i : Int) := Int.ofNat_nonneg i
      have hik2 : (i : Int) + 1 ≤ (k : Int) := by exact_mod_cast hik
      dsimp only
      rw [hinv.targetBlock, CompressMasked_frame hc]
      · exact hm0 a ha1 ha2
      · left
        rcases hb with hb | hb <;> rw [hbpb, hb] at ha1 ha2 ⊢ <;> omega
    · have hik2 : i = k := by omega
      subst hik2
      refine ⟨s.mem, ?_⟩
      intro a _ _
      dsimp only
      rw [hinv.targetBlock]

/-- After `CompressImage`, one block was written per tile, one after the other from
`blocks`. -/
theorem CompressImage_inv {CS M : Type} {c : FlagConsts} (hc : c.SingleBits)
    (H : SubCodecs CS M) (image : Mem) (rgba width height pitch : Int) (out : Mem)
    (blocks : Int) (flags : Int) (metric : M) (junk : Int → Int → Int → u8) :
    EncodeInv c H image rgba width height pitch (FixFlags c flags) metric junk
      (normalisedFormat c flags).blockSize out blocks (tilesAcross width * tilesAcross height)
      (CompressImage c H image rgba width height pitch out blocks flags metric junk) := by
  rw [CompressImage_eq_range, bytesPerBlock_eq hc]
  have hnf : normalisedFormat c (FixFlags c flags) = normalisedFormat c flags := by
    obtain ⟨pos, hp⟩ := singleBits_positions hc
    rw [normalisedFormat_eq hp, normalisedFormat_eq hp, groupPos_FixFlags_format hp]
  exact foldl_range_inv _
    (fun k s => EncodeInv c H image rgba width height pitch (FixFlags c flags) metric junk
      (normalisedFormat c flags).blockSize out blocks k s)
    _ _
    ⟨by simp, by simp, fun a _ => rfl, fun i hi => absurd hi (Nat.not_lt_zero i)⟩
    (fun k _ s hs =>
      CompressImage_tile_inv hc H image rgba width height pitch (FixFlags c flags) metric junk
        _ (by rw [hnf]) out blocks k s hs)

theorem tilesAcross_cast_nonneg (n : Int) (hn : 0 ≤ n) :
    ((tilesAcross n : Nat) : Int) = (n + 3) / 4 := by
  unfold tilesAcross
  rw [Int.toNat_of_nonneg (by omega)]

/-- For non-negative extents `GetStorageRequirements` is the number of tiles times the block
size. -/
theorem GetStorageRequirements_eq_tiles {c : FlagConsts} (hc : c.SingleBits)
    (width height flags : Int) (hw : 0 ≤ width) (hh : 0 ≤ height) :
    GetStorageRequirements c width height flags =
      ((tilesAcross width * tilesAcross height : Nat) : Int) *
        (normalisedFormat c flags).blockSize := by
  unfold GetStorageRequirements
  simp only []
  rw [bytesPerBlock_eq hc, Int.tdiv_eq_ediv (by omega) (by norm_num),
    Int.tdiv_eq_ediv (by omega) (by norm_num), Nat.cast_mul, tilesAcross_cast_nonneg width hw,
    tilesAcross_cast_nonneg height hh]

/-- On exact integers, for `width, height ≥ 0`, `CompressImage` calls `CompressMasked`
`ceil(width/4) * ceil(height/4)` times, call `k` with block pointer `blocks + k * blockSize`
and the normalised flags; a call changes no byte outside the `blockSize` bytes of its block and
hands the sub-codecs 8-byte sub-blocks inside it; the write pointer ends
`GetStorageRequirements(width, height, flags)` bytes after `blocks`, no byte outside that range
changes, and every byte of the range lies in the block of exactly one call. -/
theorem CompressImage_layout_exact {CS M : Type} (c : FlagConsts) (hc : c.SingleBits)
    (H : SubCodecs CS M) (image : Mem) (rgba width height pitch : Int) (out : Mem)
    (blocks : Int) (flags : Int) (metric : M) (junk : Int → Int → Int → u8) (hw : 0 ≤ width)
    (hh : 0 ≤ height) :
    (((CompressImage c H image rgba width height pitch out blocks flags metric
        junk).invocations.length : Nat) : Int) = ⌈(width : ℚ) / 4⌉ * ⌈(height : ℚ) / 4⌉ ∧
      (∀ (k : Nat) (hk : k < (CompressImage c H image rgba width height pitch out blocks flags
          metric junk).invocations.length),
        ((CompressImage c H image rgba width height pitch out blocks flags metric
            junk).invocations.get ⟨k, hk⟩).block =
          blocks + (k : Int) * (normalisedFormat c flags).blockSize ∧
        ((CompressImage c H image rgba width height pitch out blocks flags metric
            junk).invocations.get ⟨k, hk⟩).flags = FixFlags c flags) ∧
      (∀ inv ∈ (CompressImage c H image rgba width height pitch out blocks flags metric
          junk).invocations, ∀ m : Mem,
        (∀ a, a < inv.block ∨ inv.block + (normalisedFormat c flags).blockSize ≤ a →
          (CompressMasked c H inv.rgba inv.mask m inv.block inv.flags metric).mem a = m a) ∧
        (∀ p,
          p ∈ (CompressMasked c H inv.rgba inv.mask m inv.block inv.flags
              metric).trace.filterMap Call.colourPtr ∨
            p ∈ (CompressMasked c H inv.rgba inv.mask m inv.block inv.flags
              metric).trace.filterMap Call.alphaPtr →
          inv.block ≤ p ∧ p + 8 ≤ inv.block + (normalisedFormat c flags).blockSize)) ∧
      (CompressImage c H image rgba width height pitch out blocks flags metric
          junk).targetBlock = blocks + GetStorageRequirements c width height flags ∧
      (∀ a, a < blocks ∨ blocks + GetStorageRequirements c width height flags ≤ a →
        (CompressImage c H image rgba width height pitch out blocks flags metric junk).mem a =
          out a) ∧
      (∀ a, blocks ≤ a → a < blocks + GetStorageRequirements c width height flags →
        ∃! k : Nat,
          k < (CompressImage c H image rgba width height pitch out blocks flags metric
            junk).invocations.length ∧
          blocks + (k : Int) * (normalisedFormat c flags).blockSize ≤ a ∧
          a < blocks + (k : Int) * (normalisedFormat c flags).blockSize +
            (normalisedFormat c flags).blockSize) := by
  have hinv := CompressImage_inv hc H image rgba width height pitch out blocks flags metric junk
  have hnf : normalisedFormat c (FixFlags c flags) = normalisedFormat c flags := by
    obtain ⟨pos, hp⟩ := singleBits_positions hc
    rw [normalisedFormat_eq hp, normalisedFormat_eq hp, groupPos_FixFlags_format hp]
  have hlen : (CompressImage c H image rgba width height pitch out blocks flags metric
      junk).invocations.length = tilesAcross width * tilesAcross height := by
    have := congrArg List.length hinv.calls
    simpa using this
  have hget : ∀ (k : Nat) (hk : k < (CompressImage c H image rgba width height pitch out
      blocks flags metric junk).invocations.length),
      ((CompressImage c H image rgba width height pitch out blocks flags metric
          junk).invocations.get ⟨k, hk⟩).block =
        blocks + (k : Int) * (normalisedFormat c flags).blockSize ∧
      ((CompressImage c H image rgba width height pitch out blocks flags metric
          junk).invocations.get ⟨k, hk⟩).flags = FixFlags c flags := by
    intro k hk
    have h1 := congrArg (fun l => l[k]?) hinv.calls
    simp only [List.getElem?_map, List.getElem?_range (hlen ▸ hk),
      List.getElem?_eq_getElem hk, Option.map_some', Option.some.injEq, Prod.mk.injEq] at h1
    rw [List.get_eq_getElem]
    exact ⟨by rw [h1.1]; ring, h1.2⟩
  have hgsr := GetStorageRequirements_eq_tiles hc width height flags hw hh
  have hb := blockSize_cases (normalisedFormat c flags)
  refine ⟨?_, hget, ?_, ?_, ?_, ?_⟩
  · rw [hlen, Nat.cast_mul, tilesAcross_cast_nonneg width hw,
      tilesAcross_cast_nonneg height hh, ediv_add_three, ediv_add_three]
  · intro inv hmem m
    obtain ⟨k, hk, rfl⟩ := List.mem_iff_get.1 hmem
    have hfl := (hget k.1 k.2).2
    rw [show (⟨k.1, k.2⟩ : Fin _) = k from rfl] at hfl
    rw [hfl]
    refine ⟨?_, ?_⟩
    · intro a ha
      exact CompressMasked_frame hc H _ _ _ _ _ _ a (by rw [hnf]; exact ha)
    · intro p hp
      have := CompressMasked_ptrs hc H _ _ _ _ _ _ p hp
      rw [hnf] at this
      exact this
  · rw [hinv.targetBlock, hgsr]
    ring
  · intro a ha
    apply hinv.frame
    rw [hgsr] at ha
    rcases ha with ha | ha
    · exact Or.inl ha
    · right
      rw [mul_comm]
      exact ha
  · intro a ha1 ha2
    rw [hgsr, ← hlen] at ha2
    generalize (CompressImage c H image rgba width height pitch out blocks flags metric
      junk).invocations.length = N at ha2 ⊢
    rcases hb with hb | hb <;> rw [hb] at ha2 ⊢
    · refine ⟨((a - blocks) / 8).toNat, ⟨by omega, by omega, by omega⟩, ?_⟩
      rintro k ⟨_, h2, h3⟩
      omega
    · refine ⟨((a - blocks) / 16).toNat, ⟨by omega, by omega, by omega⟩, ?_⟩
      rintro k ⟨_, h2, h3⟩
      omega

/-! ## Round trip of the tiler -/

/-- The pixel loops of `CompressImage` with the loop variables as natural numbers. -/
theorem buildTile_eq (c : FlagConsts) (image : Mem) (rgba width height pitch flags : Int)
    (x y : Int) (junk : Int → u8) :
    CompressImage.buildTile c image rgba width height pitch flags x y junk =
      (List.range 4).foldl
        (fun (t : TileState) (py : Nat) =>
          (List.range 4).foldl
            (fun (t : TileState) (px : Nat) =>
              CompressImage.pixel c image rgba width height pitch flags x y (py : Int)
                (px : Int) t) t)
        { sourceRgba := junk, targetPixel := 0, mask := 0 } :=
  rfl

/-- The block loops of `ComputeMSE` are one loop over the tile numbers. -/
theorem ComputeMSE_loop_eq {CS M : Type} (c : FlagConsts) (H : SubCodecs CS M) (image : Mem)
    (dmem : Mem) (rgba width height pitch flags : Int) (junk : Int → Int → Int → u8)
    (junk4 : Int → u8) (bpb : Int) (s0 : MSEState CS) :
    ComputeMSE.loopY c H image dmem rgba width height pitch flags junk junk4 bpb height.toNat 0
        s0 =
      (List.range (tilesAcross width * tilesAcross height)).foldl
        (fun s k =>
          ComputeMSE.tile c H image dmem rgba width height pitch flags junk junk4 bpb
            (4 * ((k % tilesAcross width : Nat) : Int))
            (4 * ((k / tilesAcross width : Nat) : Int)) s) s0 := by
  rw [for_step4_origins height
    (fun y s => ComputeMSE.loopX c H image dmem rgba width height pitch flags junk junk4 bpb y
      width.toNat 0 s)
    (ComputeMSE.loopY c H image dmem rgba width height pitch flags junk junk4 bpb)
    (fun _ _ => rfl) (fun _ _ _ => rfl)]
  rw [← foldl_tiles
    (fun x y s => ComputeMSE.tile c H image dmem rgba width height pitch flags junk junk4 bpb
      x y s)]
  congr 1
  funext s y
  exact for_step4_origins width
    (fun x s => ComputeMSE.tile c H image dmem rgba width height pitch flags junk junk4 bpb
      x y s)
    (ComputeMSE.loopX c H image dmem rgba width height pitch flags junk junk4 bpb y)
    (fun _ _ => rfl) (fun _ _ _ => rfl) s

/-- What one pixel step of `ComputeMSE` adds to the two sums. -/
theorem ComputeMSE_pixel_eq (c : FlagConsts) (image : Mem) (targetRgba : Int → u8)
    (rgba width height pitch flags : Int) (junk4 : Int → u8) (x y py px : Int)
    (t : MSEPixelState) :
    ComputeMSE.pixel c image targetRgba rgba width height pitch flags junk4 x y py px t =
      { sourcePixel := t.sourcePixel + 4
        colourMSE := t.colourMSE +
          (if x + px < width ∧ y + py < height then
            colourError (srcByte c image rgba pitch flags (x + px) (y + py))
              (fun ch => targetRgba (t.sourcePixel + ch))
          else 0)
        alphaMSE := t.alphaMSE +
          (if x + px < width ∧ y + py < height then
            alphaError (srcByte c image rgba pitch flags (x + px) (y + py))
              (fun ch => targetRgba (t.sourcePixel + ch))
          else 0) } := by
  have hr : List.range 3 = [0, 1, 2] := rfl
  have hcol : ∀ ch : Int, 0 ≤ ch → ch < 4 →
      CopyRGBA c image (rgba + pitch * (y + py) + 4 * (x + px)) junk4 0 flags ch =
        srcByte c image rgba pitch flags (x + px) (y + py) ch := by
    intro ch h0 h4
    have := CopyRGBA_channel c image (rgba + pitch * (y + py) + 4 * (x + px)) junk4 0 flags ch
      h0 h4
    rw [zero_add] at this
    exact this
  unfold ComputeMSE.pixel
  by_cases hin : x + px < width ∧ y + py < height
  · simp only [if_pos hin, hr, List.foldl, Nat.cast_zero, Nat.cast_one, Nat.cast_ofNat,
      hcol 0 (by norm_num) (by norm_num), hcol 1 (by norm_num) (by norm_num),
      hcol 2 (by norm_num) (by norm_num), hcol 3 (by norm_num) (by norm_num)]
    unfold colourError alphaError ErrorSq
    congr 1
    · congr 1
      split_ifs <;> ring
    · ring
  · simp only [if_neg hin, add_zero]

/-- A sum over the tiles and the 16 pixel steps of each tile, taken over the steps whose pixel
lies in the image, is the sum over the pixels of the image, each once. -/
theorem sum_tiles_eq (width height : Int) (G : Int → Int → ℚ) :
    (∑ k ∈ Finset.range (tilesAcross width * tilesAcross height), ∑ n ∈ Finset.range 16,
        (if 4 * ((k % tilesAcross width : Nat) : Int) + ((n % 4 : Nat) : Int) < width ∧
            4 * ((k / tilesAcross width : Nat) : Int) + ((n / 4 : Nat) : Int) < height
          then G (4 * ((k % tilesAcross width : Nat) : Int) + ((n % 4 : Nat) : Int))
            (4 * ((k / tilesAcross width : Nat) : Int) + ((n / 4 : Nat) : Int))
          else 0)) =
      ∑ p ∈ Finset.range width.toNat ×ˢ Finset.range height.toNat,
        G ((p.1 : Nat) : Int) ((p.2 : Nat) : Int) := by
  rw [← Finset.sum_product', Finset.sum_ite, Finset.sum_const_zero, add_zero]
  refine Finset.sum_nbij'
    (fun q : Nat × Nat =>
      ((4 * ((q.1 % tilesAcross width : Nat) : Int) + ((q.2 % 4 : Nat) : Int)).toNat,
        (4 * ((q.1 / tilesAcross width : Nat) : Int) + ((q.2 / 4 : Nat) : Int)).toNat))
    (fun p : Nat × Nat =>
      ((tileIndex width (p.1 : Int) (p.2 : Int)).toNat,
        (pixelNumber (p.1 : Int) (p.2 : Int)).toNat))
    ?_ ?_ ?_ ?_ ?_
  · rintro ⟨k, n⟩ hq
    rw [Finset.mem_filter, Finset.mem_product, Finset.mem_range, Finset.mem_range] at hq
    obtain ⟨⟨_, _⟩, h1, h2⟩ := hq
    have hY0 : (0 : Int) ≤ ((k / tilesAcross width : Nat) : Int) := Int.ofNat_nonneg _
    rw [Finset.mem_product, Finset.mem_range, Finset.mem_range]
    dsimp only at h1 h2 ⊢
    constructor <;> omega
  · rintro ⟨a, b⟩ hp
    rw [Finset.mem_product, Finset.mem_range, Finset.mem_range] at hp
    dsimp only at hp
    have hb : InBounds width height (a : Int) (b : Int) :=
      ⟨Int.ofNat_nonneg a, by omega, Int.ofNat_nonneg b, by omega⟩
    obtain ⟨hs0, hsN⟩ := stepIndex_lt width height _ _ hb
    have hpn : 0 ≤ pixelNumber (a : Int) (b : Int) ∧ pixelNumber (a : Int) (b : Int) < 16 := by
      unfold pixelNumber; omega
    have hti : 0 ≤ tileIndex width (a : Int) (b : Int) := by unfold stepIndex at hs0; omega
    have hstep : stepIndex width (a : Int) (b : Int) =
        16 * (((tileIndex width (a : Int) (b : Int)).toNat : Nat) : Int) +
          (((pixelNumber (a : Int) (b : Int)).toNat : Nat) : Int) := by
      rw [Int.toNat_of_nonneg hti, Int.toNat_of_nonneg hpn.1]
      rfl
    obtain ⟨ex, ey⟩ := step_of_index width _ _ (by omega) _ _ hb.1 hb.2.1 hb.2.2.1 hstep
    rw [Finset.mem_filter, Finset.mem_product, Finset.mem_range, Finset.mem_range]
    dsimp only
    refine ⟨⟨?_, by omega⟩, ?_, ?_⟩
    · unfold stepIndex at hsN
      have : ((tileIndex width (a : Int) (b : Int)).toNat : Int) <
          ((tilesAcross width * tilesAcross height : Nat) : Int) := by
        rw [Int.toNat_of_nonneg hti]; omega
      exact_mod_cast this
    · rw [← ex]; exact hb.2.1
    · rw [← ey]; exact hb.2.2.2
  · rintro ⟨k, n⟩ hq
    rw [Finset.mem_filter, Finset.mem_product, Finset.mem_range, Finset.mem_range] at hq
    obtain ⟨⟨_, hn⟩, h1, h2⟩ := hq
    have hY0 : (0 : Int) ≤ ((k / tilesAcross width : Nat) : Int) := Int.ofNat_nonneg _
    dsimp only at h1 h2 hn ⊢
    have := index_of_step width k n hn h1
    rw [Int.toNat_of_nonneg (by omega), Int.toNat_of_nonneg (by omega), this.1, this.2]
    rfl
  · rintro ⟨a, b⟩ hp
    rw [Finset.mem_product, Finset.mem_range, Finset.mem_range] at hp
    dsimp only at hp ⊢
    have hb : InBounds width height (a : Int) (b : Int) :=
      ⟨Int.ofNat_nonneg a, by omega, Int.ofNat_nonneg b, by omega⟩
    obtain ⟨hs0, hsN⟩ := stepIndex_lt width height _ _ hb
    have hpn : 0 ≤ pixelNumber (a : Int) (b : Int) ∧ pixelNumber (a : Int) (b : Int) < 16 := by
      unfold pixelNumber; omega
    have hti : 0 ≤ tileIndex width (a : Int) (b : Int) := by unfold stepIndex at hs0; omega
    have hstep : stepIndex width (a : Int) (b : Int) =
        16 * (((tileIndex width (a : Int) (b : Int)).toNat : Nat) : Int) +
          (((pixelNumber (a : Int) (b : Int)).toNat : Nat) : Int) := by
      rw [Int.toNat_of_nonneg hti, Int.toNat_of_nonneg hpn.1]
      rfl
    obtain ⟨ex, ey⟩ := step_of_index width _ _ (by omega) _ _ hb.1 hb.2.1 hb.2.2.1 hstep
    rw [← ex, ← ey]
    rfl
  · rintro ⟨k, n⟩ hq
    rw [Finset.mem_filter, Finset.mem_product, Finset.mem_range, Finset.mem_range] at hq
    obtain ⟨⟨_, hn⟩, h1, h2⟩ := hq
    have hY0 : (0 : Int) ≤ ((k / tilesAcross width : Nat) : Int) := Int.ofNat_nonneg _
    dsimp only at h1 h2 hn ⊢
    rw [Int.toNat_of_nonneg (by omega), Int.toNat_of_nonneg (by omega)]

/-- What one tile step of `ComputeMSE` adds to the two sums. -/
theorem ComputeMSE_tile_eq {CS M : Type} (c : FlagConsts) (H : SubCodecs CS M) (image : Mem)
    (dmem : Mem) (rgba width height pitch flags : Int) (junk : Int → Int → Int → u8)
    (junk4 : Int → u8) (bpb : Int) (x y : Int) (s : MSEState CS) :
    ComputeMSE.tile c H image dmem rgba width height pitch flags junk junk4 bpb x y s =
      { sourceBlock := s.sourceBlock + bpb
        colourMSE := s.colourMSE + ∑ n ∈ Finset.range 16,
          (if x + ((n % 4 : Nat) : Int) < width ∧ y + ((n / 4 : Nat) : Int) < height then
            colourError
              (srcByte c image rgba pitch flags (x + ((n % 4 : Nat) : Int))
                (y + ((n / 4 : Nat) : Int)))
              (fun ch => (Decompress c H (junk x y) dmem s.sourceBlock flags).rgba
                (4 * (n : Int) + ch))
          else 0)
        alphaMSE := s.alphaMSE + ∑ n ∈ Finset.range 16,
          (if x + ((n % 4 : Nat) : Int) < width ∧ y + ((n / 4 : Nat) : Int) < height then
            alphaError
              (srcByte c image rgba pitch flags (x + ((n % 4 : Nat) : Int))
                (y + ((n / 4 : Nat) : Int)))
              (fun ch => (Decompress c H (junk x y) dmem s.sourceBlock flags).rgba
                (4 * (n : Int) + ch))
          else 0)
        trace := s.trace ++ (Decompress c H (junk x y) dmem s.sourceBlock flags).trace } := by
  unfold ComputeMSE.tile
  simp only []
  rw [foldl_range_mul
    (fun i j t => ComputeMSE.pixel c image
      (Decompress c H (junk x y) dmem s.sourceBlock flags).rgba rgba width height pitch flags
      junk4 x y (j : Int) (i : Int) t) 4 4]
  have key := foldl_range_inv
    (fun t n => ComputeMSE.pixel c image
      (Decompress c H (junk x y) dmem s.sourceBlock flags).rgba rgba width height pitch flags
      junk4 x y ((n / 4 : Nat) : Int) ((n % 4 : Nat) : Int) t)
    (fun m t => t.sourcePixel = 4 * (m : Int) ∧
      t.colourMSE = s.colourMSE + ∑ n ∈ Finset.range m,
        (if x + ((n % 4 : Nat) : Int) < width ∧ y + ((n / 4 : Nat) : Int) < height then
          colourError
            (srcByte c image rgba pitch flags (x + ((n % 4 : Nat) : Int))
              (y + ((n / 4 : Nat) : Int)))
            (fun ch => (Decompress c H (junk x y) dmem s.sourceBlock flags).rgba
              (4 * (n : Int) + ch))
        else 0) ∧
      t.alphaMSE = s.alphaMSE + ∑ n ∈ Finset.range m,
        (if x + ((n % 4 : Nat) : Int) < width ∧ y + ((n / 4 : Nat) : Int) < height then
          alphaError
            (srcByte c image rgba pitch flags (x + ((n % 4 : Nat) : Int))
              (y + ((n / 4 : Nat) : Int)))
            (fun ch => (Decompress c H (junk x y) dmem s.sourceBlock flags).rgba
              (4 * (n : Int) + ch))
        else 0))
    { sourcePixel := 0, colourMSE := s.colourMSE, alphaMSE := s.alphaMSE } 16
    ⟨by simp, by simp, by simp⟩
    (by
      intro m _ t ht
      obtain ⟨h1, h2, h3⟩ := ht
      dsimp only
      rw [ComputeMSE_pixel_eq]
      dsimp only
      refine ⟨by rw [h1]; push_cast; ring, ?_, ?_⟩
      · rw [Finset.sum_range_succ, h2, h1, add_assoc]
      · rw [Finset.sum_range_succ, h3, h1, add_assoc])
  obtain ⟨_, k2, k3⟩ := key
  rw [k2, k3]

/-- The sums of `ComputeMSE` after the block loops, tile by tile. -/
theorem ComputeMSE_loop_sums {CS M : Type} (c : FlagConsts) (H : SubCodecs CS M)
    (image : Mem) (dmem : Mem) (rgba width height pitch flags : Int)
    (junk : Int → Int → Int → u8) (junk4 : Int → u8) (bpb dxt : Int) (K : Nat) :
    ((List.range K).foldl
        (fun s k =>
          ComputeMSE.tile c H image dmem rgba width height pitch flags junk junk4 bpb
            (4 * ((k % tilesAcross width : Nat) : Int))
            (4 * ((k / tilesAcross width : Nat) : Int)) s)
        ({ sourceBlock := dxt, colourMSE := 0, alphaMSE := 0, trace := [] } :
          MSEState CS)).sourceBlock = dxt + bpb * (K : Int) ∧
      ((List.range K).foldl
        (fun s k =>
          ComputeMSE.tile c H image dmem rgba width height pitch flags junk junk4 bpb
            (4 * ((k % tilesAcross width : Nat) : Int))
            (4 * ((k / tilesAcross width : Nat) : Int)) s)
        ({ sourceBlock := dxt, colourMSE := 0, alphaMSE := 0, trace := [] } :
          MSEState CS)).colourMSE =
        ∑ k ∈ Finset.range K, ∑ n ∈ Finset.range 16,
          (if 4 * ((k % tilesAcross width : Nat) : Int) + ((n % 4 : Nat) : Int) < width ∧
              4 * ((k / tilesAcross width : Nat) : Int) + ((n / 4 : Nat) : Int) < height then
            colourError
              (srcByte c image rgba pitch flags
                (4 * ((k % tilesAcross width : Nat) : Int) + ((n % 4 : Nat) : Int))
                (4 * ((k / tilesAcross width : Nat) : Int) + ((n / 4 : Nat) : Int)))
              (fun ch => (Decompress c H
                (junk (4 * ((k % tilesAcross width : Nat) : Int))
                  (4 * ((k / tilesAcross width : Nat) : Int))) dmem (dxt + bpb * (k : Int))
                flags).rgba (4 * (n : Int) + ch))
          else 0) ∧
      ((List.range K).foldl
        (fun s k =>
          ComputeMSE.tile c H image dmem rgba width height pitch flags junk junk4 bpb
            (4 * ((k % tilesAcross width : Nat) : Int))
            (4 * ((k / tilesAcross width : Nat) : Int)) s)
        ({ sourceBlock := dxt, colourMSE := 0, alphaMSE := 0, trace := [] } :
          MSEState CS)).alphaMSE =
        ∑ k ∈ Finset.range K, ∑ n ∈ Finset.range 16,
          (if 4 * ((k % tilesAcross width : Nat) : Int) + ((n % 4 : Nat) : Int) < width ∧
              4 * ((k / tilesAcross width : Nat) : Int) + ((n / 4 : Nat) : Int) < height then
            alphaError
              (srcByte c image rgba pitch flags
                (4 * ((k % tilesAcross width : Nat) : Int) + ((n % 4 : Nat) : Int))
                (4 * ((k / tilesAcross width : Nat) : Int) + ((n / 4 : Nat) : Int)))
              (fun ch => (Decompress c H
                (junk (4 * ((k % tilesAcross width : Nat) : Int))
                  (4 * ((k / tilesAcross width : Nat) : Int))) dmem (dxt + bpb * (k : Int))
                flags).rgba (4 * (n : Int) + ch))
          else 0) := by
  refine foldl_range_inv
    (fun s k =>
      ComputeMSE.tile c H image dmem rgba width height pitch flags junk junk4 bpb
        (4 * ((k % tilesAcross width : Nat) : Int))
        (4 * ((k / tilesAcross width : Nat) : Int)) s)
    (fun K (s : MSEState CS) => s.sourceBlock = dxt + bpb * (K : Int) ∧
      s.colourMSE = ∑ k ∈ Finset.range K, ∑ n ∈ Finset.range 16,
          (if 4 * ((k % tilesAcross width : Nat) : Int) + ((n % 4 : Nat) : Int) < width ∧
              4 * ((k / tilesAcross width : Nat) : Int) + ((n / 4 : Nat) : Int) < height then
            colourError
              (srcByte c image rgba pitch flags
                (4 * ((k % tilesAcross width : Nat) : Int) + ((n % 4 : Nat) : Int))
                (4 * ((k / tilesAcross width : Nat) : Int) + ((n / 4 : Nat) : Int)))
              (fun ch => (Decompress c H
                (junk (4 * ((k % tilesAcross width : Nat) : Int))
                  (4 * ((k / tilesAcross width : Nat) : Int))) dmem (dxt + bpb * (k : Int))
                flags).rgba (4 * (n : Int) + ch))
          else 0) ∧
      s.alphaMSE = ∑ k ∈ Finset.range K, ∑ n ∈ Finset.range 16,
          (if 4 * ((k % tilesAcross width : Nat) : Int) + ((n % 4 : Nat) : Int) < width ∧
              4 * ((k / tilesAcross width : Nat) : Int) + ((n / 4 : Nat) : Int) < height then
            alphaError
              (srcByte c image rgba pitch flags
                (4 * ((k % tilesAcross width : Nat) : Int) + ((n % 4 : Nat) : Int))
                (4 * ((k / tilesAcross width : Nat) : Int) + ((n / 4 : Nat) : Int)))
              (fun ch => (Decompress c H
                (junk (4 * ((k % tilesAcross width : Nat) : Int))
                  (4 * ((k / tilesAcross width : Nat) : Int))) dmem (dxt + bpb * (k : Int))
                flags).rgba (4 * (n : Int) + ch))
          else 0))
    _ K ⟨by simp, by simp, by simp⟩ ?_
  intro k _ s hs
  obtain ⟨h1, h2, h3⟩ := hs
  dsimp only
  rw [ComputeMSE_tile_eq]
  dsimp only
  refine ⟨by rw [h1]; push_cast; ring, ?_, ?_⟩
  · rw [Finset.sum_range_succ _ k, h2, h1]
  · rw [Finset.sum_range_succ _ k, h3, h1]

/-- The decoded pixel that `ComputeMSE` reads at pixel step `n` of tile `k`, and the source
pixel it compares it with, in terms of the position of the pixel in the image. -/
theorem ComputeMSE_term_eq {CS M : Type} {c : FlagConsts} (hc : c.SingleBits)
    (H : SubCodecs CS M) (image dmem : Mem) (rgba width pitch dxt flags : Int)
    (junk : Int → Int → Int → u8) (k n : Nat) (hn : n < 16)
    (hx : 4 * ((k % tilesAcross width : Nat) : Int) + ((n % 4 : Nat) : Int) < width) :
    (fun ch => (Decompress c H
        (junk (4 * ((k % tilesAcross width : Nat) : Int))
          (4 * ((k / tilesAcross width : Nat) : Int))) dmem
        (dxt + (if Int.land (FixFlags c flags) c.kDxt1 ≠ 0 then 8 else 16) * (k : Int))
        (FixFlags c flags)).rgba (4 * (n : Int) + ch)) =
      decByte c H dmem dxt width flags junk
        (4 * ((k % tilesAcross width : Nat) : Int) + ((n % 4 : Nat) : Int))
        (4 * ((k / tilesAcross width : Nat) : Int) + ((n / 4 : Nat) : Int)) ∧
    srcByte c image rgba pitch (FixFlags c flags)
        (4 * ((k % tilesAcross width : Nat) : Int) + ((n % 4 : Nat) : Int))
        (4 * ((k / tilesAcross width : Nat) : Int) + ((n / 4 : Nat) : Int)) =
      srcByte c image rgba pitch flags
        (4 * ((k % tilesAcross width : Nat) : Int) + ((n % 4 : Nat) : Int))
        (4 * ((k / tilesAcross width : Nat) : Int) + ((n / 4 : Nat) : Int)) := by
  obtain ⟨e1, e2⟩ := index_of_step width k n hn hx
  have d1 : (4 * ((k % tilesAcross width : Nat) : Int) + ((n % 4 : Nat) : Int)) / 4 =
      ((k % tilesAcross width : Nat) : Int) := by omega
  have d2 : (4 * ((k / tilesAcross width : Nat) : Int) + ((n / 4 : Nat) : Int)) / 4 =
      ((k / tilesAcross width : Nat) : Int) := by omega
  have hD : ∀ (j : Int → u8) (m : Mem) (b : Int),
      Decompress c H j m b (FixFlags c flags) = Decompress c H j m b flags := by
    intro j m b
    unfold Decompress
    rw [FixFlags_FixFlags hc]
  constructor
  · funext ch
    unfold decByte
    rw [e1, e2, d1, d2, hD, bytesPerBlock_eq hc,
      mul_comm (normalisedFormat c flags).blockSize (k : Int)]
  · funext ch
    unfold srcByte
    have e : decide (Int.land (FixFlags c flags) c.kSourceBGRA ≠ 0) =
        decide (Int.land flags c.kSourceBGRA ≠ 0) := by
      rw [decide_eq_decide]
      exact land_FixFlags_bgra hc flags
    rw [e]

/-- The two results of `ComputeMSE` as sums over the pixels of the image. -/
theorem ComputeMSE_sums {CS M : Type} {c : FlagConsts} (hc : c.SingleBits)
    (H : SubCodecs CS M) (image : Mem) (rgba width height pitch : Int) (dmem : Mem)
    (dxt : Int) (flags : Int) (junk : Int → Int → Int → u8) (junk4 : Int → u8) :
    ComputeMSE c H image rgba width height pitch dmem dxt flags junk junk4 =
      { colourMSE := ComputeMSE.divide
          (∑ p ∈ Finset.range width.toNat ×ˢ Finset.range height.toNat,
            colourError (srcByte c image rgba pitch flags (p.1 : Int) (p.2 : Int))
              (decByte c H dmem dxt width flags junk (p.1 : Int) (p.2 : Int)))
          (width * height * 3)
        alphaMSE := ComputeMSE.divide
          (∑ p ∈ Finset.range width.toNat ×ˢ Finset.range height.toNat,
            alphaError (srcByte c image rgba pitch flags (p.1 : Int) (p.2 : Int))
              (decByte c H dmem dxt width flags junk (p.1 : Int) (p.2 : Int)))
          (width * height) } := by
  unfold ComputeMSE
  simp only []
  rw [ComputeMSE_loop_eq]
  obtain ⟨_, h2, h3⟩ := @ComputeMSE_loop_sums CS M c H image dmem rgba width height pitch
    (FixFlags c flags) junk junk4 (if Int.land (FixFlags c flags) c.kDxt1 ≠ 0 then 8 else 16)
    dxt (tilesAcross width * tilesAcross height)
  rw [h2, h3,
    ← sum_tiles_eq width height (fun sx sy =>
      colourError (srcByte c image rgba pitch flags sx sy)
        (decByte c H dmem dxt width flags junk sx sy)),
    ← sum_tiles_eq width height (fun sx sy =>
      alphaError (srcByte c image rgba pitch flags sx sy)
        (decByte c H dmem dxt width flags junk sx sy))]
  congr 2
  · apply Finset.sum_congr rfl
    intro k _
    apply Finset.sum_congr rfl
    intro n hn
    rw [Finset.mem_range] at hn
    by_cases hin : 4 * ((k % tilesAcross width : Nat) : Int) + ((n % 4 : Nat) : Int) < width ∧
        4 * ((k / tilesAcross width : Nat) : Int) + ((n / 4 : Nat) : Int) < height
    · obtain ⟨t1, t2⟩ := ComputeMSE_term_eq hc H image dmem rgba width pitch dxt flags junk k n
        hn hin.1
      rw [if_pos hin, if_pos hin, t1, t2]
    · rw [if_neg hin, if_neg hin]
  · apply Finset.sum_congr rfl
    intro k _
    apply Finset.sum_congr rfl
    intro n hn
    rw [Finset.mem_range] at hn
    by_cases hin : 4 * ((k % tilesAcross width : Nat) : Int) + ((n % 4 : Nat) : Int) < width ∧
        4 * ((k / tilesAcross width : Nat) : Int) + ((n / 4 : Nat) : Int) < height
    · obtain ⟨t1, t2⟩ := ComputeMSE_term_eq hc H image dmem rgba width pitch dxt flags junk k n
        hn hin.1
      rw [if_pos hin, if_pos hin, t1, t2]
    · rw [if_neg hin, if_neg hin]

theorem colourError_self (s d : Int → u8) (h : ∀ ch : Int, 0 ≤ ch → ch < 4 → s ch = d ch) :
    colourError s d = 0 ∧ alphaError s d = 0 := by
  unfold colourError alphaError
  rw [h 0 (by norm_num) (by norm_num), h 1 (by norm_num) (by norm_num),
    h 2 (by norm_num) (by norm_num), h 3 (by norm_num) (by norm_num)]
  constructor
  · split_ifs
    · rfl
    · ring
  · ring

theorem mem_pixels (width height : Int) (p : Nat × Nat)
    (hp : p ∈ Finset.range width.toNat ×ˢ Finset.range height.toNat) :
    0 ≤ ((p.1 : Nat) : Int) ∧ ((p.1 : Nat) : Int) < width ∧ 0 ≤ ((p.2 : Nat) : Int) ∧
      ((p.2 : Nat) : Int) < height := by
  rw [Finset.mem_product, Finset.mem_range, Finset.mem_range] at hp
  omega

/-- On exact integers, for `width, height ≥ 1`, `ComputeMSE` returns as `colourMSE` the
sum over the `width * height` pixels of the image, each once, of the colour error of the pixel
(the squared differences of the three colour channels, or 0 when both alphas are 0), divided by
`3 * width * height`, and as `alphaMSE` the sum of the squared alpha differences divided by
`width * height`; the source pixel is taken after the channel reorder and the decoded pixel
from the block of its tile. -/
theorem ComputeMSE_quotients_exact {CS M : Type} (c : FlagConsts) (hc : c.SingleBits)
    (H : SubCodecs CS M) (image : Mem) (rgba width height pitch : Int) (dmem : Mem)
    (dxt : Int) (flags : Int) (junk : Int → Int → Int → u8) (junk4 : Int → u8)
    (hw : 1 ≤ width) (hh : 1 ≤ height) :
    (ComputeMSE c H image rgba width height pitch dmem dxt flags junk junk4).colourMSE =
        some ((∑ p ∈ Finset.range width.toNat ×ˢ Finset.range height.toNat,
            colourError (srcByte c image rgba pitch flags (p.1 : Int) (p.2 : Int))
              (decByte c H dmem dxt width flags junk (p.1 : Int) (p.2 : Int))) /
          (3 * (width : ℚ) * (height : ℚ))) ∧
      (ComputeMSE c H image rgba width height pitch dmem dxt flags junk junk4).alphaMSE =
        some ((∑ p ∈ Finset.range width.toNat ×ˢ Finset.range height.toNat,
            alphaError (srcByte c image rgba pitch flags (p.1 : Int) (p.2 : Int))
              (decByte c H dmem dxt width flags junk (p.1 : Int) (p.2 : Int))) /
          ((width : ℚ) * (height : ℚ))) ∧
      ((Finset.range width.toNat ×ˢ Finset.range height.toNat).card : Int) =
        width * height := by
  have hpos : 0 < width * height := mul_pos (by omega) (by omega)
  rw [ComputeMSE_sums hc]
  refine ⟨?_, ?_, ?_⟩
  · show ComputeMSE.divide _ _ = _
    unfold ComputeMSE.divide
    rw [if_neg (by omega)]
    congr 2
    push_cast
    ring
  · show ComputeMSE.divide _ _ = _
    unfold ComputeMSE.divide
    rw [if_neg (by omega)]
    congr 2
    push_cast
    ring
  · rw [Finset.card_product, Finset.card_range, Finset.card_range, Nat.cast_mul,
      Int.toNat_of_nonneg (by omega), Int.toNat_of_nonneg (by omega)]

/-- On exact integers, for `width, height ≥ 1` and every `pitch`, `flags` and block stream, if
every pixel of the image equals, after the channel reorder, its decoded pixel in all four
channels, then `ComputeMSE` returns `colourMSE = 0` and `alphaMSE = 0`. -/
theorem ComputeMSE_equal_exact {CS M : Type} (c : FlagConsts) (hc : c.SingleBits)
    (H : SubCodecs CS M) (image : Mem) (rgba width height pitch : Int) (dmem : Mem)
    (dxt : Int) (flags : Int) (junk : Int → Int → Int → u8) (junk4 : Int → u8)
    (hw : 1 ≤ width) (hh : 1 ≤ height)
    (heq : ∀ sx sy : Int, 0 ≤ sx → sx < width → 0 ≤ sy → sy < height →
      ∀ ch : Int, 0 ≤ ch → ch < 4 →
        srcByte c image rgba pitch flags sx sy ch =
          decByte c H dmem dxt width flags junk sx sy ch) :
    (ComputeMSE c H image rgba width height pitch dmem dxt flags junk junk4).colourMSE =
        some 0 ∧
      (ComputeMSE c H image rgba width height pitch dmem dxt flags junk junk4).alphaMSE =
        some 0 := by
  have hpos : 0 < width * height := mul_pos (by omega) (by omega)
  rw [ComputeMSE_sums hc]
  have hz : ∀ p ∈ Finset.range width.toNat ×ˢ Finset.range height.toNat,
      colourError (srcByte c image rgba pitch flags (p.1 : Int) (p.2 : Int))
          (decByte c H dmem dxt width flags junk (p.1 : Int) (p.2 : Int)) = 0 ∧
        alphaError (srcByte c image rgba pitch flags (p.1 : Int) (p.2 : Int))
          (decByte c H dmem dxt width flags junk (p.1 : Int) (p.2 : Int)) = 0 := by
    intro p hp
    obtain ⟨b1, b2, b3, b4⟩ := mem_pixels width height p hp
    exact colourError_self _ _ (heq _ _ b1 b2 b3 b4)
  rw [Finset.sum_eq_zero (fun p hp => (hz p hp).1),
    Finset.sum_eq_zero (fun p hp => (hz p hp).2)]
  constructor
  · show ComputeMSE.divide _ _ = _
    unfold ComputeMSE.divide
    rw [if_neg (by omega), zero_div]
  · show ComputeMSE.divide _ _ = _
    unfold ComputeMSE.divide
    rw [if_neg (by omega), zero_div]

/-- The decoded bytes of `demoCodecs` under DXT1 are bytes of the block stream. -/
theorem demoCodecs_decByte (dmem : Mem) (dxt width : Int) (junk : Int → Int → Int → u8)
    (sx sy ch : Int) :
    decByte stdFlags demoCodecs dmem dxt width 1 junk sx sy ch =
      dmem (dxt + tileIndex width sx sy * 8 + (4 * pixelNumber sx sy + ch) % 8) := by
  have hfm : normalisedFormat stdFlags 1 = Format.dxt1 := by decide
  unfold decByte
  rw [Decompress_eq stdFlags_singleBits, hfm]
  rfl

theorem wrapInt_of_range (n : Int) (h1 : -2147483648 ≤ n) (h2 : n < 2147483648) :
    wrapInt n = n := by
  unfold wrapInt
  omega

/-- A loop whose counter is advanced by `x += 4` on 32-bit `int` runs like the loop on exact
integers when the bound leaves room for the last increment and the bodies agree below the
bound. -/
theorem loop_wrap_eq {σ : Type} (bound : Int) (hb : bound + 3 < 2147483648)
    (body body32 : Int → σ → σ) (L L32 : Nat → Int → σ → σ)
    (h0 : ∀ x s, L 0 x s = s)
    (hs : ∀ f x s, L (f + 1) x s = if x < bound then L f (x + 4) (body x s) else s)
    (h032 : ∀ x s, L32 0 x s = s)
    (hs32 : ∀ f x s, L32 (f + 1) x s =
      if x < bound then L32 f (wrapInt (x + 4)) (body32 x s) else s)
    (hbody : ∀ x s, 0 ≤ x → x < bound → body32 x s = body x s) :
    ∀ (fuel : Nat) (x : Int) (s : σ), 0 ≤ x → L32 fuel x s = L fuel x s := by
  intro fuel
  induction fuel with
  | zero =>
    intro x s _
    rw [h0, h032]
  | succ f ih =>
    intro x s hx
    rw [hs, hs32]
    by_cases h : x < bound
    · rw [if_pos h, if_pos h, wrapInt_of_range (x + 4) (by omega) (by omega), hbody x s hx h]
      exact ih (x + 4) _ (by omega)
    · rw [if_neg h, if_neg h]

theorem CompressImage_pixel_wrap (c : FlagConsts) (image : Mem)
    (rgba width height pitch flags : Int) (x y py px : Int) (t : TileState)
    (hr : NoOverflow width height pitch) (hx : 0 ≤ x + px) (hx2 : x + px < 2147483648)
    (hy : 0 ≤ y + py) (hy2 : y + py < 2147483648) :
    int32.CompressImage.pixel c image rgba width height pitch flags x y py px t =
      CompressImage.pixel c image rgba width height pitch flags x y py px t := by
  unfold int32.CompressImage.pixel CompressImage.pixel
  simp only [wrapInt_of_range (x + px) (by omega) hx2,
    wrapInt_of_range (y + py) (by omega) hy2]
  by_cases h : x + px < width ∧ y + py < height
  · have ho := hr.offsets (y + py) hy h.2
    have hc := hr.cols
    simp only [if_pos h, wrapInt_of_range (pitch * (y + py)) ho.1 ho.2,
      wrapInt_of_range (4 * (x + px)) (by omega) (by omega)]
  · simp only [if_neg h]

theorem DecompressImage_pixel_wrap (c : FlagConsts) (targetRgba : Int → u8)
    (rgba width height pitch flags : Int) (x y py px : Int) (t : DecodePixelState)
    (hr : NoOverflow width height pitch) (hx : 0 ≤ x + px) (hx2 : x + px < 2147483648)
    (hy : 0 ≤ y + py) (hy2 : y + py < 2147483648) :
    int32.DecompressImage.pixel c targetRgba rgba width height pitch flags x y py px t =
      DecompressImage.pixel c targetRgba rgba width height pitch flags x y py px t := by
  unfold int32.DecompressImage.pixel DecompressImage.pixel
  simp only [wrapInt_of_range (x + px) (by omega) hx2,
    wrapInt_of_range (y + py) (by omega) hy2]
  by_cases h : x + px < width ∧ y + py < height
  · have ho := hr.offsets (y + py) hy h.2
    have hc := hr.cols
    simp only [if_pos h, wrapInt_of_range (pitch * (y + py)) ho.1 ho.2,
      wrapInt_of_range (4 * (x + px)) (by omega) (by omega)]
  · simp only [if_neg h]

theorem ComputeMSE_pixel_wrap (c : FlagConsts) (image : Mem) (targetRgba : Int → u8)
    (rgba width height pitch flags : Int) (junk4 : Int → u8) (x y py px : Int)
    (t : MSEPixelState)
    (hr : NoOverflow width height pitch) (hx : 0 ≤ x + px) (hx2 : x + px < 2147483648)
    (hy : 0 ≤ y + py) (hy2 : y + py < 2147483648) :
    int32.ComputeMSE.pixel c image targetRgba rgba width height pitch flags junk4 x y py px t =
      ComputeMSE.pixel c image targetRgba rgba width height pitch flags junk4 x y py px t := by
  unfold int32.ComputeMSE.pixel ComputeMSE.pixel
  simp only [wrapInt_of_range (x + px) (by omega) hx2,
    wrapInt_of_range (y + py) (by omega) hy2]
  by_cases h : x + px < width ∧ y + py < height
  · have ho := hr.offsets (y + py) hy h.2
    have hc := hr.cols
    simp only [if_pos h, wrapInt_of_range (pitch * (y + py)) ho.1 ho.2,
      wrapInt_of_range (4 * (x + px)) (by omega) (by omega)]
  · simp only [if_neg h]

theorem CompressImage_tile_wrap {CS M : Type} (c : FlagConsts) (H : SubCodecs CS M)
    (image : Mem) (rgba width height pitch flags : Int) (metric : M)
    (junk : Int → Int → Int → u8) (bpb : Int) (x y : Int) (s : ImageState CS)
    (hr : NoOverflow width height pitch) (hx : 0 ≤ x) (hx2 : x < width) (hy : 0 ≤ y)
    (hy2 : y < height) :
    int32.CompressImage.tile c H image rgba width height pitch flags metric junk bpb x y s =
      CompressImage.tile c H image rgba width height pitch flags metric junk bpb x y s := by
  have hc := hr.cols
  have hrw := hr.rows
  have hb : int32.CompressImage.buildTile c image rgba width height pitch flags x y (junk x y) =
      CompressImage.buildTile c image rgba width height pitch flags x y (junk x y) := by
    rw [buildTile_eq]
    unfold int32.CompressImage.buildTile
    apply foldl_range_congr
    intro py hpy t
    apply foldl_range_congr
    intro px hpx t
    exact CompressImage_pixel_wrap c image rgba width height pitch flags x y py px t hr
      (by omega) (by omega) (by omega) (by omega)
  unfold int32.CompressImage.tile CompressImage.tile
  rw [hb]

theorem DecompressImage_tile_wrap {CS M : Type} (c : FlagConsts) (H : SubCodecs CS M)
    (bmem : Mem) (rgba width height pitch flags : Int) (junk : Int → Int → Int → u8)
    (bpb : Int) (x y : Int) (s : DecodeState CS)
    (hr : NoOverflow width height pitch) (hx : 0 ≤ x) (hx2 : x < width) (hy : 0 ≤ y)
    (hy2 : y < height) :
    int32.DecompressImage.tile c H bmem rgba width height pitch flags junk bpb x y s =
      DecompressImage.tile c H bmem rgba width height pitch flags junk bpb x y s := by
  have hc := hr.cols
  have hrw := hr.rows
  unfold int32.DecompressImage.tile DecompressImage.tile
  have hb : ∀ (d : Int → u8) (t0 : DecodePixelState),
      (List.range 4).foldl
        (fun (t : DecodePixelState) (py : Nat) =>
          (List.range 4).foldl
            (fun (t : DecodePixelState) (px : Nat) =>
              int32.DecompressImage.pixel c d rgba width height pitch flags x y py px t)
            t) t0 =
      (List.range 4).foldl
        (fun (t : DecodePixelState) (py : Nat) =>
          (List.range 4).foldl
            (fun (t : DecodePixelState) (px : Nat) =>
              DecompressImage.pixel c d rgba width height pitch flags x y py px t)
            t) t0 := by
    intro d t0
    apply foldl_range_congr
    intro py hpy t
    apply foldl_range_congr
    intro px hpx t
    exact DecompressImage_pixel_wrap c d rgba width height pitch flags x y py px t hr
      (by omega) (by omega) (by omega) (by omega)
  simp only [hb]

theorem ComputeMSE_tile_wrap {CS M : Type} (c : FlagConsts) (H : SubCodecs CS M)
    (image : Mem) (dmem : Mem) (rgba width height pitch flags : Int)
    (junk : Int → Int → Int → u8) (junk4 : Int → u8) (bpb : Int) (x y : Int)
    (s : MSEState CS)
    (hr : NoOverflow width height pitch) (hx : 0 ≤ x) (hx2 : x < width) (hy : 0 ≤ y)
    (hy2 : y < height) :
    int32.ComputeMSE.tile c H image dmem rgba width height pitch flags junk junk4 bpb x y s =
      ComputeMSE.tile c H image dmem rgba width height pitch flags junk junk4 bpb x y s := by
  have hc := hr.cols
  have hrw := hr.rows
  unfold int32.ComputeMSE.tile ComputeMSE.tile
  have hb : ∀ (d : Int → u8) (t0 : MSEPixelState),
      (List.range 4).foldl
        (fun (t : MSEPixelState) (py : Nat) =>
          (List.range 4).foldl
            (fun (t : MSEPixelState) (px : Nat) =>
              int32.ComputeMSE.pixel c image d rgba width height pitch flags junk4 x y py px
                t)
            t) t0 =
      (List.range 4).foldl
        (fun (t : MSEPixelState) (py : Nat) =>
          (List.range 4).foldl
            (fun (t : MSEPixelState) (px : Nat) =>
              ComputeMSE.pixel c image d rgba width height pitch flags junk4 x y py px t)
            t) t0 := by
    intro d t0
    apply foldl_range_congr
    intro py hpy t
    apply foldl_range_congr
    intro px hpx t
    exact ComputeMSE_pixel_wrap c image d rgba width height pitch flags junk4 x y py px t hr
      (by omega) (by omega) (by omega) (by omega)
  simp only [hb]
/-- Without `int` overflow, `CompressImage` on 32-bit `int` is `CompressImage` on exact
integers. -/
theorem CompressImage_wrap {CS M : Type} (c : FlagConsts) (H : SubCodecs CS M) (image : Mem)
    (rgba width height pitch : Int) (out : Mem) (blocks : Int) (flags : Int) (metric : M)
    (junk : Int → Int → Int → u8) (hr : NoOverflow width height pitch) :
    int32.CompressImage c H image rgba width height pitch out blocks flags metric junk =
      CompressImage c H image rgba width height pitch out blocks flags metric junk := by
  have hcols : width + 3 < 2147483648 := by
    have := hr.cols
    omega
  unfold int32.CompressImage CompressImage
  simp only []
  exact loop_wrap_eq height hr.rows
    (fun y s => CompressImage.loopX c H image rgba width height pitch (FixFlags c flags)
      metric junk (if Int.land (FixFlags c flags) c.kDxt1 ≠ 0 then 8 else 16) y width.toNat 0 s)
    (fun y s => int32.CompressImage.loopX c H image rgba width height pitch (FixFlags c flags)
      metric junk (if Int.land (FixFlags c flags) c.kDxt1 ≠ 0 then 8 else 16) y width.toNat 0 s)
    (CompressImage.loopY c H image rgba width height pitch (FixFlags c flags) metric junk
      (if Int.land (FixFlags c flags) c.kDxt1 ≠ 0 then 8 else 16))
    (int32.CompressImage.loopY c H image rgba width height pitch (FixFlags c flags) metric junk
      (if Int.land (FixFlags c flags) c.kDxt1 ≠ 0 then 8 else 16))
    (fun _ _ => rfl) (fun _ _ _ => rfl) (fun _ _ => rfl) (fun _ _ _ => rfl)
    (fun y s hy hy2 =>
      loop_wrap_eq width hcols
        (fun x s => CompressImage.tile c H image rgba width height pitch (FixFlags c flags)
          metric junk (if Int.land (FixFlags c flags) c.kDxt1 ≠ 0 then 8 else 16) x y s)
        (fun x s => int32.CompressImage.tile c H image rgba width height pitch
          (FixFlags c flags) metric junk
          (if Int.land (FixFlags c flags) c.kDxt1 ≠ 0 then 8 else 16) x y s)
        (CompressImage.loopX c H image rgba width height pitch (FixFlags c flags) metric junk
          (if Int.land (FixFlags c flags) c.kDxt1 ≠ 0 then 8 else 16) y)
        (int32.CompressImage.loopX c H image rgba width height pitch (FixFlags c flags) metric
          junk (if Int.land (FixFlags c flags) c.kDxt1 ≠ 0 then 8 else 16) y)
        (fun _ _ => rfl) (fun _ _ _ => rfl) (fun _ _ => rfl) (fun _ _ _ => rfl)
        (fun x s hx hx2 =>
          CompressImage_tile_wrap c H image rgba width height pitch (FixFlags c flags) metric
            junk _ x y s hr hx hx2 hy hy2)
        width.toNat 0 s (le_refl 0))
    height.toNat 0 _ (le_refl 0)

/-- Without `int` overflow, `DecompressImage` on 32-bit `int` is `DecompressImage` on exact
integers. -/
theorem DecompressImage_wrap {CS M : Type} (c : FlagConsts) (H : SubCodecs CS M)
    (image : Mem) (rgba width height pitch : Int) (bmem : Mem) (blocks : Int) (flags : Int)
    (junk : Int → Int → Int → u8) (hr : NoOverflow width height pitch) :
    int32.DecompressImage c H image rgba width height pitch bmem blocks flags junk =
      DecompressImage c H image rgba width height pitch bmem blocks flags junk := by
  have hcols : width + 3 < 2147483648 := by
    have := hr.cols
    omega
  unfold int32.DecompressImage DecompressImage
  simp only []
  exact loop_wrap_eq height hr.rows
    (fun y s => DecompressImage.loopX c H bmem rgba width height pitch (FixFlags c flags) junk
      (if Int.land (FixFlags c flags) c.kDxt1 ≠ 0 then 8 else 16) y width.toNat 0 s)
    (fun y s => int32.DecompressImage.loopX c H bmem rgba width height pitch (FixFlags c flags)
      junk (if Int.land (FixFlags c flags) c.kDxt1 ≠ 0 then 8 else 16) y width.toNat 0 s)
    (DecompressImage.loopY c H bmem rgba width height pitch (FixFlags c flags) junk
      (if Int.land (FixFlags c flags) c.kDxt1 ≠ 0 then 8 else 16))
    (int32.DecompressImage.loopY c H bmem rgba width height pitch (FixFlags c flags) junk
      (if Int.land (FixFlags c flags) c.kDxt1 ≠ 0 then 8 else 16))
    (fun _ _ => rfl) (fun _ _ _ => rfl) (fun _ _ => rfl) (fun _ _ _ => rfl)
    (fun y s hy hy2 =>
      loop_wrap_eq width hcols
        (fun x s => DecompressImage.tile c H bmem rgba width height pitch (FixFlags c flags)
          junk (if Int.land (FixFlags c flags) c.kDxt1 ≠ 0 then 8 else 16) x y s)
        (fun x s => int32.DecompressImage.tile c H bmem rgba width height pitch
          (FixFlags c flags) junk
          (if Int.land (FixFlags c flags) c.kDxt1 ≠ 0 then 8 else 16) x y s)
        (DecompressImage.loopX c H bmem rgba width height pitch (FixFlags c flags) junk
          (if Int.land (FixFlags c flags) c.kDxt1 ≠ 0 then 8 else 16) y)
        (int32.DecompressImage.loopX c H bmem rgba width height pitch (FixFlags c flags) junk
          (if Int.land (FixFlags c flags) c.kDxt1 ≠ 0 then 8 else 16) y)
        (fun _ _ => rfl) (fun _ _ _ => rfl) (fun _ _ => rfl) (fun _ _ _ => rfl)
        (fun x s hx hx2 =>
          DecompressImage_tile_wrap c H bmem rgba width height pitch (FixFlags c flags) junk _
            x y s hr hx hx2 hy hy2)
        width.toNat 0 s (le_refl 0))
    height.toNat 0 _ (le_refl 0)

/-- Without `int` overflow in the tiler, the block loops of `ComputeMSE` on 32-bit `int` are
those on exact integers. -/
theorem ComputeMSE_loop_wrap {CS M : Type} (c : FlagConsts) (H : SubCodecs CS M)
    (image : Mem) (dmem : Mem) (rgba width height pitch flags : Int)
    (junk : Int → Int → Int → u8) (junk4 : Int → u8) (bpb : Int) (s0 : MSEState CS)
    (hr : NoOverflow width height pitch) :
    int32.ComputeMSE.loopY c H image dmem rgba width height pitch flags junk junk4 bpb
        height.toNat 0 s0 =
      ComputeMSE.loopY c H image dmem rgba width height pitch flags junk junk4 bpb
        height.toNat 0 s0 := by
  have hcols : width + 3 < 2147483648 := by
    have := hr.cols
    omega
  exact loop_wrap_eq height hr.rows
    (fun y s => ComputeMSE.loopX c H image dmem rgba width height pitch flags junk junk4 bpb y
      width.toNat 0 s)
    (fun y s => int32.ComputeMSE.loopX c H image dmem rgba width height pitch flags junk junk4
      bpb y width.toNat 0 s)
    (ComputeMSE.loopY c H image dmem rgba width height pitch flags junk junk4 bpb)
    (int32.ComputeMSE.loopY c H image dmem rgba width height pitch flags junk junk4 bpb)
    (fun _ _ => rfl) (fun _ _ _ => rfl) (fun _ _ => rfl) (fun _ _ _ => rfl)
    (fun y s hy hy2 =>
      loop_wrap_eq width hcols
        (fun x s => ComputeMSE.tile c H image dmem rgba width height pitch flags junk junk4
          bpb x y s)
        (fun x s => int32.ComputeMSE.tile c H image dmem rgba width height pitch flags junk
          junk4 bpb x y s)
        (ComputeMSE.loopX c H image dmem rgba width height pitch flags junk junk4 bpb y)
        (int32.ComputeMSE.loopX c H image dmem rgba width height pitch flags junk junk4 bpb y)
        (fun _ _ => rfl) (fun _ _ _ => rfl) (fun _ _ => rfl) (fun _ _ _ => rfl)
        (fun x s hx hx2 =>
          ComputeMSE_tile_wrap c H image dmem rgba width height pitch flags junk junk4 bpb x y
            s hr hx hx2 hy hy2)
        width.toNat 0 s (le_refl 0))
    height.toNat 0 s0 (le_refl 0)

/-- Without `int` overflow, `ComputeMSE` on 32-bit `int` is `ComputeMSE` on exact integers. -/
theorem ComputeMSE_wrap {CS M : Type} (c : FlagConsts) (H : SubCodecs CS M) (image : Mem)
    (rgba width height pitch : Int) (dmem : Mem) (dxt : Int) (flags : Int)
    (junk : Int → Int → Int → u8) (junk4 : Int → u8) (hw : 0 ≤ width) (hh : 0 ≤ height)
    (hr : NoOverflow width height pitch) (hd : width * height * 3 < 2147483648) :
    int32.ComputeMSE c H image rgba width height pitch dmem dxt flags junk junk4 =
      ComputeMSE c H image rgba width height pitch dmem dxt flags junk junk4 := by
  have hp : 0 ≤ width * height := mul_nonneg hw hh
  unfold int32.ComputeMSE ComputeMSE
  simp only []
  rw [ComputeMSE_loop_wrap c H image dmem rgba width height pitch _ junk junk4 _ _ hr]
  generalize width * height = n at hp hd
  rw [wrapInt_of_range n (by omega) (by omega), wrapInt_of_range (n * 3) (by omega) hd]

/-- Without `int` overflow, `GetStorageRequirements` on 32-bit `int` is
`GetStorageRequirements` on exact integers. -/
theorem GetStorageRequirements_wrap (c : FlagConsts) (width height flags : Int)
    (hw : 0 ≤ width) (hh : 0 ≤ height) (hw2 : width + 3 < 2147483648)
    (hh2 : height + 3 < 2147483648)
    (hs : GetStorageRequirements c width height flags < 2147483648) :
    int32.GetStorageRequirements c width height flags =
      GetStorageRequirements c width height flags := by
  have hA : 0 ≤ Int.tdiv (width + 3) 4 := Int.tdiv_nonneg (by omega) (by norm_num)
  have hB : 0 ≤ Int.tdiv (height + 3) 4 := Int.tdiv_nonneg (by omega) (by norm_num)
  have hAB := mul_nonneg hA hB
  unfold GetStorageRequirements at hs
  unfold int32.GetStorageRequirements GetStorageRequirements
  simp only [] at hs ⊢
  rw [wrapInt_of_range (width + 3) (by omega) hw2, wrapInt_of_range (height + 3) (by omega) hh2]
  generalize Int.tdiv (width + 3) 4 * Int.tdiv (height + 3) 4 = n at hs hAB ⊢
  by_cases hf : Int.land (FixFlags c flags) c.kDxt1 ≠ 0
  · rw [if_pos hf] at hs ⊢
    rw [wrapInt_of_range n (by omega) (by omega), wrapInt_of_range (n * 8) (by omega) hs]
  · rw [if_neg hf] at hs ⊢
    rw [wrapInt_of_range n (by omega) (by omega), wrapInt_of_range (n * 16) (by omega) hs]
/-! ## Channel copy in one memory -/

theorem store_of_ne (mem : Mem) (p : Int) (v : u8) (a : Int) (h : a ≠ p) :
    store mem p v a = mem a := by
  unfold store
  rw [if_neg h]

/-- When the four destination bytes do not overlap the four source bytes, `CopyRGBA` in one
memory is `CopyRGBA` from that memory into itself as a separate destination. -/
theorem CopyRGBA_shared_eq (c : FlagConsts) (mem : Mem) (source dest : Int) (flags : Int)
    (hd : dest + 4 ≤ source ∨ source + 4 ≤ dest) :
    CopyRGBA.shared c mem source dest flags = CopyRGBA c mem source mem dest flags := by
  have hr : List.range 4 = [0, 1, 2, 3] := rfl
  unfold CopyRGBA.shared CopyRGBA
  by_cases hf : Int.land flags c.kSourceBGRA ≠ 0
  · simp only [if_pos hf]
    rw [store_of_ne mem (dest + 0) _ (source + 1) (by omega),
      store_of_ne _ (dest + 1) _ (source + 0) (by omega),
      store_of_ne mem (dest + 0) _ (source + 0) (by omega),
      store_of_ne _ (dest + 2) _ (source + 3) (by omega),
      store_of_ne _ (dest + 1) _ (source + 3) (by omega),
      store_of_ne mem (dest + 0) _ (source + 3) (by omega)]
  · simp only [if_neg hf, hr, List.foldl]
    rw [store_of_ne mem dest _ (source + 1) (by omega),
      store_of_ne _ (dest + 1) _ (source + 1 + 1) (by omega),
      store_of_ne mem dest _ (source + 1 + 1) (by omega),
      store_of_ne _ (dest + 1 + 1) _ (source + 1 + 1 + 1) (by omega),
      store_of_ne _ (dest + 1) _ (source + 1 + 1 + 1) (by omega),
      store_of_ne mem dest _ (source + 1 + 1 + 1) (by omega)]

/-! ## Error sums on 32-bit `int` -/

/-- The two sums of `ComputeMSE` after the block loops, as sums over the pixels of the
image. -/
theorem ComputeMSE_loop_closed {CS M : Type} {c : FlagConsts} (hc : c.SingleBits)
    (H : SubCodecs CS M) (image : Mem) (rgba width height pitch : Int) (dmem : Mem)
    (dxt : Int) (flags : Int) (junk : Int → Int → Int → u8) (junk4 : Int → u8) :
    (ComputeMSE.loopY c H image dmem rgba width height pitch (FixFlags c flags) junk junk4
        (if Int.land (FixFlags c flags) c.kDxt1 ≠ 0 then 8 else 16) height.toNat 0
        ({ sourceBlock := dxt, colourMSE := 0, alphaMSE := 0, trace := [] } :
          MSEState CS)).colourMSE =
        ∑ p ∈ Finset.range width.toNat ×ˢ Finset.range height.toNat,
          colourError (srcByte c image rgba pitch flags (p.1 : Int) (p.2 : Int))
            (decByte c H dmem dxt width flags junk (p.1 : Int) (p.2 : Int)) ∧
      (ComputeMSE.loopY c H image dmem rgba width height pitch (FixFlags c flags) junk junk4
        (if Int.land (FixFlags c flags) c.kDxt1 ≠ 0 then 8 else 16) height.toNat 0
        ({ sourceBlock := dxt, colourMSE := 0, alphaMSE := 0, trace := [] } :
          MSEState CS)).alphaMSE =
        ∑ p ∈ Finset.range width.toNat ×ˢ Finset.range height.toNat,
          alphaError (srcByte c image rgba pitch flags (p.1 : Int) (p.2 : Int))
            (decByte c H dmem dxt width flags junk (p.1 : Int) (p.2 : Int)) := by
  rw [ComputeMSE_loop_eq]
  obtain ⟨_, h2, h3⟩ := @ComputeMSE_loop_sums CS M c H image dmem rgba width height pitch
    (FixFlags c flags) junk junk4 (if Int.land (FixFlags c flags) c.kDxt1 ≠ 0 then 8 else 16)
    dxt (tilesAcross width * tilesAcross height)
  rw [h2, h3,
    ← sum_tiles_eq width height (fun sx sy =>
      colourError (srcByte c image rgba pitch flags sx sy)
        (decByte c H dmem dxt width flags junk sx sy)),
    ← sum_tiles_eq width height (fun sx sy =>
      alphaError (srcByte c image rgba pitch flags sx sy)
        (decByte c H dmem dxt width flags junk sx sy))]
  constructor
  · apply Finset.sum_congr rfl
    intro k _
    apply Finset.sum_congr rfl
    intro n hn
    rw [Finset.mem_range] at hn
    by_cases hin : 4 * ((k % tilesAcross width : Nat) : Int) + ((n % 4 : Nat) : Int) < width ∧
        4 * ((k / tilesAcross width : Nat) : Int) + ((n / 4 : Nat) : Int) < height
    · obtain ⟨t1, t2⟩ := ComputeMSE_term_eq hc H image dmem rgba width pitch dxt flags junk k n
        hn hin.1
      rw [if_pos hin, if_pos hin, t1, t2]
    · rw [if_neg hin, if_neg hin]
  · apply Finset.sum_congr rfl
    intro k _
    apply Finset.sum_congr rfl
    intro n hn
    rw [Finset.mem_range] at hn
    by_cases hin : 4 * ((k % tilesAcross width : Nat) : Int) + ((n % 4 : Nat) : Int) < width ∧
        4 * ((k / tilesAcross width : Nat) : Int) + ((n / 4 : Nat) : Int) < height
    · obtain ⟨t1, t2⟩ := ComputeMSE_term_eq hc H image dmem rgba width pitch dxt flags junk k n
        hn hin.1
      rw [if_pos hin, if_pos hin, t1, t2]
    · rw [if_neg hin, if_neg hin]

/-- Without `int` overflow in the tiler, the two results of `ComputeMSE` on 32-bit `int` are
the sums over the pixels of the image divided by the `int` products. -/
theorem ComputeMSE_sums_wrap {CS M : Type} {c : FlagConsts} (hc : c.SingleBits)
    (H : SubCodecs CS M) (image : Mem) (rgba width height pitch : Int) (dmem : Mem)
    (dxt : Int) (flags : Int) (junk : Int → Int → Int → u8) (junk4 : Int → u8)
    (hr : NoOverflow width height pitch) :
    int32.ComputeMSE c H image rgba width height pitch dmem dxt flags junk junk4 =
      { colourMSE := ComputeMSE.divide
          (∑ p ∈ Finset.range width.toNat ×ˢ Finset.range height.toNat,
            colourError (srcByte c image rgba pitch flags (p.1 : Int) (p.2 : Int))
              (decByte c H dmem dxt width flags junk (p.1 : Int) (p.2 : Int)))
          (wrapInt (wrapInt (width * height) * 3))
        alphaMSE := ComputeMSE.divide
          (∑ p ∈ Finset.range width.toNat ×ˢ Finset.range height.toNat,
            alphaError (srcByte c image rgba pitch flags (p.1 : Int) (p.2 : Int))
              (decByte c H dmem dxt width flags junk (p.1 : Int) (p.2 : Int)))
          (wrapInt (width * height)) } := by
  obtain ⟨h1, h2⟩ :=
    @ComputeMSE_loop_closed CS M c hc H image rgba width height pitch dmem dxt flags junk junk4
  unfold int32.ComputeMSE
  simp only []
  rw [ComputeMSE_loop_wrap c H image dmem rgba width height pitch _ junk junk4 _ _ hr, h1, h2]
/-! ## Block layout of `CompressImage` on 32-bit `int` -/

/-- Fuel `n.toNat` is enough for a loop over the tile origins below `n` whose counter is
advanced on 32-bit `int`, when `n` leaves room for the last increment. -/
theorem for_step4_wrap {σ : Type} (bound : Int) (hb : bound + 3 < 2147483648)
    (body : Int → σ → σ) (L32 : Nat → Int → σ → σ) (h0 : ∀ x s, L32 0 x s = s)
    (hs : ∀ f x s, L32 (f + 1) x s =
      if x < bound then L32 f (wrapInt (x + 4)) (body x s) else s) (s : σ) :
    L32 bound.toNat 0 s = (tileOrigins bound).foldl (fun s x' => body x' s) s := by
  rw [loop_wrap_eq bound hb body body
    (fun fuel => Nat.rec (fun _ s => s)
      (fun _ ih x s => if x < bound then ih (x + 4) (body x s) else s) fuel)
    L32 (fun _ _ => rfl) (fun _ _ _ => rfl) h0 hs (fun _ _ _ _ => rfl) bound.toNat 0 s
    (le_refl 0)]
  exact for_step4_origins bound body
    (fun fuel => Nat.rec (fun _ s => s)
      (fun _ ih x s => if x < bound then ih (x + 4) (body x s) else s) fuel)
    (fun _ _ => rfl) (fun _ _ _ => rfl) s

/-- When the loop counters do not overflow, the block loops of `CompressImage` on 32-bit `int`
are one loop over the tile numbers. -/
theorem CompressImage_wrap_range {CS M : Type} (c : FlagConsts) (H : SubCodecs CS M)
    (image : Mem) (rgba width height pitch : Int) (out : Mem) (blocks : Int) (flags : Int)
    (metric : M) (junk : Int → Int → Int → u8) (hw3 : width + 3 < 2147483648)
    (hh3 : height + 3 < 2147483648) :
    int32.CompressImage c H image rgba width height pitch out blocks flags metric junk =
      (List.range (tilesAcross width * tilesAcross height)).foldl
        (fun s k =>
          int32.CompressImage.tile c H image rgba width height pitch (FixFlags c flags) metric
            junk (if Int.land (FixFlags c flags) c.kDxt1 ≠ 0 then 8 else 16)
            (4 * ((k % tilesAcross width : Nat) : Int))
            (4 * ((k / tilesAcross width : Nat) : Int)) s)
        { mem := out, targetBlock := blocks, invocations := [], trace := [] } := by
  unfold int32.CompressImage
  simp only []
  rw [for_step4_wrap height hh3
    (fun y s => int32.CompressImage.loopX c H image rgba width height pitch (FixFlags c flags)
      metric junk (if Int.land (FixFlags c flags) c.kDxt1 ≠ 0 then 8 else 16) y width.toNat 0 s)
    (int32.CompressImage.loopY c H image rgba width height pitch (FixFlags c flags) metric junk
      (if Int.land (FixFlags c flags) c.kDxt1 ≠ 0 then 8 else 16))
    (fun _ _ => rfl) (fun _ _ _ => rfl)]
  rw [← foldl_tiles
    (fun x y s => int32.CompressImage.tile c H image rgba width height pitch (FixFlags c flags)
      metric junk (if Int.land (FixFlags c flags) c.kDxt1 ≠ 0 then 8 else 16) x y s)]
  congr 1
  funext s y
  exact for_step4_wrap width hw3
    (fun x s => int32.CompressImage.tile c H image rgba width height pitch (FixFlags c flags)
      metric junk (if Int.land (FixFlags c flags) c.kDxt1 ≠ 0 then 8 else 16) x y s)
    (int32.CompressImage.loopX c H image rgba width height pitch (FixFlags c flags) metric junk
      (if Int.land (FixFlags c flags) c.kDxt1 ≠ 0 then 8 else 16) y)
    (fun _ _ => rfl) (fun _ _ _ => rfl) s

/-- When the loop counters do not overflow, `CompressImage` on 32-bit `int` leaves the write
pointer one block per tile after `blocks`, has given call `i` the block pointer
`blocks + blockSize * i` and the normalised flags, and has changed no byte outside these
blocks, wherever the pixels of the tiles were read. -/
theorem CompressImage_wrap_layout {CS M : Type} {c : FlagConsts} (hc : c.SingleBits)
    (H : SubCodecs CS M) (image : Mem) (rgba width height pitch : Int) (out : Mem)
    (blocks : Int) (flags : Int) (metric : M) (junk : Int → Int → Int → u8)
    (hw3 : width + 3 < 2147483648) (hh3 : height + 3 < 2147483648) :
    (int32.CompressImage c H image rgba width height pitch out blocks flags metric
        junk).targetBlock =
        blocks + (normalisedFormat c flags).blockSize *
          ((tilesAcross width * tilesAcross height : Nat) : Int) ∧
      (int32.CompressImage c H image rgba width height pitch out blocks flags metric
        junk).invocations.map (fun inv => (inv.block, inv.flags)) =
        (List.range (tilesAcross width * tilesAcross height)).map
          (fun i : Nat =>
            (blocks + (normalisedFormat c flags).blockSize * (i : Int), FixFlags c flags)) ∧
      (∀ a, a < blocks ∨ blocks + (normalisedFormat c flags).blockSize *
          ((tilesAcross width * tilesAcross height : Nat) : Int) ≤ a →
        (int32.CompressImage c H image rgba width height pitch out blocks flags metric
          junk).mem a = out a) := by
  rw [CompressImage_wrap_range c H image rgba width height pitch out blocks flags metric junk
    hw3 hh3, bytesPerBlock_eq hc]
  have hnf : normalisedFormat c (FixFlags c flags) = normalisedFormat c flags := by
    obtain ⟨pos, hp⟩ := singleBits_positions hc
    rw [normalisedFormat_eq hp, normalisedFormat_eq hp, groupPos_FixFlags_format hp]
  have hb := blockSize_cases (normalisedFormat c flags)
  exact foldl_range_inv _
    (fun k (s : ImageState CS) =>
      s.targetBlock = blocks + (normalisedFormat c flags).blockSize * (k : Int) ∧
        s.invocations.map (fun inv => (inv.block, inv.flags)) =
          (List.range k).map
            (fun i : Nat =>
              (blocks + (normalisedFormat c flags).blockSize * (i : Int), FixFlags c flags)) ∧
        (∀ a, a < blocks ∨ blocks + (normalisedFormat c flags).blockSize * (k : Int) ≤ a →
          s.mem a = out a))
    _ _
    ⟨by simp, by simp, fun a _ => rfl⟩
    (fun k _ s hinv => by
      have hk0 : (0 : Int) ≤ (k : Int) := Int.ofNat_nonneg k
      obtain ⟨i1, i2, i3⟩ := hinv
      unfold int32.CompressImage.tile
      simp only []
      refine ⟨?_, ?_, ?_⟩
      · rw [i1]
        push_cast
        ring
      · rw [List.map_append, i2, List.range_succ, List.map_append, i1]
        rfl
      · intro a ha
        rw [i1, CompressMasked_frame hc]
        · apply i3
          rcases ha with ha | ha
          · exact Or.inl ha
          · right
            push_cast at ha
            rcases hb with hb | hb <;> rw [hb] at ha ⊢ <;> omega
        · rw [hnf]
          rcases ha with ha | ha
          · left
            rcases hb with hb | hb <;> rw [hb] <;> omega
          · right
            push_cast at ha
            rcases hb with hb | hb <;> rw [hb] at ha ⊢ <;> omega)
/-! ## The claims on 32-bit `int` and in one memory -/

/-- C15 as stated fails: called in place (`dest = source`) with `kSourceBGRA` set on the pixel
`s = (10, 20, 30, 40)`, `CopyRGBA` leaves `(30, 20, 30, 40)` and not
`(s[2], s[1], s[0], s[3]) = (30, 20, 10, 40)`: `dest[0] = source[2]` has overwritten `s[0]`
before `dest[2] = source[0]` reads it. -/
theorem CopyRGBA_in_place :
    Int.testBit 512 9 = true ∧
      (List.range 4).map
          (fun i : Nat => (fun a : Int => (Fin.ofNat (10 * (a.toNat + 1)) : u8)) (0 + i)) =
        [10, 20, 30, 40] ∧
      (List.range 4).map
          (fun i : Nat =>
            CopyRGBA.shared stdFlags (fun a => Fin.ofNat (10 * (a.toNat + 1))) 0 0 512 (0 + i)) =
        [30, 20, 30, 40] ∧
      CopyRGBA.shared stdFlags (fun a => Fin.ofNat (10 * (a.toNat + 1))) 0 0 512 (0 + 2) ≠
        (fun a : Int => (Fin.ofNat (10 * (a.toNat + 1)) : u8)) 0 := by
  decide

/-- C15, amended: when the four destination bytes do not overlap the four source bytes,
`CopyRGBA` writes `(s[2], s[1], s[0], s[3])` when the `kSourceBGRA` bit of `flags` is set and
`(s[0], s[1], s[2], s[3])` otherwise, `s` being the source pixel on entry; channels 1 and 3 stay
in place in both cases, no byte outside the destination pixel changes, no other flag bit
influences the result, and the copy is the one of `CopyRGBA` between separate memories. -/
theorem CopyRGBA_spec (c : FlagConsts) (p : Nat) (hp : c.kSourceBGRA = 2 ^ p) (mem : Mem)
    (source dest : Int) (flags : Int) (hd : dest + 4 ≤ source ∨ source + 4 ≤ dest) :
    (flags.testBit p = true →
        CopyRGBA.shared c mem source dest flags dest = mem (source + 2) ∧
        CopyRGBA.shared c mem source dest flags (dest + 2) = mem source) ∧
      (flags.testBit p = false →
        CopyRGBA.shared c mem source dest flags dest = mem source ∧
        CopyRGBA.shared c mem source dest flags (dest + 2) = mem (source + 2)) ∧
      CopyRGBA.shared c mem source dest flags (dest + 1) = mem (source + 1) ∧
      CopyRGBA.shared c mem source dest flags (dest + 3) = mem (source + 3) ∧
      (∀ a, a < dest ∨ dest + 4 ≤ a → CopyRGBA.shared c mem source dest flags a = mem a) ∧
      (∀ flags2 : Int, flags2.testBit p = flags.testBit p →
        CopyRGBA.shared c mem source dest flags2 = CopyRGBA.shared c mem source dest flags) ∧
      CopyRGBA.shared c mem source dest flags = CopyRGBA c mem source mem dest flags := by
  have h := CopyRGBA_separate c p hp mem source mem dest flags
  have e : ∀ f : Int,
      CopyRGBA.shared c mem source dest f = CopyRGBA c mem source mem dest f :=
    fun f => CopyRGBA_shared_eq c mem source dest f hd
  simp only [e]
  exact ⟨h.1, h.2.1, h.2.2.1, h.2.2.2.1, h.2.2.2.2.1, h.2.2.2.2.2, trivial⟩

/-- Instance of amended C15 with the libsquish enumerators (`kSourceBGRA` is bit 9): the pixel
`(10, 20, 30, 40)` at address 0 copied to address 8 under `kSourceBGRA | kDxt5` arrives with 30
first and 10 third. -/
theorem CopyRGBA_spec_witness :
    CopyRGBA.shared stdFlags (fun a => Fin.ofNat (10 * (a.toNat + 1))) 0 8 516 8 = 30 ∧
      CopyRGBA.shared stdFlags (fun a => Fin.ofNat (10 * (a.toNat + 1))) 0 8 516 (8 + 2) =
        10 :=
  (CopyRGBA_spec stdFlags 9 rfl (fun a => Fin.ofNat (10 * (a.toNat + 1))) 0 8 516
    (Or.inr (by decide))).1 (by decide)

/-- C11 as stated fails: for the 1x3 image at address 0 with `pitch = 2^30`
(`pitch ≥ 4 * width`), the `int` product `pitch * sy` overflows in row 2 and wraps to `-2^31`.
The pixel `(0, 2)` is written at address `-2^31` and not at `pitch*2 + 4*0 = 2^31`, so a
destination differs from `rgba + pitch*sy + 4*sx`: the byte at `-2^31`, which lies in none of
the three pixel ranges, changes from 0 to 7, and the byte at `2^31` keeps its value 0. -/
theorem DecompressImage_row_overflow :
    4 * 1 ≤ (1073741824 : Int) ∧
      (int32.DecompressImage stdFlags demoCodecs (fun _ => 0) 0 1 3 1073741824 (fun _ => 7) 0 1
          (fun _ _ _ => 0)).writes =
        [{ sx := 0, sy := 0, sourcePixel := 0, targetPixel := 0 },
         { sx := 0, sy := 1, sourcePixel := 16, targetPixel := 1073741824 },
         { sx := 0, sy := 2, sourcePixel := 32, targetPixel := -2147483648 }] ∧
      (int32.DecompressImage stdFlags demoCodecs (fun _ => 0) 0 1 3 1073741824 (fun _ => 7) 0 1
          (fun _ _ _ => 0)).mem (-2147483648) = 7 ∧
      (int32.DecompressImage stdFlags demoCodecs (fun _ => 0) 0 1 3 1073741824 (fun _ => 7) 0 1
          (fun _ _ _ => 0)).mem (0 + 1073741824 * 2 + 4 * 0) = 0 ∧
      ¬ (∀ w ∈ (int32.DecompressImage stdFlags demoCodecs (fun _ => 0) 0 1 3 1073741824
            (fun _ => 7) 0 1 (fun _ _ _ => 0)).writes,
          w.targetPixel = 0 + 1073741824 * w.sy + 4 * w.sx) ∧
      ¬ (∀ a : Int,
          (∀ sx sy : Int, 0 ≤ sx → sx < 1 → 0 ≤ sy → sy < 3 →
            ∀ ch : Int, 0 ≤ ch → ch < 4 → a ≠ 0 + 1073741824 * sy + 4 * sx + ch) →
          (int32.DecompressImage stdFlags demoCodecs (fun _ => 0) 0 1 3 1073741824 (fun _ => 7)
            0 1 (fun _ _ _ => 0)).mem a = (fun _ => 0) a) := by
  refine ⟨by decide, by decide, by decide, by decide, by decide, ?_⟩
  intro h
  have h7 := h (-2147483648) (fun sx sy _ _ _ _ ch _ _ => by omega)
  revert h7
  decide

/-- C11, amended: when no `int` operation overflows (`NoOverflow`) and `pitch ≥ 4 * width`,
`DecompressImage` calls `CopyRGBA` once for each position `(sx, sy)` of the image and for no
other, with destination `rgba + pitch*sy + 4*sx`, so `width * height` times; the byte ranges
written are pairwise disjoint and every byte outside them is left unchanged; a 5x5 image has 25
positions written while 4 tiles are decoded. -/
theorem DecompressImage_writes {CS M : Type} (c : FlagConsts) (H : SubCodecs CS M)
    (image : Mem) (rgba width height pitch : Int) (bmem : Mem) (blocks : Int) (flags : Int)
    (junk : Int → Int → Int → u8) (hw : 0 ≤ width) (hh : 0 ≤ height)
    (hp : 4 * width ≤ pitch) (hr : NoOverflow width height pitch) :
    ((int32.DecompressImage c H image rgba width height pitch bmem blocks flags junk).writes.map
        (fun w => (w.sx, w.sy))).Nodup ∧
      (∀ sx sy : Int,
        (sx, sy) ∈ (int32.DecompressImage c H image rgba width height pitch bmem blocks flags
            junk).writes.map (fun w => (w.sx, w.sy)) ↔
          0 ≤ sx ∧ sx < width ∧ 0 ≤ sy ∧ sy < height) ∧
      (∀ w ∈ (int32.DecompressImage c H image rgba width height pitch bmem blocks flags
          junk).writes,
        w.targetPixel = rgba + pitch * w.sy + 4 * w.sx) ∧
      (∀ w1 ∈ (int32.DecompressImage c H image rgba width height pitch bmem blocks flags
          junk).writes,
        ∀ w2 ∈ (int32.DecompressImage c H image rgba width height pitch bmem blocks flags
          junk).writes,
        ∀ ch1 ch2 : Int, 0 ≤ ch1 → ch1 < 4 → 0 ≤ ch2 → ch2 < 4 →
          w1.targetPixel + ch1 = w2.targetPixel + ch2 → w1.sx = w2.sx ∧ w1.sy = w2.sy) ∧
      (∀ a : Int,
        (∀ sx sy : Int, 0 ≤ sx → sx < width → 0 ≤ sy → sy < height →
          ∀ ch : Int, 0 ≤ ch → ch < 4 → a ≠ rgba + pitch * sy + 4 * sx + ch) →
        (int32.DecompressImage c H image rgba width height pitch bmem blocks flags junk).mem a =
          image a) ∧
      (int32.DecompressImage c H image rgba width height pitch bmem blocks flags
          junk).writes.length =
        width.toNat * height.toNat ∧
      (int32.DecompressImage c H image rgba width height pitch bmem blocks flags
          junk).decodes.length =
        tilesAcross width * tilesAcross height ∧
      (width = 5 → height = 5 →
        (int32.DecompressImage c H image rgba width height pitch bmem blocks flags
          junk).writes.length = 25 ∧
        (int32.DecompressImage c H image rgba width height pitch bmem blocks flags
          junk).decodes.length = 4) := by
  rw [DecompressImage_wrap c H image rgba width height pitch bmem blocks flags junk hr]
  exact DecompressImage_log_exact c H image rgba width height pitch bmem blocks flags junk
    hw hh hp

/-- Instance of amended C11: decoding a 5x5 image makes 25 calls of `CopyRGBA` and 4 of
`Decompress`. -/
theorem DecompressImage_writes_witness :
    (int32.DecompressImage stdFlags demoCodecs (fun _ => 0) 0 5 5 20 rampTile 0 1
        (fun _ _ _ => 0)).writes.length = 25 ∧
      (int32.DecompressImage stdFlags demoCodecs (fun _ => 0) 0 5 5 20 rampTile 0 1
        (fun _ _ _ => 0)).decodes.length = 4 :=
  (DecompressImage_writes stdFlags demoCodecs (fun _ => 0) 0 5 5 20 rampTile 0 1
    (fun _ _ _ => 0) (by decide) (by decide) (by decide)
    ⟨by decide, by decide, fun sy h0 h1 => by omega⟩).2.2.2.2.2.2.2 rfl rfl

/-- C17 as stated fails: for the 1x3 image at address 0 with `pitch = 2^30`
(`pitch ≥ 4 * width`) and DXT1 blocks that decode to bytes 7, channel 0 of the image pixel
`(0, 2)`, at `pitch*2 + 4*0 = 2^31`, still holds 0 after `DecompressImage`, while `CopyRGBA` of
pixel number `4*(2 mod 4) + (0 mod 4) = 8` of the block at offset
`((2 div 4) * 1 + (0 div 4)) * 8 = 0` is 7: the `int` product `pitch * sy` has overflowed and
the decoded bytes went to `-2^31`. -/
theorem DecompressImage_pixel_misplaced :
    4 * 1 ≤ (1073741824 : Int) ∧
      (int32.DecompressImage stdFlags demoCodecs (fun _ => 0) 0 1 3 1073741824 (fun _ => 7) 0 1
          (fun _ _ _ => 0)).mem (0 + 1073741824 * 2 + 4 * 0 + 0) = 0 ∧
      CopyRGBA stdFlags
          (Decompress stdFlags demoCodecs (fun _ => 0) (fun _ => 7)
            (0 + ((2 / 4) * 1 + 0 / 4) * 8) 1).rgba
          (4 * (4 * (2 % 4) + 0 % 4)) (fun _ => 0) 0 1 (0 + 0) = 7 ∧
      (int32.DecompressImage stdFlags demoCodecs (fun _ => 0) 0 1 3 1073741824 (fun _ => 7) 0 1
          (fun _ _ _ => 0)).mem (0 + 1073741824 * 2 + 4 * 0 + 0) ≠
        CopyRGBA stdFlags
          (Decompress stdFlags demoCodecs (fun _ => 0) (fun _ => 7)
            (0 + ((2 / 4) * 1 + 0 / 4) * 8) 1).rgba
          (4 * (4 * (2 % 4) + 0 % 4)) (fun _ => 0) 0 1 (0 + 0) := by
  decide

/-- C17, amended: when no `int` operation overflows (`NoOverflow`) and `pitch ≥ 4 * width`,
after `DecompressImage` channel `ch` of the image pixel `(sx, sy)`, `0 ≤ sx < width` and
`0 ≤ sy < height`, at `rgba + pitch*sy + 4*sx`, is what `CopyRGBA` under `flags` makes of pixel
number `4*(sy mod 4) + (sx mod 4)` of `Decompress` applied to the block at byte offset
`((sy div 4) * ceil(width/4) + (sx div 4)) * blockSize`. -/
theorem DecompressImage_pixels {CS M : Type} (c : FlagConsts) (hc : c.SingleBits)
    (H : SubCodecs CS M) (image : Mem) (rgba width height pitch : Int) (bmem : Mem)
    (blocks : Int) (flags : Int) (junk : Int → Int → Int → u8)
    (hp : 4 * width ≤ pitch) (hr : NoOverflow width height pitch) (sx sy : Int)
    (hx0 : 0 ≤ sx) (hxw : sx < width)
    (hy0 : 0 ≤ sy) (hyh : sy < height) (ch : Int) (h0 : 0 ≤ ch) (h4 : ch < 4) (dst : Mem)
    (dest : Int) :
    (int32.DecompressImage c H image rgba width height pitch bmem blocks flags junk).mem
        (rgba + pitch * sy + 4 * sx + ch) =
      CopyRGBA c
        (Decompress c H (junk (4 * (sx / 4)) (4 * (sy / 4))) bmem
          (blocks + ((sy / 4) * ⌈(width : ℚ) / 4⌉ + sx / 4) *
            (normalisedFormat c flags).blockSize) flags).rgba
        (4 * (4 * (sy % 4) + sx % 4)) dst dest flags (dest + ch) := by
  rw [DecompressImage_wrap c H image rgba width height pitch bmem blocks flags junk hr]
  exact DecompressImage_bytes_exact c hc H image rgba width height pitch bmem blocks flags junk
    hp sx sy hx0 hxw hy0 hyh ch h0 h4 dst dest

/-- Instance of amended C17: in a 5x5 image decoded from DXT1 blocks, the pixel `(4, 1)` comes from
pixel number 4 of the second block, at byte offset 8. -/
theorem DecompressImage_pixels_witness :
    (int32.DecompressImage stdFlags demoCodecs (fun _ => 0) 0 5 5 20 rampTile 0 1
        (fun _ _ _ => 0)).mem (0 + 20 * 1 + 4 * 4 + 0) =
      CopyRGBA stdFlags
        (Decompress stdFlags demoCodecs (fun _ => 0) rampTile
          (0 + ((1 / 4) * ⌈((5 : Int) : ℚ) / 4⌉ + 4 / 4) *
            (normalisedFormat stdFlags 1).blockSize) 1).rgba
        (4 * (4 * (1 % 4) + 4 % 4)) (fun _ => 0) 0 1 (0 + 0) :=
  DecompressImage_pixels stdFlags stdFlags_singleBits demoCodecs (fun _ => 0) 0 5 5 20 rampTile
    0 1 (fun _ _ _ => 0) (by decide) ⟨by decide, by decide, fun sy h0 h1 => by omega⟩ 4 1
    (by decide) (by decide) (by decide) (by decide) 0 (by decide) (by decide) (fun _ => 0) 0
/-- C12 as stated fails: for a 65536x65536 image in DXT5 (with `pitch = 0`, so that no `int`
operation of `CompressImage` overflows), `CompressImage` makes `2^28` calls of `CompressMasked`
and its write pointer ends `2^32` bytes after `blocks`, while
`GetStorageRequirements(65536, 65536, kDxt5)` is 0: its `int` product `blockcount * blocksize`
is `2^28 * 16 = 2^32` and wraps to 0. -/
theorem CompressImage_storage_overflow :
    int32.GetStorageRequirements stdFlags 65536 65536 4 = 0 ∧
      (int32.CompressImage stdFlags demoCodecs (fun _ => 0) 0 65536 65536 0 (fun _ => 0) 0 4 ()
          (fun _ _ _ => 0)).invocations.length = 268435456 ∧
      (int32.CompressImage stdFlags demoCodecs (fun _ => 0) 0 65536 65536 0 (fun _ => 0) 0 4 ()
          (fun _ _ _ => 0)).targetBlock = 0 + 4294967296 ∧
      (int32.CompressImage stdFlags demoCodecs (fun _ => 0) 0 65536 65536 0 (fun _ => 0) 0 4 ()
          (fun _ _ _ => 0)).targetBlock ≠
        0 + int32.GetStorageRequirements stdFlags 65536 65536 4 := by
  obtain ⟨iT, iC, _⟩ := CompressImage_wrap_layout stdFlags_singleBits demoCodecs (fun _ => 0) 0
    65536 65536 0 (fun _ => 0) 0 4 () (fun _ _ _ => 0) (by decide) (by decide)
  have ht : tilesAcross 65536 = 16384 := by decide
  have hb : (normalisedFormat stdFlags 4).blockSize = 16 := by decide
  have hg : int32.GetStorageRequirements stdFlags 65536 65536 4 = 0 := by decide
  refine ⟨hg, ?_, ?_, ?_⟩
  · have := congrArg List.length iC
    rw [List.length_map, List.length_map, List.length_range, ht] at this
    rw [this]
  · rw [iT, ht, hb]
    norm_num
  · rw [iT, ht, hb, hg]
    norm_num

/-- C12, amended: for `width, height ≥ 0`, when no `int` operation of `GetStorageRequirements`
overflows (`width + 3`, `height + 3` and the exact byte count `ceil(width/4) * ceil(height/4) *
blockSize` are below `2^31`), `CompressImage` calls `CompressMasked` `ceil(width/4) *
ceil(height/4)` times, call `k` with block pointer `blocks + k * blockSize` and the normalised
flags; a call changes no byte outside the `blockSize` bytes of its block and hands the sub-codecs
8-byte sub-blocks inside it; the write pointer ends `GetStorageRequirements(width, height, flags)`
bytes after `blocks`, no byte outside that range changes, and every byte of the range lies in the
block of exactly one call. -/
theorem CompressImage_blocks {CS M : Type} (c : FlagConsts) (hc : c.SingleBits)
    (H : SubCodecs CS M) (image : Mem) (rgba width height pitch : Int) (out : Mem)
    (blocks : Int) (flags : Int) (metric : M) (junk : Int → Int → Int → u8) (hw : 0 ≤ width)
    (hh : 0 ≤ height) (hw3 : width + 3 < 2147483648) (hh3 : height + 3 < 2147483648)
    (hs : GetStorageRequirements c width height flags < 2147483648) :
    (((int32.CompressImage c H image rgba width height pitch out blocks flags metric
        junk).invocations.length : Nat) : Int) =
        ⌈(width : ℚ) / 4⌉ * ⌈(height : ℚ) / 4⌉ ∧
      (∀ (k : Nat) (hk : k < (int32.CompressImage c H image rgba width height pitch out blocks
          flags metric junk).invocations.length),
        ((int32.CompressImage c H image rgba width height pitch out blocks flags metric
            junk).invocations.get ⟨k, hk⟩).block =
          blocks + (k : Int) * (normalisedFormat c flags).blockSize ∧
        ((int32.CompressImage c H image rgba width height pitch out blocks flags metric
            junk).invocations.get ⟨k, hk⟩).flags = FixFlags c flags) ∧
      (∀ inv ∈ (int32.CompressImage c H image rgba width height pitch out blocks flags metric
          junk).invocations, ∀ m : Mem,
        (∀ a, a < inv.block ∨ inv.block + (normalisedFormat c flags).blockSize ≤ a →
          (CompressMasked c H inv.rgba inv.mask m inv.block inv.flags metric).mem a = m a) ∧
        (∀ p,
          p ∈ (CompressMasked c H inv.rgba inv.mask m inv.block inv.flags
              metric).trace.filterMap Call.colourPtr ∨
            p ∈ (CompressMasked c H inv.rgba inv.mask m inv.block inv.flags
              metric).trace.filterMap Call.alphaPtr →
          inv.block ≤ p ∧ p + 8 ≤ inv.block + (normalisedFormat c flags).blockSize)) ∧
      (int32.CompressImage c H image rgba width height pitch out blocks flags metric
          junk).targetBlock = blocks + int32.GetStorageRequirements c width height flags ∧
      (∀ a, a < blocks ∨ blocks + int32.GetStorageRequirements c width height flags ≤ a →
        (int32.CompressImage c H image rgba width height pitch out blocks flags metric junk).mem a =
          out a) ∧
      (∀ a, blocks ≤ a → a < blocks + int32.GetStorageRequirements c width height flags →
        ∃! k : Nat,
          k < (int32.CompressImage c H image rgba width height pitch out blocks flags metric
            junk).invocations.length ∧
          blocks + (k : Int) * (normalisedFormat c flags).blockSize ≤ a ∧
          a < blocks + (k : Int) * (normalisedFormat c flags).blockSize +
            (normalisedFormat c flags).blockSize) := by
  obtain ⟨iT, iC, iF⟩ := CompressImage_wrap_layout hc H image rgba width height pitch out blocks
    flags metric junk hw3 hh3
  rw [GetStorageRequirements_wrap c width height flags hw hh hw3 hh3 hs]
  have hnf : normalisedFormat c (FixFlags c flags) = normalisedFormat c flags := by
    obtain ⟨pos, hp⟩ := singleBits_positions hc
    rw [normalisedFormat_eq hp, normalisedFormat_eq hp, groupPos_FixFlags_format hp]
  have hlen : (int32.CompressImage c H image rgba width height pitch out blocks flags metric
      junk).invocations.length = tilesAcross width * tilesAcross height := by
    have := congrArg List.length iC
    simpa using this
  have hget : ∀ (k : Nat) (hk : k < (int32.CompressImage c H image rgba width height pitch out
      blocks flags metric junk).invocations.length),
      ((int32.CompressImage c H image rgba width height pitch out blocks flags metric
          junk).invocations.get ⟨k, hk⟩).block =
        blocks + (k : Int) * (normalisedFormat c flags).blockSize ∧
      ((int32.CompressImage c H image rgba width height pitch out blocks flags metric
          junk).invocations.get ⟨k, hk⟩).flags = FixFlags c flags := by
    intro k hk
    have h1 := congrArg (fun l => l[k]?) iC
    simp only [List.getElem?_map, List.getElem?_range (hlen ▸ hk),
      List.getElem?_eq_getElem hk, Option.map_some', Option.some.injEq, Prod.mk.injEq] at h1
    rw [List.get_eq_getElem]
    exact ⟨by rw [h1.1]; ring, h1.2⟩
  have hgsr := GetStorageRequirements_eq_tiles hc width height flags hw hh
  have hb := blockSize_cases (normalisedFormat c flags)
  refine ⟨?_, hget, ?_, ?_, ?_, ?_⟩
  · rw [hlen, Nat.cast_mul, tilesAcross_cast_nonneg width hw,
      tilesAcross_cast_nonneg height hh, ediv_add_three, ediv_add_three]
  · intro inv hmem m
    obtain ⟨k, hk, rfl⟩ := List.mem_iff_get.1 hmem
    have hfl := (hget k.1 k.2).2
    rw [show (⟨k.1, k.2⟩ : Fin _) = k from rfl] at hfl
    rw [hfl]
    refine ⟨?_, ?_⟩
    · intro a ha
      exact CompressMasked_frame hc H _ _ _ _ _ _ a (by rw [hnf]; exact ha)
    · intro p hp
      have := CompressMasked_ptrs hc H _ _ _ _ _ _ p hp
      rw [hnf] at this
      exact this
  · rw [iT, hgsr]
    ring
  · intro a ha
    apply iF
    rw [hgsr] at ha
    rcases ha with ha | ha
    · exact Or.inl ha
    · right
      rw [mul_comm]
      exact ha
  · intro a ha1 ha2
    rw [hgsr, ← hlen] at ha2
    generalize (int32.CompressImage c H image rgba width height pitch out blocks flags metric
      junk).invocations.length = N at ha2 ⊢
    rcases hb with hb | hb <;> rw [hb] at ha2 ⊢
    · refine ⟨((a - blocks) / 8).toNat, ⟨by omega, by omega, by omega⟩, ?_⟩
      rintro k ⟨_, h2, h3⟩
      omega
    · refine ⟨((a - blocks) / 16).toNat, ⟨by omega, by omega, by omega⟩, ?_⟩
      rintro k ⟨_, h2, h3⟩
      omega

/-- Instance of amended C12: a 5x6 image in DXT5 gives 4 calls writing 64 bytes from address 100. -/
theorem CompressImage_blocks_witness :
    (int32.CompressImage stdFlags demoCodecs (fun _ => 0) 0 5 6 20 (fun _ => 0) 100 4 ()
        (fun _ _ _ => 0)).targetBlock =
      100 + int32.GetStorageRequirements stdFlags 5 6 4 :=
  (CompressImage_blocks stdFlags stdFlags_singleBits demoCodecs (fun _ => 0) 0 5 6 20
    (fun _ => 0) 100 4 () (fun _ _ _ => 0) (by decide) (by decide) (by decide) (by decide)
    (by decide)).2.2.2.1

/-- C16 as stated fails: for the 32768x32768 image whose bytes are all 1 (with
`pitch = 0`, so that no `int` operation of the loops overflows) against DXT1 blocks decoded to
bytes 3, every pixel has colour error `3 * 4`, so the sum divided by `3 * width * height` is 4;
`ComputeMSE` returns `-12`: its divisor is the `int` product `width * height * 3 = 3 * 2^30`,
which wraps to `-2^30`. -/
theorem ComputeMSE_divisor_overflow :
    (∑ p ∈ Finset.range (32768 : Int).toNat ×ˢ Finset.range (32768 : Int).toNat,
        colourError (srcByte stdFlags (fun _ => 1) 0 0 1 (p.1 : Int) (p.2 : Int))
          (decByte stdFlags demoCodecs (fun _ => 3) 0 32768 1 (fun _ _ _ => 0) (p.1 : Int)
            (p.2 : Int))) /
        (3 * ((32768 : Int) : ℚ) * ((32768 : Int) : ℚ)) = 4 ∧
      (int32.ComputeMSE stdFlags demoCodecs (fun _ => 1) 0 32768 32768 0 (fun _ => 3) 0 1
        (fun _ _ _ => 0) (fun _ => 0)).colourMSE = some (-12) ∧
      (int32.ComputeMSE stdFlags demoCodecs (fun _ => 1) 0 32768 32768 0 (fun _ => 3) 0 1
        (fun _ _ _ => 0) (fun _ => 0)).colourMSE ≠
        some ((∑ p ∈ Finset.range (32768 : Int).toNat ×ˢ Finset.range (32768 : Int).toNat,
            colourError (srcByte stdFlags (fun _ => 1) 0 0 1 (p.1 : Int) (p.2 : Int))
              (decByte stdFlags demoCodecs (fun _ => 3) 0 32768 1 (fun _ _ _ => 0) (p.1 : Int)
                (p.2 : Int))) /
          (3 * ((32768 : Int) : ℚ) * ((32768 : Int) : ℚ))) := by
  have hr : NoOverflow 32768 32768 0 :=
    ⟨by decide, by decide, fun sy h0 h1 => by omega⟩
  have hterm : ∀ p : Nat × Nat,
      colourError (srcByte stdFlags (fun _ => 1) 0 0 1 (p.1 : Int) (p.2 : Int))
        (decByte stdFlags demoCodecs (fun _ => 3) 0 32768 1 (fun _ _ _ => 0) (p.1 : Int)
          (p.2 : Int)) = 12 := by
    intro p
    have hd : ∀ ch : Int,
        decByte stdFlags demoCodecs (fun _ => 3) 0 32768 1 (fun _ _ _ => 0) (p.1 : Int)
          (p.2 : Int) ch = 3 := fun ch => by rw [demoCodecs_decByte]
    have hs : ∀ ch : Int, srcByte stdFlags (fun _ => 1) 0 0 1 (p.1 : Int) (p.2 : Int) ch = 1 :=
      fun ch => rfl
    unfold colourError
    rw [hd, hd, hd, hd, hs, hs, hs, hs, if_neg (by decide)]
    unfold toDouble
    rw [show (1 : u8).val = 1 from rfl, show (3 : u8).val = 3 from rfl]
    norm_num
  have hsum : (∑ p ∈ Finset.range (32768 : Int).toNat ×ˢ Finset.range (32768 : Int).toNat,
      colourError (srcByte stdFlags (fun _ => 1) 0 0 1 (p.1 : Int) (p.2 : Int))
        (decByte stdFlags demoCodecs (fun _ => 3) 0 32768 1 (fun _ _ _ => 0) (p.1 : Int)
          (p.2 : Int))) = 12884901888 := by
    rw [Finset.sum_congr rfl (fun p _ => hterm p), Finset.sum_const, Finset.card_product,
      Finset.card_range]
    have : (32768 : Int).toNat = 32768 := by decide
    rw [this]
    norm_num
  have hdiv : wrapInt (wrapInt (32768 * 32768) * 3) = -1073741824 := by decide
  have hres : (int32.ComputeMSE stdFlags demoCodecs (fun _ => 1) 0 32768 32768 0 (fun _ => 3)
      0 1 (fun _ _ _ => 0) (fun _ => 0)).colourMSE = some (-12) := by
    rw [ComputeMSE_sums_wrap stdFlags_singleBits demoCodecs (fun _ => 1) 0 32768 32768 0
      (fun _ => 3) 0 1 (fun _ _ _ => 0) (fun _ => 0) hr]
    dsimp only
    rw [hsum, hdiv]
    unfold ComputeMSE.divide
    rw [if_neg (by decide)]
    norm_num
  refine ⟨?_, hres, ?_⟩
  · rw [hsum]
    norm_num
  · rw [hres, hsum]
    norm_num

/-- C16, amended: for `width, height ≥ 1`, when no `int` operation overflows (`NoOverflow`, and
`width * height * 3` is below `2^31`), in exact rational arithmetic, `ComputeMSE` returns as
`colourMSE` the sum over the `width * height` pixels of the image, each once, of the colour
error of the pixel (the squared differences of the three colour channels, or 0 when both alphas
are 0), divided by `3 * width * height`, and as `alphaMSE` the sum of the squared alpha
differences divided by `width * height`; the source pixel is taken after the channel reorder
and the decoded pixel from the block of its tile. -/
theorem ComputeMSE_spec {CS M : Type} (c : FlagConsts) (hc : c.SingleBits)
    (H : SubCodecs CS M) (image : Mem) (rgba width height pitch : Int) (dmem : Mem)
    (dxt : Int) (flags : Int) (junk : Int → Int → Int → u8) (junk4 : Int → u8)
    (hw : 1 ≤ width) (hh : 1 ≤ height)
    (hr : NoOverflow width height pitch) (hd : width * height * 3 < 2147483648) :
    (int32.ComputeMSE c H image rgba width height pitch dmem dxt flags junk junk4).colourMSE =
        some ((∑ p ∈ Finset.range width.toNat ×ˢ Finset.range height.toNat,
            colourError (srcByte c image rgba pitch flags (p.1 : Int) (p.2 : Int))
              (decByte c H dmem dxt width flags junk (p.1 : Int) (p.2 : Int))) /
          (3 * (width : ℚ) * (height : ℚ))) ∧
      (int32.ComputeMSE c H image rgba width height pitch dmem dxt flags junk junk4).alphaMSE =
        some ((∑ p ∈ Finset.range width.toNat ×ˢ Finset.range height.toNat,
            alphaError (srcByte c image rgba pitch flags (p.1 : Int) (p.2 : Int))
              (decByte c H dmem dxt width flags junk (p.1 : Int) (p.2 : Int))) /
          ((width : ℚ) * (height : ℚ))) ∧
      ((Finset.range width.toNat ×ˢ Finset.range height.toNat).card : Int) =
        width * height := by
  rw [ComputeMSE_wrap c H image rgba width height pitch dmem dxt flags junk junk4 (by omega)
    (by omega) hr hd]
  exact ComputeMSE_quotients_exact c hc H image rgba width height pitch dmem dxt flags junk junk4
    hw hh

/-- Instance of amended C16: the 2x1 image with bytes `(1, 1, 1, 1)` in both pixels against blocks
decoded to bytes 3 has colour error `3 * 4` and alpha error `4` per pixel. -/
theorem ComputeMSE_spec_witness :
    (int32.ComputeMSE stdFlags demoCodecs (fun _ => 1) 0 2 1 8 (fun _ => 3) 0 1
        (fun _ _ _ => 0) (fun _ => 0)).colourMSE =
      some ((∑ p ∈ Finset.range (2 : Int).toNat ×ˢ Finset.range (1 : Int).toNat,
          colourError (srcByte stdFlags (fun _ => 1) 0 8 1 (p.1 : Int) (p.2 : Int))
            (decByte stdFlags demoCodecs (fun _ => 3) 0 2 1 (fun _ _ _ => 0) (p.1 : Int)
              (p.2 : Int))) /
        (3 * ((2 : Int) : ℚ) * ((1 : Int) : ℚ))) :=
  (ComputeMSE_spec stdFlags stdFlags_singleBits demoCodecs (fun _ => 1) 0 2 1 8 (fun _ => 3) 0
    1 (fun _ _ _ => 0) (fun _ => 0) (by decide) (by decide)
    ⟨by decide, by decide, fun sy h0 h1 => by omega⟩ (by decide)).1

/-- C13 as stated fails: for the 65536x65536 image whose bytes are all 0 (with
`pitch = 0`, so that no `int` operation of the loops overflows) against DXT1 blocks decoded to
bytes 0, every source pixel equals its decoded pixel, and `ComputeMSE` returns no number in
`colourMSE` and `alphaMSE`: the `int` products `width * height * 3` and `width * height` are
multiples of `2^32` and wrap to 0, and the sums are divided by zero. -/
theorem ComputeMSE_zero_divisor :
    (∀ sx sy : Int, 0 ≤ sx → sx < 65536 → 0 ≤ sy → sy < 65536 →
      ∀ ch : Int, 0 ≤ ch → ch < 4 →
        srcByte stdFlags (fun _ => 0) 0 0 1 sx sy ch =
          decByte stdFlags demoCodecs (fun _ => 0) 0 65536 1 (fun _ _ _ => 0) sx sy ch) ∧
      (int32.ComputeMSE stdFlags demoCodecs (fun _ => 0) 0 65536 65536 0 (fun _ => 0) 0 1
        (fun _ _ _ => 0) (fun _ => 0)).colourMSE = none ∧
      (int32.ComputeMSE stdFlags demoCodecs (fun _ => 0) 0 65536 65536 0 (fun _ => 0) 0 1
        (fun _ _ _ => 0) (fun _ => 0)).alphaMSE = none ∧
      (int32.ComputeMSE stdFlags demoCodecs (fun _ => 0) 0 65536 65536 0 (fun _ => 0) 0 1
        (fun _ _ _ => 0) (fun _ => 0)).colourMSE ≠ some 0 := by
  have h3 : wrapInt (wrapInt (65536 * 65536) * 3) = 0 := by decide
  have h1 : wrapInt (65536 * 65536) = 0 := by decide
  have hres : (int32.ComputeMSE stdFlags demoCodecs (fun _ => 0) 0 65536 65536 0 (fun _ => 0)
      0 1 (fun _ _ _ => 0) (fun _ => 0)).colourMSE = none := by
    unfold int32.ComputeMSE
    dsimp only
    rw [h3]
    rfl
  refine ⟨fun sx sy _ _ _ _ ch _ _ => by rw [demoCodecs_decByte]; rfl, hres, ?_, ?_⟩
  · unfold int32.ComputeMSE
    dsimp only
    rw [h1]
    rfl
  · rw [hres]
    exact Option.noConfusion

/-- C13, amended: for `width, height ≥ 1` and every `pitch`, `flags` and block stream for which
no `int` operation overflows (`NoOverflow`, and `width * height * 3` is below `2^31`), if every
pixel of the image equals, after the channel reorder, its decoded pixel in all four channels,
then `ComputeMSE` returns `colourMSE = 0` and `alphaMSE = 0`. -/
theorem ComputeMSE_identical {CS M : Type} (c : FlagConsts) (hc : c.SingleBits)
    (H : SubCodecs CS M) (image : Mem) (rgba width height pitch : Int) (dmem : Mem)
    (dxt : Int) (flags : Int) (junk : Int → Int → Int → u8) (junk4 : Int → u8)
    (hw : 1 ≤ width) (hh : 1 ≤ height)
    (hr : NoOverflow width height pitch) (hd : width * height * 3 < 2147483648)
    (heq : ∀ sx sy : Int, 0 ≤ sx → sx < width → 0 ≤ sy → sy < height →
      ∀ ch : Int, 0 ≤ ch → ch < 4 →
        srcByte c image rgba pitch flags sx sy ch =
          decByte c H dmem dxt width flags junk sx sy ch) :
    (int32.ComputeMSE c H image rgba width height pitch dmem dxt flags junk junk4).colourMSE =
        some 0 ∧
      (int32.ComputeMSE c H image rgba width height pitch dmem dxt flags junk junk4).alphaMSE =
        some 0 := by
  rw [ComputeMSE_wrap c H image rgba width height pitch dmem dxt flags junk junk4 (by omega)
    (by omega) hr hd]
  exact ComputeMSE_equal_exact c hc H image rgba width height pitch dmem dxt flags junk
    junk4 hw hh heq

/-- Instance of amended C13: a 5x5 image whose bytes are all 1 against DXT1 blocks that `demoCodecs`
decodes to bytes 1. -/
theorem ComputeMSE_identical_witness :
    (int32.ComputeMSE stdFlags demoCodecs (fun _ => 1) 0 5 5 20 (fun _ => 1) 0 1
        (fun _ _ _ => 0) (fun _ => 0)).colourMSE = some 0 ∧
      (int32.ComputeMSE stdFlags demoCodecs (fun _ => 1) 0 5 5 20 (fun _ => 1) 0 1
        (fun _ _ _ => 0) (fun _ => 0)).alphaMSE = some 0 :=
  ComputeMSE_identical stdFlags stdFlags_singleBits demoCodecs (fun _ => 1) 0 5 5 20
    (fun _ => 1) 0 1 (fun _ _ _ => 0) (fun _ => 0) (by decide) (by decide)
    ⟨by decide, by decide, fun sy h0 h1 => by omega⟩ (by decide)
    (fun sx sy _ _ _ _ ch _ _ => by rw [demoCodecs_decByte]; rfl)

end squish
